import Mathlib

/-!
# DiskAnalyzer: a verification development

Shallow embedding of `src/fileitem.cpp` (the `FileItem` tree with its memoized
`totalSize`) and of `src/scanner.cpp` (the count pass, the directory scan, the
completion handler, `start` and `stop`), followed by the theorems that settle
the claims of the specification.

Modelling conventions.

* `QString` is `String`, `QDateTime` is an integer time stamp.
* `qint64` and `int` values are integers; every addition, subtraction and
  product the code makes on them is reduced to the range of its type, as the
  two's-complement targets of Qt do (`wrap64` for `qint64`, `wrapInt` for
  `int`). A size is the `qint64` the constructor or `QFileInfo::size()` hands
  over.
* A `std::shared_ptr<FileItem>` into the tree is a path of child indices from
  the root item it belongs to (children are only ever appended, so indices are
  stable).
* Every access to an atomic member, every mutex-protected write and every
  signal emission of the scanner is its own step of the thread that makes it;
  threads interleave between steps.
-/

namespace DiskAnalyzer

/-! ## Machine integers -/

/-- Value of an `int` expression whose mathematical value is `x`, on the
two's-complement 32-bit `int` of the targets Qt supports. -/
def wrapInt (x : Int) : Int := (x + 2 ^ 31) % 2 ^ 32 - 2 ^ 31

/-- Value of a `qint64` expression whose mathematical value is `x`
(two's complement, 64 bits). -/
def wrap64 (x : Int) : Int := (x + 2 ^ 63) % 2 ^ 64 - 2 ^ 63

/-- The value lies in the range of `qint64`. -/
def Fits64 (x : Int) : Prop := -2 ^ 63 ≤ x ∧ x < 2 ^ 63

/-! ## `fileitem.h` / `fileitem.cpp` -/

/-- The class `FileItem`: the constructor arguments, the child list and the two
`mutable` cache members. -/
inductive FileItem where
  | mk (m_name : String) (m_path : String) (m_size : Int) (m_modified : Int)
       (m_isDirectory : Bool) (m_children : List FileItem)
       (m_cachedTotalSize : Int) (m_totalSizeCached : Bool) : FileItem
deriving Repr, Inhabited

namespace FileItem

/-- Constructor `FileItem::FileItem`: no children, cache value 0, cache flag false. -/
def new (name path : String) (size : Int) (modified : Int) (isDir : Bool) : FileItem :=
  mk name path size modified isDir [] 0 false

def name : FileItem → String
  | mk n _ _ _ _ _ _ _ => n

def path : FileItem → String
  | mk _ p _ _ _ _ _ _ => p

def size : FileItem → Int
  | mk _ _ s _ _ _ _ _ => s

def modified : FileItem → Int
  | mk _ _ _ m _ _ _ _ => m

def isDirectory : FileItem → Bool
  | mk _ _ _ _ d _ _ _ => d

def children : FileItem → List FileItem
  | mk _ _ _ _ _ cs _ _ => cs

def cachedTotalSize : FileItem → Int
  | mk _ _ _ _ _ _ cv _ => cv

def totalSizeCached : FileItem → Bool
  | mk _ _ _ _ _ _ _ cf => cf

/-- Method `FileItem::addChild`: append the child, clear the cache flag. -/
def addChild : FileItem → FileItem → FileItem
  | mk n p s m d cs cv _, child => mk n p s m d (cs ++ [child]) cv false

mutual
/-- Method `FileItem::totalSize`, state passing: the returned pair is the result
and the node after the call (the `const_cast` writes to the two cache members,
in this node and in every descendant the recursion reached). -/
def totalSize : FileItem → Int × FileItem
  | mk n p s m d cs cv cf =>
    if cf then (cv, mk n p s m d cs cv cf)
    else
      let r := totalSizeLoop cs s
      (r.1, mk n p s m d r.2 r.1 true)
/-- The `for (const auto &child : m_children) total += child->totalSize();` loop,
with the running `total`, a `qint64`. -/
def totalSizeLoop : List FileItem → Int → Int × List FileItem
  | [], total => (total, [])
  | c :: cs, total =>
    let rc := totalSize c
    let rr := totalSizeLoop cs (wrap64 (total + rc.1))
    (rr.1, rc.2 :: rr.2)
end

/-- The node a pointer (a path of child indices) designates. -/
def nodeAt : List Nat → FileItem → Option FileItem
  | [], t => some t
  | k :: p, t =>
    match t.children[k]? with
    | some c => nodeAt p c
    | none => none

/-- `addChild` called through a pointer to the node at path `q`. A dangling
path changes nothing. -/
def addChildAt : List Nat → FileItem → FileItem → FileItem
  | [], child, t => t.addChild child
  | k :: q, child, mk n p s m d cs cv cf =>
    match cs[k]? with
    | some c => mk n p s m d (cs.set k (addChildAt q child c)) cv cf
    | none => mk n p s m d cs cv cf

/-- `totalSize()` called through a pointer to the node at path `q`: the value
returned and the whole tree after the call. -/
def totalSizeAt : List Nat → FileItem → Option (Int × FileItem)
  | [], t => some (totalSize t)
  | k :: q, mk n p s m d cs cv cf =>
    match cs[k]? with
    | some c =>
      match totalSizeAt q c with
      | some r => some (r.1, mk n p s m d (cs.set k r.2) cv cf)
      | none => none
    | none => none

/-- A sequence of `totalSize()` calls on nodes of the tree, oldest first; a call
through a dangling path is dropped. -/
def afterCalls : List (List Nat) → FileItem → FileItem
  | [], t => t
  | q :: qs, t =>
    match totalSizeAt q t with
    | some r => afterCalls qs r.2
    | none => afterCalls qs t

mutual
/-- Sum of the own sizes of all nodes of the subtree. -/
def subtreeSum : FileItem → Int
  | mk _ _ s _ _ cs _ _ => s + subtreeSumList cs
def subtreeSumList : List FileItem → Int
  | [] => 0
  | c :: cs => subtreeSum c + subtreeSumList cs
end

mutual
/-- Every memoized total in the subtree is the true total. -/
def CacheOk : FileItem → Prop
  | mk _ _ s _ _ cs cv cf => (cf = true → cv = s + subtreeSumList cs) ∧ CacheOkList cs
def CacheOkList : List FileItem → Prop
  | [] => True
  | c :: cs => CacheOk c ∧ CacheOkList cs
end

mutual
/-- Every total of the subtree (of the node and of each node below it) lies in
the range of `qint64`. -/
def SumsFit : FileItem → Prop
  | mk _ _ s _ _ cs _ _ => Fits64 (s + subtreeSumList cs) ∧ SumsFitList cs
def SumsFitList : List FileItem → Prop
  | [] => True
  | c :: cs => SumsFit c ∧ SumsFitList cs
end

mutual
/-- No node of the subtree has a memoized total. -/
def Fresh : FileItem → Prop
  | mk _ _ _ _ _ cs _ cf => cf = false ∧ FreshList cs
def FreshList : List FileItem → Prop
  | [] => True
  | c :: cs => Fresh c ∧ FreshList cs
end

/-- Trees built by the constructor and `addChild` (on the root or, through a
pointer, on any node), with no `totalSize()` call in between. -/
inductive Built : FileItem → Prop where
  | new (name path : String) (size modified : Int) (isDir : Bool) :
      Built (FileItem.new name path size modified isDir)
  | addChildAt (q : List Nat) (child t : FileItem) :
      Built t → Built child → Built (addChildAt q child t)

end FileItem

/-! ## Measures of a tree -/

namespace FileItem

/-- What the constructor stored in the node: name, path, size, time stamp and
kind. -/
def info : FileItem → String × String × Int × Int × Bool
  | mk n p s m d _ _ _ => (n, p, s, m, d)

mutual
/-- Number of file-type nodes (`isDirectory()` false) of the subtree. -/
def fileNodes : FileItem → Nat
  | mk _ _ _ _ d cs _ _ => (if d then 0 else 1) + fileNodesList cs
def fileNodesList : List FileItem → Nat
  | [] => 0
  | c :: cs => fileNodes c + fileNodesList cs
end

mutual
/-- Sum of the own sizes of the file-type nodes of the subtree. -/
def fileBytes : FileItem → Int
  | mk _ _ s _ d cs _ _ => (if d then 0 else s) + fileBytesList cs
def fileBytesList : List FileItem → Int
  | [] => 0
  | c :: cs => fileBytes c + fileBytesList cs
end

mutual
/-- Every file-type node of the subtree has no children and every directory
node has own size 0. -/
def WellKinded : FileItem → Prop
  | mk _ _ s _ d cs _ _ => (d = false → cs = []) ∧ (d = true → s = 0) ∧ WellKindedList cs
def WellKindedList : List FileItem → Prop
  | [] => True
  | c :: cs => WellKinded c ∧ WellKindedList cs
end

end FileItem

/-! ## The file system as `QDir` and `QFileInfo` report it -/

/-- One `QFileInfo` of a listing, with what `QDir` reports below it.

* `file`: `isFile()` holds (a regular file, or a link to one); `size` is `size()`.
* `dir`: `isDir()` holds; `isSymLink` is `isSymLink()`; `dirExists` is what
  `QDir(absoluteFilePath).exists()` answers when the directory is opened;
  `entries` is what `entryInfoList(Files | Dirs | NoDotAndDotDot | Hidden |
  System, QDir::Name)` returns for it, in that order (empty when the directory
  cannot be read).
* `other`: neither `isFile()` nor `isDir()` (what the `System` filter adds: a
  broken link, a device, a socket); as the root, a path at which nothing exists. -/
inductive Entry where
  | file (fileName : String) (size : Nat) (lastModified : Int) : Entry
  | dir (fileName : String) (lastModified : Int) (isSymLink : Bool) (dirExists : Bool)
      (entries : List Entry) : Entry
  | other (fileName : String) : Entry
deriving Repr, Inhabited

namespace Entry

def fileName : Entry → String
  | file n _ _ => n
  | dir n _ _ _ _ => n
  | other n => n

def isFile : Entry → Bool
  | file _ _ _ => true
  | _ => false

def isDir : Entry → Bool
  | dir _ _ _ _ _ => true
  | _ => false

def isSymLink : Entry → Bool
  | dir _ _ l _ _ => l
  | _ => false

def size : Entry → Int
  | file _ sz _ => (sz : Int)
  | _ => 0

def lastModified : Entry → Int
  | file _ _ m => m
  | dir _ m _ _ _ => m
  | other _ => 0

/-- Answer of `QDir(path).exists()`: the path is a directory that exists. -/
def dirExists : Entry → Bool
  | dir _ _ _ ex _ => ex
  | _ => false

/-- Listing in `QDir::Name` order. -/
def entries : Entry → List Entry
  | dir _ _ _ _ es => es
  | _ => []

/-- Method `QDir::entryInfoList` with the filters of the scanner. With
`QDir::Name` alone the listing is in name order; `QDir::DirsFirst | QDir::Name`
moves the entries with `isDir()` ahead and keeps the name order inside the two
groups. -/
def entryInfoList (dirsFirst : Bool) (d : Entry) : List Entry :=
  if dirsFirst then
    d.entries.filter (fun e => e.isDir) ++ d.entries.filter (fun e => !e.isDir)
  else d.entries

end Entry

/-- Method `QFileInfo::absoluteFilePath` of an entry of the directory `path`. -/
def absoluteFilePath (path : String) (e : Entry) : String :=
  path ++ "/" ++ e.fileName

/-! ## `scanner.cpp`: the count pass -/

mutual
/-- Method `Scanner::countFilesInDirectory`. `cancel k` is what the `k`-th read
of `m_cancelRequested` made by the pass observes; the second component counts
the reads made so far. The count is an `int`. -/
def countFilesInDirectory (cancel : Nat → Bool) : Entry → Nat → Int × Nat
  | Entry.dir _ _ _ ex es, k =>
    if cancel k then (0, k + 1)
    else if !ex then (0, k + 1)
    else countLoop cancel es 0 (k + 1)
  | _, k => (0, k + 1)
/-- The `for (const QFileInfo &entry : entries)` loop of the count pass, with
the running `count`. -/
def countLoop (cancel : Nat → Bool) : List Entry → Int → Nat → Int × Nat
  | [], count, k => (count, k)
  | e :: rest, count, k =>
    if cancel k then (count, k + 1)
    else if e.isDir && !e.isSymLink then
      let r := countFilesInDirectory cancel e (k + 1)
      countLoop cancel rest (wrapInt (count + r.1)) r.2
    else if e.isFile then countLoop cancel rest (wrapInt (count + 1)) (k + 1)
    else countLoop cancel rest count (k + 1)
end

mutual
/-- The number the specification gives for the count pass: the plain files
reachable through directories that are not symbolic links (a directory that
does not exist has nothing below it). -/
def plainFilesBelow : Entry → Nat
  | Entry.dir _ _ _ ex es => if ex then plainFilesIn es else 0
  | _ => 0
/-- Plain files of a listing: one per file entry, plus those below each
directory entry that is not a symbolic link. -/
def plainFilesIn : List Entry → Nat
  | [] => 0
  | Entry.file _ _ _ :: rest => 1 + plainFilesIn rest
  | Entry.dir n m l ex es :: rest =>
    (if l then 0 else plainFilesBelow (Entry.dir n m l ex es)) + plainFilesIn rest
  | Entry.other _ :: rest => plainFilesIn rest
end

/-! ## `scanner.cpp`: the progress percentage -/

/-- Expression `m_totalFiles > 0 ? (m_scannedFiles * 100) / m_totalFiles : 0`:
an `int` product, then the truncating `int` division. -/
def percentOf (m_scannedFiles m_totalFiles : Int) : Int :=
  if m_totalFiles > 0 then Int.tdiv (wrapInt (m_scannedFiles * 100)) m_totalFiles else 0

/-! ## `scanner.h` / `scanner.cpp`: the session -/

/-- A `std::shared_ptr<FileItem>`: the root item it lives under (an index into
the root items `start()` has allocated) and the path of child indices to it. -/
structure ItemRef where
  root : Nat
  path : List Nat
deriving Repr, DecidableEq, Inhabited

/-- The signals of `Scanner`, with their arguments. `finished` carries the
pointer `m_rootItem` (`none` is the null pointer). -/
inductive Event where
  | progress (percent : Int) (currentPath : String) (filesCount : Int) (totalSize : Int)
  | fileFound (filePath : String) (size : Int)
  | finished (root : Option Nat)
  | error (message : String)
deriving Repr, DecidableEq, Inhabited

/-- Program points inside `Scanner::onTaskFinished`. -/
inductive Otf where
  /-- Test `if (m_cancelRequested)`. -/
  | enter
  /-- Cancel branch: `m_running = false`. -/
  | cancelRunning
  /-- Cancel branch: `emit progress(100, "Отменено", m_scannedFiles, m_totalSize)`. -/
  | cancelProgress
  /-- Normal branch: `emit progress(100, "Завершено", m_scannedFiles, m_totalSize)`. -/
  | progress
  /-- Normal branch: `emit finished(m_rootItem)`. -/
  | finished
  /-- Last statement: `m_running = false`. -/
  | running
deriving Repr, DecidableEq, Inhabited

/-- Program points of a pool task: the lambda of `start()` (count pass, first
progress, root `scanDirectory`) or the lambda of a subdirectory
(`scanDirectory`, decrement, zero test). `e` is the listing entry in hand, `rest`
the entries the loop has still to visit, `item` the pointer `dirItem`. -/
inductive PC where
  /-- Submitted by `QtConcurrent::run`, not started. -/
  | queued
  /-- Dropped from the queue by `m_threadPool.clear()`. -/
  | cleared
  /-- Statement `m_totalFiles = countFilesInDirectory(m_rootPath)`. -/
  | count
  /-- Statement `emit progress(0, m_rootPath, 0, 0)`. -/
  | firstProgress
  /-- Statement `if (!m_cancelRequested) scanDirectory(m_rootPath, m_rootItem)`. -/
  | rootCancel
  /-- Top of `scanDirectory`: `if (m_cancelRequested) return`. -/
  | scanCancel
  /-- Test `if (!dir.exists())`, the `error` signal, the listing. -/
  | scanExists
  /-- Loop head: `if (m_cancelRequested) break`, then the kind of the entry. -/
  | loop (rest : List Entry)
  /-- Lock `m_mutex`; `parent->addChild(fileItem)`. -/
  | fileAdd (e : Entry) (rest : List Entry)
  /-- Statement `m_scannedFiles++`. -/
  | fileCount (e : Entry) (rest : List Entry)
  /-- Statement `m_totalSize += entry.size()`; unlock. -/
  | fileBytes (e : Entry) (rest : List Entry)
  /-- Statement `emit fileFound(...)`. -/
  | fileFound (e : Entry) (rest : List Entry)
  /-- Statement `int percent = ...`. -/
  | filePercent (e : Entry) (rest : List Entry)
  /-- Statement `emit progress(percent, ...)`. -/
  | fileProgress (percent : Int) (e : Entry) (rest : List Entry)
  /-- Lock `m_mutex`; `parent->addChild(dirItem)`; unlock. -/
  | dirAdd (e : Entry) (rest : List Entry)
  /-- Test `if (!m_cancelRequested)` before the dispatch. -/
  | dirCancel (item : ItemRef) (e : Entry) (rest : List Entry)
  /-- Statement `m_activeTasks++`. -/
  | dirIncrement (item : ItemRef) (e : Entry) (rest : List Entry)
  /-- Statement `QtConcurrent::run(&m_threadPool, ...)`. -/
  | dirRun (item : ItemRef) (e : Entry) (rest : List Entry)
  /-- After the loop: `path == m_rootPath && m_activeTasks == 0`. -/
  | rootCheck
  /-- After the loop: `&& !m_cancelRequested`, then the call `onTaskFinished()`. -/
  | rootCheckCancel
  /-- Inside the direct call of `onTaskFinished()`. -/
  | handler (h : Otf)
  /-- Subdirectory lambda: `m_activeTasks--`. -/
  | decrement
  /-- Subdirectory lambda: `m_activeTasks == 0`. -/
  | zeroCheck
  /-- Subdirectory lambda: `&& !m_cancelRequested`, then the queued `invokeMethod`. -/
  | zeroCancel
  /-- The lambda has returned. -/
  | done
deriving Repr, Inhabited

/-- A task on a pool thread: is it running a statement of its lambda. -/
def PC.onThread : PC → Bool
  | PC.queued => false
  | PC.cleared => false
  | PC.done => false
  | _ => true

/-- The lambda has returned. -/
def PC.isDone : PC → Bool
  | PC.done => true
  | _ => false

/-- A unit of work given to `m_threadPool`. `isRootTask` tells the lambda of
`start()` from the lambda of a subdirectory; `path`, `parent` are the
arguments of its `scanDirectory` call and `dir` is the file system object at
`path`. -/
structure Task where
  isRootTask : Bool
  path : String
  dir : Entry
  parent : ItemRef
  pc : PC
deriving Repr, Inhabited

/-- Program points of the thread the `Scanner` object lives in: its event loop,
a queued `onTaskFinished` it is running, or a point inside `stop()`. -/
inductive MainPC where
  /-- In the event loop. -/
  | idle
  /-- Loop test `while (m_activeTasks > 0 && timeout < 50)`. -/
  | stopPoll (timeout : Nat)
  /-- Loop body: `msleep(100)`, `processEvents()`, `timeout++`. -/
  | stopEvents (timeout : Nat)
  /-- Statement `if (m_activeTasks > 0) m_threadPool.clear()`. -/
  | stopClear
  /-- Statement `m_running = false` of `stop()`. -/
  | stopRunning
  /-- A queued `onTaskFinished` in progress; `back` is `none` when the event loop
  delivered it and `some timeout` when `processEvents()` inside `stop()` did. -/
  | handler (h : Otf) (back : Option Nat)
deriving Repr, DecidableEq, Inhabited

/-- The `Scanner` object, the root items it has allocated, its thread pool, the
queue of `Qt::QueuedConnection` calls addressed to it and the signals emitted
so far (oldest first). `fs` is the file system object at `m_rootPath`;
`m_mutex` is the pool task that holds the mutex, if one does. `m_totalFiles`,
`m_scannedFiles` and `m_activeTasks` are `std::atomic<int>`, `m_totalSize` is
`std::atomic<qint64>`: what is stored in them lies in the range of the type. -/
structure Scanner where
  m_rootPath : String
  fs : Entry
  m_running : Bool
  m_cancelRequested : Bool
  m_totalFiles : Int
  m_scannedFiles : Int
  m_totalSize : Int
  m_activeTasks : Int
  m_rootItem : Option Nat
  m_mutex : Option Nat
  items : List FileItem
  pool : List Task
  maxThreadCount : Nat
  mainThread : MainPC
  pendingCalls : Nat
  events : List Event
deriving Repr, Inhabited

/-- What the user interface may call on the object's thread, and the two kinds
of scheduling decision: the object's thread makes its next step, or pool task
`i` does. -/
inductive Action where
  | start
  | stop
  | main
  | task (i : Nat)
deriving Repr, DecidableEq, Inhabited

namespace Scanner

/-- Constructor `Scanner::Scanner`. -/
def init (path : String) (fs : Entry) (idealThreadCount : Nat) : Scanner where
  m_rootPath := path
  fs := fs
  m_running := false
  m_cancelRequested := false
  m_totalFiles := 0
  m_scannedFiles := 0
  m_totalSize := 0
  m_activeTasks := 0
  m_rootItem := none
  m_mutex := none
  items := []
  pool := []
  maxThreadCount := if idealThreadCount > 2 then idealThreadCount else 2
  mainThread := MainPC.idle
  pendingCalls := 0
  events := []

/-- One `emit`. -/
def emit (s : Scanner) (ev : Event) : Scanner :=
  { s with events := s.events ++ [ev] }

/-- Store the task in slot `i` of the pool. -/
def setTask (s : Scanner) (i : Nat) (t : Task) : Scanner :=
  { s with pool := s.pool.set i t }

/-- Advance task `t`, in slot `i`, to the program point `pc`. -/
def goto (s : Scanner) (i : Nat) (t : Task) (pc : PC) : Scanner :=
  s.setTask i { t with pc := pc }

/-- `addChild` through the pointer `r`. -/
def addChildRef (s : Scanner) (r : ItemRef) (child : FileItem) : Scanner :=
  { s with items :=
      match s.items[r.root]? with
      | some t => s.items.set r.root (FileItem.addChildAt r.path child t)
      | none => s.items }

/-- The node the pointer `r` designates. -/
def deref (s : Scanner) (r : ItemRef) : Option FileItem :=
  match s.items[r.root]? with
  | some t => FileItem.nodeAt r.path t
  | none => none

/-- Number of pool threads in use. -/
def busyThreads (s : Scanner) : Nat :=
  s.pool.countP (fun t => t.pc.onThread)

/-- One step inside `Scanner::onTaskFinished`: the state after it. -/
def otfState (s : Scanner) : Otf → Scanner
  | Otf.enter => s
  | Otf.cancelRunning => { s with m_running := false }
  | Otf.cancelProgress =>
    s.emit (Event.progress 100 "Отменено" s.m_scannedFiles s.m_totalSize)
  | Otf.progress =>
    s.emit (Event.progress 100 "Завершено" s.m_scannedFiles s.m_totalSize)
  | Otf.finished => s.emit (Event.finished s.m_rootItem)
  | Otf.running => { s with m_running := false }

/-- One step inside `Scanner::onTaskFinished`: the program point after it
(`none`: the method returns). -/
def otfNext (s : Scanner) : Otf → Option Otf
  | Otf.enter => if s.m_cancelRequested then some Otf.cancelRunning else some Otf.progress
  | Otf.cancelRunning => some Otf.cancelProgress
  | Otf.cancelProgress => some Otf.running
  | Otf.progress => some Otf.finished
  | Otf.finished => some Otf.running
  | Otf.running => none

/-- Where a task goes when its `scanDirectory` call returns: the lambda of
`start()` ends, the lambda of a subdirectory goes on to `m_activeTasks--`. -/
def afterScan (t : Task) : PC :=
  if t.isRootTask then PC.done else PC.decrement

/-- The `FileItem` made for a file entry of the directory `path`. -/
def fileItem (path : String) (e : Entry) : FileItem :=
  FileItem.new e.fileName (absoluteFilePath path e) e.size e.lastModified false

/-- The `FileItem` made for a subdirectory entry of the directory `path`. -/
def dirItem (path : String) (e : Entry) : FileItem :=
  FileItem.new e.fileName (absoluteFilePath path e) 0 e.lastModified true

/-- The next step of pool task `t`, which sits in slot `i`; `none` when the task
cannot move (not started and no thread free, waiting for the mutex, ended). -/
def taskStep (s : Scanner) (i : Nat) (t : Task) : Option Scanner :=
  match t.pc with
  | PC.queued =>
    if s.busyThreads < s.maxThreadCount then
      some (s.goto i t (if t.isRootTask then PC.count else PC.scanCancel))
    else none
  | PC.cleared => none
  | PC.done => none
  | PC.count =>
    some (({ s with m_totalFiles :=
              (countFilesInDirectory (fun _ => s.m_cancelRequested) t.dir 0).1 } : Scanner).goto
            i t PC.firstProgress)
  | PC.firstProgress =>
    some ((s.emit (Event.progress 0 s.m_rootPath 0 0)).goto i t PC.rootCancel)
  | PC.rootCancel =>
    if s.m_cancelRequested then some (s.goto i t PC.done)
    else
      match s.m_rootItem with
      | some r => some (s.setTask i { t with parent := ⟨r, []⟩, pc := PC.scanCancel })
      | none => none
  | PC.scanCancel =>
    if s.m_cancelRequested then some (s.goto i t (afterScan t))
    else some (s.goto i t PC.scanExists)
  | PC.scanExists =>
    if !t.dir.dirExists then
      some ((s.emit (Event.error ("Директория не существует: " ++ t.path))).goto i t
        (afterScan t))
    else some (s.goto i t (PC.loop (t.dir.entryInfoList true)))
  | PC.loop entries =>
    match entries with
    | [] => some (s.goto i t PC.rootCheck)
    | e :: rest =>
      if s.m_cancelRequested then some (s.goto i t PC.rootCheck)
      else if e.isFile then some (s.goto i t (PC.fileAdd e rest))
      else if e.isDir && !e.isSymLink then some (s.goto i t (PC.dirAdd e rest))
      else some (s.goto i t (PC.loop rest))
  | PC.fileAdd e rest =>
    if s.m_mutex.isSome then none
    else
      some (({ s.addChildRef t.parent (fileItem t.path e) with m_mutex := some i } :
        Scanner).goto i t (PC.fileCount e rest))
  | PC.fileCount e rest =>
    some (({ s with m_scannedFiles := wrapInt (s.m_scannedFiles + 1) } : Scanner).goto i t
      (PC.fileBytes e rest))
  | PC.fileBytes e rest =>
    some (({ s with m_totalSize := wrap64 (s.m_totalSize + e.size), m_mutex := none } :
      Scanner).goto i t (PC.fileFound e rest))
  | PC.fileFound e rest =>
    some ((s.emit (Event.fileFound (absoluteFilePath t.path e) e.size)).goto i t
      (PC.filePercent e rest))
  | PC.filePercent e rest =>
    some (s.goto i t (PC.fileProgress (percentOf s.m_scannedFiles s.m_totalFiles) e rest))
  | PC.fileProgress percent e rest =>
    some ((s.emit (Event.progress percent (absoluteFilePath t.path e) s.m_scannedFiles
      s.m_totalSize)).goto i t (PC.loop rest))
  | PC.dirAdd e rest =>
    if s.m_mutex.isSome then none
    else
      match s.deref t.parent with
      | some node =>
        some ((s.addChildRef t.parent (dirItem t.path e)).goto i t
          (PC.dirCancel ⟨t.parent.root, t.parent.path ++ [node.children.length]⟩ e rest))
      | none => none
  | PC.dirCancel item e rest =>
    if s.m_cancelRequested then some (s.goto i t (PC.loop rest))
    else some (s.goto i t (PC.dirIncrement item e rest))
  | PC.dirIncrement item e rest =>
    some (({ s with m_activeTasks := wrapInt (s.m_activeTasks + 1) } : Scanner).goto i t
      (PC.dirRun item e rest))
  | PC.dirRun item e rest =>
    some (({ s with pool := s.pool ++
              [{ isRootTask := false, path := absoluteFilePath t.path e, dir := e,
                 parent := item, pc := PC.queued }] } : Scanner).goto i t (PC.loop rest))
  | PC.rootCheck =>
    if t.path == s.m_rootPath && s.m_activeTasks == 0 then
      some (s.goto i t PC.rootCheckCancel)
    else some (s.goto i t (afterScan t))
  | PC.rootCheckCancel =>
    if s.m_cancelRequested then some (s.goto i t (afterScan t))
    else some (s.goto i t (PC.handler Otf.enter))
  | PC.handler h =>
    some ((s.otfState h).goto i t
      (match s.otfNext h with
       | some h' => PC.handler h'
       | none => afterScan t))
  | PC.decrement =>
    some (({ s with m_activeTasks := wrapInt (s.m_activeTasks - 1) } : Scanner).goto i t
      PC.zeroCheck)
  | PC.zeroCheck =>
    if s.m_activeTasks == 0 then some (s.goto i t PC.zeroCancel)
    else some (s.goto i t PC.done)
  | PC.zeroCancel =>
    if s.m_cancelRequested then some (s.goto i t PC.done)
    else some (({ s with pendingCalls := s.pendingCalls + 1 } : Scanner).goto i t PC.done)

/-- Effect of `m_threadPool.clear()` on one task. -/
def clearTask (t : Task) : Task :=
  match t.pc with
  | PC.queued => { t with pc := PC.cleared }
  | _ => t

/-- The next step of the object's thread when it is not called from outside:
deliver a queued `onTaskFinished`, go on inside one, go on inside `stop()`. -/
def mainStep (s : Scanner) : Option Scanner :=
  match s.mainThread with
  | MainPC.idle =>
    if s.pendingCalls > 0 then
      some { s with pendingCalls := s.pendingCalls - 1,
                    mainThread := MainPC.handler Otf.enter none }
    else none
  | MainPC.handler h back =>
    some { s.otfState h with
      mainThread :=
        match s.otfNext h with
        | some h' => MainPC.handler h' back
        | none =>
          match back with
          | none => MainPC.idle
          | some timeout => MainPC.stopEvents timeout }
  | MainPC.stopPoll timeout =>
    if s.m_activeTasks > 0 && timeout < 50 then
      some { s with mainThread := MainPC.stopEvents timeout }
    else some { s with mainThread := MainPC.stopClear }
  | MainPC.stopEvents timeout =>
    if s.pendingCalls > 0 then
      some { s with pendingCalls := s.pendingCalls - 1,
                    mainThread := MainPC.handler Otf.enter (some timeout) }
    else some { s with mainThread := MainPC.stopPoll (timeout + 1) }
  | MainPC.stopClear =>
    if s.m_activeTasks > 0 then
      some { s with pool := s.pool.map clearTask, mainThread := MainPC.stopRunning }
    else some { s with mainThread := MainPC.stopRunning }
  | MainPC.stopRunning => some { s with m_running := false, mainThread := MainPC.idle }

/-- The root item `start()` makes: named by the last component of the path, or
by the path when that is empty; size 0; a directory. -/
def rootItem (s : Scanner) : FileItem :=
  FileItem.new (if s.fs.fileName.isEmpty then s.m_rootPath else s.fs.fileName)
    s.m_rootPath 0 s.fs.lastModified true

/-- Method `Scanner::start`. -/
def start (s : Scanner) : Scanner :=
  if s.m_running then s
  else
    { s with
      m_running := true
      m_cancelRequested := false
      m_totalFiles := 0
      m_scannedFiles := 0
      m_totalSize := 0
      m_activeTasks := 0
      m_rootItem := some s.items.length
      items := s.items ++ [s.rootItem]
      pool := s.pool ++
        [{ isRootTask := true, path := s.m_rootPath, dir := s.fs,
           parent := ⟨s.items.length, []⟩, pc := PC.queued }] }

/-- Method `Scanner::stop` up to its wait loop: the guard and
`m_cancelRequested = true`. The loop and what follows it are steps of
`mainStep`. -/
def stop (s : Scanner) : Scanner :=
  if !s.m_running then s
  else { s with m_cancelRequested := true, mainThread := MainPC.stopPoll 0 }

/-- One step of the system. `start()` and `stop()` are called from the event
loop of the object's thread. -/
def step (s : Scanner) : Action → Option Scanner
  | Action.start => if s.mainThread = MainPC.idle then some s.start else none
  | Action.stop => if s.mainThread = MainPC.idle then some s.stop else none
  | Action.main => s.mainStep
  | Action.task i =>
    match s.pool[i]? with
    | some t => s.taskStep i t
    | none => none

/-- Run a schedule, oldest action first. -/
def run (s : Scanner) : List Action → Option Scanner
  | [] => some s
  | a :: as =>
    match s.step a with
    | some s' => run s' as
    | none => none

end Scanner

/-- The schedule neither calls `start()` nor `stop()`. -/
def Action.internal : Action → Bool
  | Action.main => true
  | Action.task _ => true
  | _ => false

/-- Number of `finished` signals in an event stream. -/
def finishedCount (evs : List Event) : Nat :=
  evs.countP (fun ev => match ev with | Event.finished _ => true | _ => false)

/-! ## Concrete file systems and schedules -/

/-- A root directory with two empty subdirectories `a` and `b`. -/
def fsTwoDirs : Entry :=
  Entry.dir "r" 0 false true [Entry.dir "a" 0 false true [], Entry.dir "b" 0 false true []]

/-- The root scan dispatches `a`; the task of `a` runs to its end on the second
pool thread; the root scan dispatches `b`; the task of `b` runs to its end; the
root scan leaves its loop; the event loop then delivers the queued calls. No
`stop()`. -/
def schedTwoDirs : List Action :=
  [Action.start] ++ List.replicate 11 (Action.task 0) ++ List.replicate 8 (Action.task 1)
    ++ List.replicate 5 (Action.task 0) ++ List.replicate 8 (Action.task 2)
    ++ List.replicate 7 (Action.task 0) ++ List.replicate 10 Action.main

/-- A root directory whose only entry is `link`, a symbolic link to a directory
that holds one file. -/
def fsLink : Entry :=
  Entry.dir "root" 0 false true [Entry.dir "link" 0 true true [Entry.file "x" 7 0]]

/-- The whole scan of `fsLink`: `start()`, then the root task to its end. -/
def schedLink : List Action :=
  [Action.start] ++ List.replicate 14 (Action.task 0)

/-- The example of the specification: the root holds `a.txt` (100 bytes) and
the directory `sub`, which holds `b.txt` (50 bytes). -/
def fsExample : Entry :=
  Entry.dir "root" 0 false true
    [Entry.file "a.txt" 100 0, Entry.dir "sub" 0 false true [Entry.file "b.txt" 50 0]]

/-- A root that holds a file of `2^63 - 1` bytes and a file of 1 byte (sparse
files): the two sizes sum to `2^63`. -/
def fsHuge : Entry :=
  Entry.dir "root" 0 false true [Entry.file "a" (2 ^ 63 - 1) 0, Entry.file "b" 1 0]

/-- The tree of `fsHuge`. -/
def hugeTree : FileItem :=
  FileItem.mk "root" "/root" 0 0 true
    [FileItem.mk "a" "/root/a" (2 ^ 63 - 1) 0 false [] 0 false,
     FileItem.mk "b" "/root/b" 1 0 false [] 0 false] 0 false

/-- One complete scan of `fsExample`: the root task to its end, then the task
of `sub`, then the queued completion call. -/
def schedExample : List Action :=
  [Action.start] ++ List.replicate 20 (Action.task 0) ++ List.replicate 15 (Action.task 1)
    ++ List.replicate 5 Action.main

/-- On `fsExample`: the root scan dispatches `sub`, whose task reaches its loop;
`stop()` is called; the task of `sub` and the root scan observe the flag and
end; `stop()` sees the count at zero and returns. -/
def schedCancel : List Action :=
  [Action.start] ++ List.replicate 11 (Action.task 0) ++ List.replicate 3 (Action.task 1)
    ++ [Action.stop, Action.main] ++ List.replicate 5 (Action.task 1)
    ++ List.replicate 3 (Action.task 0) ++ List.replicate 4 Action.main

/-- On `fsExample`: the root scan has read `m_cancelRequested` as false before
dispatching `sub`; then `stop()` is called. -/
def schedRace : List Action :=
  [Action.start] ++ List.replicate 9 (Action.task 0) ++ [Action.stop]

/-- The state `schedRace` leads to. -/
def stateRace : Scanner :=
  ((Scanner.init "/root" fsExample 2).run schedRace).getD (Scanner.init "/root" fsExample 2)

/-- A root path at which there is nothing. -/
def fsMissing : Entry := Entry.other "nope"

/-- The whole run on `fsMissing`: `start()`, then the root task to its end. -/
def schedMissing : List Action :=
  [Action.start] ++ List.replicate 6 (Action.task 0)

/-! ## Invariants of the session -/

namespace Scanner

/-- The states of a run of `start()` on a root that is not an existing
directory, with no `stop()`: the root task alone, and the signals emitted at
each of its program points. -/
def MissingRun (path : String) (fs : Entry) (s : Scanner) : Prop :=
  s.m_rootPath = path ∧ s.m_cancelRequested = false ∧ s.pendingCalls = 0 ∧
  s.mainThread = MainPC.idle ∧ s.m_rootItem = some 0 ∧ s.m_running = true ∧
  ∃ t, s.pool = [t] ∧ t.isRootTask = true ∧ t.dir = fs ∧ t.path = path ∧
    (((t.pc = PC.queued ∨ t.pc = PC.count ∨ t.pc = PC.firstProgress) ∧ s.events = []) ∨
     ((t.pc = PC.rootCancel ∨ t.pc = PC.scanCancel ∨ t.pc = PC.scanExists) ∧
        s.events = [Event.progress 0 path 0 0]) ∨
     (t.pc = PC.done ∧
        s.events = [Event.progress 0 path 0 0,
          Event.error ("Директория не существует: " ++ path)]))

end Scanner

/-- The state `schedCancel` leads to. -/
def stateCancel : Scanner :=
  ((Scanner.init "/root" fsExample 2).run schedCancel).getD (Scanner.init "/root" fsExample 2)

/-- The state `schedMissing` leads to. -/
def stateMissing : Scanner :=
  ((Scanner.init "/nope" fsMissing 2).run schedMissing).getD (Scanner.init "/nope" fsMissing 2)

/-! ## Invariants of one scan -/

/-- The pointer `dirItem` a task holds between adding the directory item and
going back to the loop head. -/
def PC.item? : PC → Option ItemRef
  | PC.dirCancel item _ _ => some item
  | PC.dirIncrement item _ _ => some item
  | PC.dirRun item _ _ => some item
  | _ => none

/-- The task is inside the block that holds `m_mutex` across statements. -/
def PC.inLock : PC → Bool
  | PC.fileCount _ _ => true
  | PC.fileBytes _ _ => true
  | _ => false

/-- Files appended by the task and not yet counted in `m_scannedFiles`. -/
def PC.uncounted : PC → Int
  | PC.fileCount _ _ => 1
  | _ => 0

/-- Bytes of files appended by the task and not yet added to `m_totalSize`. -/
def PC.unsummed : PC → Int
  | PC.fileCount e _ => e.size
  | PC.fileBytes e _ => e.size
  | _ => 0

/-- The pointer designates a directory node of the one root item. -/
def RefOk (tree : FileItem) (r : ItemRef) : Prop :=
  r.root = 0 ∧ ∃ n, FileItem.nodeAt r.path tree = some n ∧ n.isDirectory = true

/-- One scan: `start()` has made the one root item `tree`, a directory, and
every pointer held by a task designates a directory node of it. -/
def RefsOk (items : List FileItem) (rootItem : Option Nat) (pool : List Task)
    (tree : FileItem) : Prop :=
  items = [tree] ∧ rootItem = some 0 ∧ tree.isDirectory = true ∧
  ∀ (j : Nat) (tj : Task), pool[j]? = some tj →
    RefOk tree tj.parent ∧ ∀ item, tj.pc.item? = some item → RefOk tree item

/-- What the task holding the mutex has appended and not yet counted: files and
bytes. -/
def Scanner.inFlight (mutex : Option Nat) (pool : List Task) : Int × Int :=
  match mutex with
  | none => (0, 0)
  | some j =>
    match pool[j]? with
    | some tj => (tj.pc.uncounted, tj.pc.unsummed)
    | none => (0, 0)

/-- The counters agree with the tree: the files (bytes) counted so far are the
file nodes (file bytes) of the tree less those the holder of the mutex has
appended and not yet counted, reduced to the range of `int` (`qint64`); the
holder of the mutex is the one task inside the locked block. -/
def CountersOk (pool : List Task) (mutex : Option Nat) (scannedFiles totalSize : Int)
    (tree : FileItem) : Prop :=
  (∀ (j : Nat) (tj : Task), pool[j]? = some tj → (tj.pc.inLock = true ↔ mutex = some j)) ∧
  (∀ j, mutex = some j → j < pool.length) ∧
  scannedFiles = wrapInt ((tree.fileNodes : Int) - (Scanner.inFlight mutex pool).1) ∧
  totalSize = wrap64 (tree.fileBytes - (Scanner.inFlight mutex pool).2)

/-- The action is not `start()`. -/
def Action.notStart : Action → Bool
  | Action.start => false
  | _ => true

/-- The invariant of one scan (no second `start()`): pointers and counters. -/
def ScanOk (s : Scanner) (tree : FileItem) : Prop :=
  RefsOk s.items s.m_rootItem s.pool tree ∧
  CountersOk s.pool s.m_mutex s.m_scannedFiles s.m_totalSize tree

/-- The state a complete scan of `fsExample` leads to. -/
def stateExample : Scanner :=
  ((Scanner.init "/root" fsExample 2).run schedExample).getD (Scanner.init "/root" fsExample 2)

/-! ## The shape of a scan without cancellation -/

namespace FileItem

mutual
/-- No node of the subtree has been written by `totalSize()`: cache value 0 and
cache flag false, as the constructor leaves them. -/
def Pristine : FileItem → Prop
  | mk _ _ _ _ _ cs cv cf => cv = 0 ∧ cf = false ∧ PristineList cs
def PristineList : List FileItem → Prop
  | [] => True
  | c :: cs => Pristine c ∧ PristineList cs
end

end FileItem

namespace Scanner

/-- The item `scanDirectory` appends for a listing entry of the directory
`path`: a file item for a file, a directory item for a directory that is not a
symbolic link, nothing otherwise. -/
def childItem (path : String) (e : Entry) : Option FileItem :=
  if e.isFile then some (fileItem path e)
  else if e.isDir && !e.isSymLink then some (dirItem path e)
  else none

/-- The items `scanDirectory` appends for a list of listing entries, in order. -/
def childItems (path : String) (es : List Entry) : List FileItem :=
  es.filterMap (childItem path)

end Scanner

/-- What the loop of the task iterates over: the listing of its directory, and
nothing when the directory does not exist. -/
def Task.listing (t : Task) : List Entry :=
  if t.dir.dirExists then t.dir.entryInfoList true else []

/-- The entries the loop of the task has still to take in hand, the one whose
item is not yet appended included. -/
def PC.todo (listing : List Entry) : PC → List Entry
  | PC.queued => listing
  | PC.cleared => listing
  | PC.count => listing
  | PC.firstProgress => listing
  | PC.rootCancel => listing
  | PC.scanCancel => listing
  | PC.scanExists => listing
  | PC.loop rest => rest
  | PC.fileAdd e rest => e :: rest
  | PC.fileCount _ rest => rest
  | PC.fileBytes _ rest => rest
  | PC.fileFound _ rest => rest
  | PC.filePercent _ rest => rest
  | PC.fileProgress _ _ rest => rest
  | PC.dirAdd e rest => e :: rest
  | PC.dirCancel _ _ rest => rest
  | PC.dirIncrement _ _ rest => rest
  | PC.dirRun _ _ rest => rest
  | _ => []

/-- The entry in hand whose item is already appended. -/
def PC.cur : PC → List Entry
  | PC.fileCount e _ => [e]
  | PC.fileBytes e _ => [e]
  | PC.fileFound e _ => [e]
  | PC.filePercent e _ => [e]
  | PC.fileProgress _ e _ => [e]
  | PC.dirCancel _ e _ => [e]
  | PC.dirIncrement _ e _ => [e]
  | PC.dirRun _ e _ => [e]
  | _ => []

/-- The entry in hand is of the kind the branch taken is for, and only the
lambda of `start()` is at a statement of that lambda. -/
def PC.kindOk (isRootTask : Bool) : PC → Prop
  | PC.count => isRootTask = true
  | PC.firstProgress => isRootTask = true
  | PC.rootCancel => isRootTask = true
  | PC.fileAdd e _ => e.isFile = true
  | PC.fileCount e _ => e.isFile = true
  | PC.fileBytes e _ => e.isFile = true
  | PC.fileFound e _ => e.isFile = true
  | PC.filePercent e _ => e.isFile = true
  | PC.fileProgress _ e _ => e.isFile = true
  | PC.dirAdd e _ => e.isFile = false ∧ (e.isDir && !e.isSymLink) = true
  | PC.dirCancel _ e _ => e.isFile = false ∧ (e.isDir && !e.isSymLink) = true
  | PC.dirIncrement _ e _ => e.isFile = false ∧ (e.isDir && !e.isSymLink) = true
  | PC.dirRun _ e _ => e.isFile = false ∧ (e.isDir && !e.isSymLink) = true
  | _ => True

/-- Every directory entry (not a symbolic link) of `es` has its task in the
pool: the task of the entry whose item is child number `k` of the node at
`parent` holds the pointer to that child, the entry and its path. `k` starts
at the index of the first item made for `es`. -/
def Dispatched (pool : List Task) (path : String) (parent : List Nat) :
    Nat → List Entry → Prop
  | _, [] => True
  | k, e :: es =>
    ((e.isDir && !e.isSymLink) = true →
      ∃ (j : Nat) (tj : Task), pool[j]? = some tj ∧ tj.parent = ⟨0, parent ++ [k]⟩ ∧
        tj.dir = e ∧ tj.path = absoluteFilePath path e) ∧
    Dispatched pool path parent (k + (Scanner.childItems path [e]).length) es

/-- The state of one task in a scan without cancellation: the listing splits
into the entries done with (`pre`), the entry in hand if its item is appended,
and the entries still to do; the children of the task's node are the items of
the first two parts; the pointer `dirItem` in hand designates the last child,
which has no children yet; the directories done with have their tasks; the
task of `start()` holds the root. -/
def TaskOk (tree : FileItem) (pool : List Task) (t : Task) : Prop :=
  t.pc.kindOk t.isRootTask ∧ (t.isRootTask = true → t.parent = ⟨0, []⟩) ∧
  t.parent.root = 0 ∧
  ∃ (pre : List Entry) (node : FileItem),
    t.listing = pre ++ (t.pc.cur ++ t.pc.todo t.listing) ∧
    FileItem.nodeAt t.parent.path tree = some node ∧
    node.children.map FileItem.info =
      (Scanner.childItems t.path (pre ++ t.pc.cur)).map FileItem.info ∧
    (∀ item, t.pc.item? = some item →
      item = ⟨0, t.parent.path ++ [(Scanner.childItems t.path pre).length]⟩ ∧
      ∃ c, FileItem.nodeAt item.path tree = some c ∧ c.children = []) ∧
    Dispatched pool t.path t.parent.path 0 pre

/-- The shape of one scan without cancellation: every task is in order, no
two tasks hold the same node, and the pointer a task has in hand is held by no
task. -/
def ShapeOk (pool : List Task) (tree : FileItem) : Prop :=
  (∀ (j : Nat) (tj : Task), pool[j]? = some tj → TaskOk tree pool tj) ∧
  (∀ (i j : Nat) (ti tj : Task), pool[i]? = some ti → pool[j]? = some tj →
    ti.parent = tj.parent → i = j) ∧
  (∀ (i j : Nat) (ti tj : Task) (item : ItemRef), pool[i]? = some ti →
    ti.pc.item? = some item → pool[j]? = some tj → tj.parent ≠ item)

/-- The task has left the loop of `scanDirectory` (or never entered it because
the directory does not exist) and is at or after the test that follows it. -/
def PC.pastLoop : PC → Bool
  | PC.rootCheck => true
  | PC.rootCheckCancel => true
  | PC.handler _ => true
  | PC.decrement => true
  | PC.zeroCheck => true
  | PC.zeroCancel => true
  | PC.done => true
  | _ => false

mutual
/-- The children a complete scan gives the node of the directory `e` that lies
at `path`: the items of its subdirectories that are not symbolic links, each
with the children of its own complete scan, then the items of its files. -/
def scanTree (path : String) : Entry → List FileItem
  | Entry.dir _ _ _ ex es =>
    if ex then
      scanDirs path es ++
        es.filterMap (fun e => if e.isFile then some (Scanner.fileItem path e) else none)
    else []
  | _ => []
/-- The directory items a complete scan makes for the entries `es` of the
directory at `path`. -/
def scanDirs (path : String) : List Entry → List FileItem
  | [] => []
  | Entry.dir n m l ex sub :: es =>
    (if l then []
     else [FileItem.mk n (path ++ "/" ++ n) 0 m true
             (scanTree (path ++ "/" ++ n) (Entry.dir n m l ex sub)) 0 false]) ++
      scanDirs path es
  | _ :: es => scanDirs path es
end

/-- The item, with all that lies below it, a complete scan makes for a listing
entry of the directory at `path`. -/
def deepItem (path : String) (e : Entry) : Option FileItem :=
  if e.isFile then some (Scanner.fileItem path e)
  else if e.isDir && !e.isSymLink then
    some (FileItem.mk e.fileName (absoluteFilePath path e) 0 e.lastModified true
      (scanTree (absoluteFilePath path e) e) 0 false)
  else none

/-- The tree is as the scanner alone leaves it: no cache written, files without
children, directories of own size 0. -/
def TreeOk (tree : FileItem) : Prop :=
  tree.Pristine ∧ tree.WellKinded


/-- What a complete scan leaves below the node of every task whose directory
is `e`: the deep items of its listing. -/
def ReconAt (pool : List Task) (tree : FileItem) (e : Entry) : Prop :=
  ∀ (j : Nat) (t : Task), pool[j]? = some t → t.dir = e →
    ∀ node, FileItem.nodeAt t.parent.path tree = some node →
      node.children = t.listing.filterMap (deepItem t.path)


/-- The root of one scan: the root item keeps the data `start()` gave it, and
slot 0 of the pool holds the task of `start()`, on the root path. -/
def RootOk (path : String) (fs : Entry) (rootInfo : String × String × Int × Int × Bool)
    (pool : List Task) (tree : FileItem) : Prop :=
  tree.info = rootInfo ∧
  ∃ t0, pool[0]? = some t0 ∧ t0.isRootTask = true ∧ t0.dir = fs ∧ t0.path = path

/-- The tree the example of the specification expects. -/
def exampleTree : FileItem :=
  FileItem.mk "root" "/root" 0 0 true
    [FileItem.mk "sub" "/root/sub" 0 0 true
       [FileItem.mk "b.txt" "/root/sub/b.txt" 50 0 false [] 0 false] 0 false,
     FileItem.mk "a.txt" "/root/a.txt" 100 0 false [] 0 false] 0 false

/-- On `fsTwoDirs`: the root scan dispatches `a`, whose task starts and gets as
far as opening its directory (`QDir::exists()`, a call into the file system);
`stop()` is called; the root scan observes the flag and ends; the task of `a`
makes no step during the five seconds of the wait loop of `stop()` (50 rounds);
`stop()` clears the queue and returns. -/
def schedExpire : List Action :=
  [Action.start] ++ List.replicate 11 (Action.task 0)
    ++ [Action.task 1, Action.task 1, Action.stop] ++ List.replicate 2 (Action.task 0)
    ++ List.replicate 103 Action.main

/-- After `schedExpire`: `start()` is called again, then the task of `a`, still
alive from the first scan, runs up to its decrement. -/
def schedRestart : List Action :=
  schedExpire ++ [Action.start] ++ List.replicate 4 (Action.task 1)

/-! ## The count of outstanding subtasks -/

/-- Only the lambda of `start()` is at a statement of that lambda, and only the
lambda of a subdirectory is at a statement that follows its `scanDirectory`
call. -/
def PC.roleOk (isRootTask : Bool) : PC → Bool
  | PC.count => isRootTask
  | PC.firstProgress => isRootTask
  | PC.rootCancel => isRootTask
  | PC.decrement => !isRootTask
  | PC.zeroCheck => !isRootTask
  | PC.zeroCancel => !isRootTask
  | _ => true

/-- What a task adds to `m_activeTasks`: a subtask counts for 1 from the
`m_activeTasks++` made for it (before it is submitted) up to its own
`m_activeTasks--`; any task counts for 1 more between its `m_activeTasks++` for
a subdirectory and the submission of the task of that subdirectory. -/
def PC.counted (isRootTask : Bool) : PC → Int
  | PC.dirRun _ _ _ => (if isRootTask then 0 else 1) + 1
  | PC.zeroCheck => 0
  | PC.zeroCancel => 0
  | PC.done => 0
  | _ => if isRootTask then 0 else 1

/-- What the task adds to `m_activeTasks`. -/
def Task.counted (t : Task) : Int := t.pc.counted t.isRootTask

/-- The counter `m_activeTasks` is the number of subtasks counted and not yet
discounted, reduced to the range of `int`. -/
def ActiveOk (pool : List Task) (activeTasks : Int) : Prop :=
  (∀ (j : Nat) (tj : Task), pool[j]? = some tj → tj.pc.roleOk tj.isRootTask = true) ∧
  activeTasks = wrapInt ((pool.map Task.counted).sum)

/-! ## The length of a scan -/

/-- The object's thread is in its event loop, or inside a queued
`onTaskFinished` that the event loop delivered: it is not inside `stop()`. -/
def MainPC.inLoop : MainPC → Bool
  | MainPC.idle => true
  | MainPC.handler _ none => true
  | _ => false

/-- The task was dropped from the queue by `m_threadPool.clear()`. -/
def PC.isCleared : PC → Bool
  | PC.cleared => true
  | _ => false

/-- No `stop()` is under way or has cleared the queue; the pool has a thread. -/
def NoStop (s : Scanner) : Prop :=
  s.mainThread.inLoop = true ∧ 0 < s.maxThreadCount ∧
  ∀ (j : Nat) (tj : Task), s.pool[j]? = some tj → tj.pc.isCleared = false

/-- Nothing is left to run: every task has ended, no call is queued and the
object's thread is in its event loop. -/
def Scanner.atRest (s : Scanner) : Prop :=
  s.pool.all (fun t => t.pc.isDone) = true ∧ s.pendingCalls = 0 ∧ s.mainThread = MainPC.idle

mutual
/-- A bound on the number of steps the scan of a directory takes, the tasks it
submits and the completion calls they queue included. -/
def scanCost : Entry → Nat
  | Entry.dir _ _ _ _ es => 24 + loopCost es
  | _ => 24
/-- A bound on the number of steps the entries of a listing take. -/
def loopCost : List Entry → Nat
  | [] => 0
  | e :: es => 8 + scanCost e + loopCost es
end

/-- Steps left inside `onTaskFinished`. -/
def Otf.cost : Otf → Nat
  | Otf.enter => 5
  | Otf.cancelRunning => 4
  | Otf.cancelProgress => 3
  | Otf.progress => 4
  | Otf.finished => 3
  | Otf.running => 2

/-- A bound on the steps left to a task at a program point, `entries` being the
entries of its directory. -/
def PC.cost (entries : List Entry) : PC → Nat
  | PC.queued => 27 + loopCost entries
  | PC.cleared => 0
  | PC.count => 26 + loopCost entries
  | PC.firstProgress => 25 + loopCost entries
  | PC.rootCancel => 24 + loopCost entries
  | PC.scanCancel => 23 + loopCost entries
  | PC.scanExists => 22 + loopCost entries
  | PC.loop rest => 21 + loopCost rest
  | PC.fileAdd _ rest => 28 + loopCost rest
  | PC.fileCount _ rest => 27 + loopCost rest
  | PC.fileBytes _ rest => 26 + loopCost rest
  | PC.fileFound _ rest => 25 + loopCost rest
  | PC.filePercent _ rest => 24 + loopCost rest
  | PC.fileProgress _ _ rest => 23 + loopCost rest
  | PC.dirAdd e rest => 28 + scanCost e + loopCost rest
  | PC.dirCancel _ e rest => 27 + scanCost e + loopCost rest
  | PC.dirIncrement _ e rest => 26 + scanCost e + loopCost rest
  | PC.dirRun _ e rest => 25 + scanCost e + loopCost rest
  | PC.rootCheck => 20
  | PC.rootCheckCancel => 19
  | PC.handler h => 13 + h.cost
  | PC.decrement => 13
  | PC.zeroCheck => 12
  | PC.zeroCancel => 11
  | PC.done => 0

/-- A bound on the steps left to a task. -/
def Task.cost (t : Task) : Nat := t.pc.cost t.dir.entries

/-- Steps left to the object's thread inside a queued `onTaskFinished`. -/
def MainPC.cost : MainPC → Nat
  | MainPC.handler h _ => h.cost
  | _ => 0

/-- A bound on the number of steps left to a scan without `stop()`. -/
def Scanner.cost (s : Scanner) : Nat :=
  (s.pool.map Task.cost).sum + 6 * s.pendingCalls + s.mainThread.cost

/-! ## The completion signal -/

/-- Points of `onTaskFinished` at which, with no cancellation requested, the
signal `finished` is still to be emitted by this call. -/
def Otf.willFinish : Otf → Bool
  | Otf.enter => true
  | Otf.progress => true
  | Otf.finished => true
  | _ => false

/-- The task is on its way to the completion signal: the lambda of `start()` up
to its test after the loop; any task that has passed that test, is inside
`onTaskFinished` before the `emit finished`, or is at its own zero test. -/
def PC.promises (isRootTask : Bool) : PC → Bool
  | PC.rootCheckCancel => true
  | PC.handler h => h.willFinish
  | PC.zeroCheck => true
  | PC.zeroCancel => true
  | PC.cleared => false
  | PC.decrement => false
  | PC.done => false
  | _ => isRootTask

/-- The object's thread is inside a queued `onTaskFinished`, before its
`emit finished`. -/
def MainPC.willSignal : MainPC → Bool
  | MainPC.handler h _ => h.willFinish
  | _ => false

/-- The task is at the last statement of `onTaskFinished`, `m_running = false`. -/
def PC.atRunning : PC → Bool
  | PC.handler Otf.running => true
  | _ => false

/-- The object's thread is at the last statement of `onTaskFinished`. -/
def MainPC.atRunning : MainPC → Bool
  | MainPC.handler Otf.running _ => true
  | _ => false

/-- The lambda of `start()` scans the root path, which is an existing
directory. -/
def RootLive (s : Scanner) : Prop :=
  ∀ (j : Nat) (tj : Task), s.pool[j]? = some tj → tj.isRootTask = true →
    tj.path = s.m_rootPath ∧ tj.dir.dirExists = true

/-- The task is on its way to the completion signal, or it is a subtask that
is counted as outstanding. -/
def Task.owes (t : Task) : Prop :=
  t.pc.promises t.isRootTask = true ∨ t.counted ≠ 0

/-- The completion signal has been emitted or is on its way: `finished` is in
the event stream, or a call of `onTaskFinished` is queued or under way, or
some task is on its way to the signal or counted as outstanding. -/
def SignalDue (s : Scanner) : Prop :=
  (0 < finishedCount s.events ∨ 0 < s.pendingCalls ∨ s.mainThread.willSignal = true) ∨
  ∃ (j : Nat) (tj : Task), s.pool[j]? = some tj ∧ tj.owes

/-- Once `finished` is emitted, `m_running` is false or the call that emitted
it is at its last statement, `m_running = false`. -/
def RunningCleared (s : Scanner) : Prop :=
  (finishedCount s.events = 0 ∨ s.m_running = false ∨ s.mainThread.atRunning = true) ∨
  ∃ (j : Nat) (tj : Task), s.pool[j]? = some tj ∧ tj.pc.atRunning = true

/-- The invariant of a scan of an existing root directory without `stop()`
that leads to the completion signal. -/
def Completing (s : Scanner) : Prop :=
  s.m_cancelRequested = false ∧ RootLive s ∧ SignalDue s ∧ RunningCleared s

/-! ## The `error` signals -/

/-- Messages of the `error` signals of an event stream, oldest first. -/
def errorsOf (evs : List Event) : List String :=
  evs.filterMap (fun ev => match ev with | Event.error m => some m | _ => none)

/-- The task is between the listing of its directory and the end of its loop. -/
def PC.inLoop : PC → Bool
  | PC.loop _ => true
  | PC.fileAdd _ _ => true
  | PC.fileCount _ _ => true
  | PC.fileBytes _ _ => true
  | PC.fileFound _ _ => true
  | PC.filePercent _ _ => true
  | PC.fileProgress _ _ _ => true
  | PC.dirAdd _ _ => true
  | PC.dirCancel _ _ _ => true
  | PC.dirIncrement _ _ _ => true
  | PC.dirRun _ _ _ => true
  | _ => false

/-- The message of the `error` signal `scanDirectory` emits for the directory of
the task. -/
def Task.errorMessage (t : Task) : String := "Директория не существует: " ++ t.path

/-- In a scan without cancellation: the `scanDirectory` call of the task has
found that its directory does not exist. -/
def Task.errored (t : Task) : Bool := !t.dir.dirExists && t.pc.pastLoop

/-- Number of tasks that have found their directory missing and whose message
is `m`. -/
def errorTally (m : String) (pool : List Task) : Nat :=
  (pool.map (fun t => if t.errored && decide (t.errorMessage = m) then 1 else 0)).sum

/-- In a scan without cancellation the `error` signals emitted are, message by
message, those of the tasks that have found their directory missing; a task
inside its loop has an existing directory. -/
def ErrorsOk (events : List Event) (pool : List Task) : Prop :=
  (∀ (j : Nat) (tj : Task), pool[j]? = some tj → tj.pc.inLoop = true →
    tj.dir.dirExists = true) ∧
  ∀ m : String, (errorsOf events).count m = errorTally m pool

/-! ## A subdirectory that cannot be listed -/

/-- A root directory that holds the file `a.txt` and the subdirectory `sub2`,
of which no entry can be listed: `ex` tells whether `QDir(sub2).exists()` holds
when the task of `sub2` opens it (a directory that exists but may not be read
has `ex` true and an empty listing; one that has vanished has `ex` false). -/
def fsUnlisted (size : Nat) (ex : Bool) : Entry :=
  Entry.dir "root" 0 false true
    [Entry.file "a.txt" size 0, Entry.dir "sub2" 0 false ex []]

/-- The tree of a complete scan of `fsUnlisted` at `path`. -/
def unlistedTree (path : String) (size : Nat) : FileItem :=
  FileItem.mk "root" path 0 0 true
    [FileItem.mk "sub2" (path ++ "/" ++ "sub2") 0 0 true [] 0 false,
     FileItem.mk "a.txt" (path ++ "/" ++ "a.txt") size 0 false [] 0 false] 0 false

/-- One complete scan of `fsUnlisted`: the root task to its end, then the task
of `sub2` (`k` steps), then the queued completion call. -/
def schedUnlisted (k : Nat) : List Action :=
  [Action.start] ++ List.replicate 20 (Action.task 0) ++ List.replicate k (Action.task 1)
    ++ List.replicate 5 Action.main

/-- The state after the complete scan of a root whose `sub2` has vanished. -/
def stateVanished : Scanner :=
  ((Scanner.init "/root" (fsUnlisted 100 false) 2).run (schedUnlisted 6)).getD
    (Scanner.init "/root" (fsUnlisted 100 false) 2)

/-! ## A root without subdirectories -/

/-- The entry is a directory that is not a symbolic link: the scan makes a
subtask for it. -/
def Entry.isSubdir (e : Entry) : Bool := e.isDir && !e.isSymLink

/-- The event stream ends with the last `progress` and one `finished`; no
`finished` comes before. -/
def EndsFinished (s : Scanner) : Prop :=
  ∃ pre, s.events = pre ++ [Event.progress 100 "Завершено" s.m_scannedFiles s.m_totalSize,
    Event.finished s.m_rootItem] ∧ finishedCount pre = 0

/-- What the event stream and `m_running` are at each program point of the
lambda of `start()` when no subtask is ever dispatched and no cancellation is
requested. -/
def SoloPhase (s : Scanner) : PC → Prop
  | PC.handler Otf.finished =>
    (∃ pre, s.events = pre ++
      [Event.progress 100 "Завершено" s.m_scannedFiles s.m_totalSize] ∧ finishedCount pre = 0)
  | PC.handler Otf.running => EndsFinished s
  | PC.done => EndsFinished s ∧ s.m_running = false
  | PC.handler Otf.cancelRunning => False
  | PC.handler Otf.cancelProgress => False
  | PC.dirAdd _ _ => False
  | PC.dirCancel _ _ _ => False
  | PC.dirIncrement _ _ _ => False
  | PC.dirRun _ _ _ => False
  | PC.decrement => False
  | PC.zeroCheck => False
  | PC.zeroCancel => False
  | PC.cleared => False
  | _ => finishedCount s.events = 0

/-- The states of a scan, without `stop()`, of an existing root directory none
of whose entries is a directory other than a symbolic link: the task of
`start()` is alone, no call is ever queued, `m_activeTasks` stays at 0. -/
def SoloOk (s : Scanner) : Prop :=
  s.pendingCalls = 0 ∧ s.mainThread = MainPC.idle ∧ s.m_activeTasks = 0 ∧
  s.m_cancelRequested = false ∧ s.pool.length = 1 ∧
  ∀ t, s.pool[0]? = some t → t.isRootTask = true ∧ t.path = s.m_rootPath ∧
    t.dir.dirExists = true ∧
    (∀ e ∈ t.pc.todo (t.dir.entryInfoList true), e.isSubdir = false) ∧ SoloPhase s t.pc

/-- The state after the complete scan of `fsLink`. -/
def stateLink : Scanner :=
  ((Scanner.init "/root" fsLink 2).run schedLink).getD (Scanner.init "/root" fsLink 2)

/-- The state after `schedExpire`: `stop()` has returned with the task of `a`
outstanding. -/
def stateExpire : Scanner :=
  ((Scanner.init "/r" fsTwoDirs 2).run schedExpire).getD (Scanner.init "/r" fsTwoDirs 2)

/-! ## Theorems -/

/-! ### Machine integers -/

theorem wrap64_of_fits {x : Int} (h : Fits64 x) : wrap64 x = x := by
  unfold Fits64 at h
  unfold wrap64
  omega

theorem fits64_wrap64 (x : Int) : Fits64 (wrap64 x) := by
  unfold Fits64 wrap64
  omega

theorem wrap64_add_wrap64 (x y : Int) : wrap64 (wrap64 x + y) = wrap64 (x + y) := by
  unfold wrap64
  omega

theorem eq_of_wrap64_eq {x y : Int} (hx : Fits64 x) (hy : Fits64 y)
    (h : wrap64 x = wrap64 y) : x = y := by
  rw [wrap64_of_fits hx, wrap64_of_fits hy] at h
  exact h

theorem wrapInt_of_fits {x : Int} (h1 : -2 ^ 31 ≤ x) (h2 : x < 2 ^ 31) : wrapInt x = x := by
  unfold wrapInt
  omega

theorem wrapInt_wrapInt (x : Int) : wrapInt (wrapInt x) = wrapInt x := by
  unfold wrapInt
  omega

theorem wrapInt_add_wrapInt (x y : Int) : wrapInt (wrapInt x + y) = wrapInt (x + y) := by
  unfold wrapInt
  omega

namespace FileItem

mutual
/-- What `totalSize()` returns is the true total reduced to the range of
`qint64`: on a node without a memoized total it is the own size when there are
no children and a value of the range otherwise. -/
theorem totalSize_wrap : ∀ t : FileItem, CacheOk t →
    wrap64 (totalSize t).1 = wrap64 (subtreeSum t) ∧
    (t.totalSizeCached = false → t.children ≠ [] → Fits64 (totalSize t).1) ∧
    (t.totalSizeCached = false → t.children = [] → (totalSize t).1 = t.size)
  | mk n p s m d cs cv cf, h => by
    cases cf with
    | true =>
      have hv := h.1 rfl
      simp only [totalSize, if_true, subtreeSum, totalSizeCached]
      exact ⟨by rw [hv], fun hc => Bool.noConfusion hc, fun hc => Bool.noConfusion hc⟩
    | false =>
      have ih := totalSizeLoop_wrap cs s h.2
      simp only [totalSize, Bool.false_eq_true, if_false, subtreeSum, children, size]
      exact ⟨ih.1, fun _ => ih.2.1, fun _ => ih.2.2⟩
theorem totalSizeLoop_wrap : ∀ (cs : List FileItem) (total : Int), CacheOkList cs →
    wrap64 (totalSizeLoop cs total).1 = wrap64 (total + subtreeSumList cs) ∧
    (cs ≠ [] → Fits64 (totalSizeLoop cs total).1) ∧
    (cs = [] → (totalSizeLoop cs total).1 = total)
  | [], total, _ => by simp [totalSizeLoop, subtreeSumList]
  | c :: cs, total, h => by
    have hc := (totalSize_wrap c h.1).1
    have hr := totalSizeLoop_wrap cs (wrap64 (total + (totalSize c).1)) h.2
    simp only [totalSizeLoop, subtreeSumList]
    refine ⟨?_, fun _ => ?_, fun hnil => List.noConfusion hnil⟩
    · rw [hr.1]
      revert hc
      unfold wrap64
      omega
    · cases cs with
      | nil => exact fits64_wrap64 _
      | cons c2 cs2 => exact hr.2.1 (fun hnil => List.noConfusion hnil)
end

mutual
theorem totalSize_spec : ∀ t : FileItem, CacheOk t → SumsFit t →
    (totalSize t).1 = subtreeSum t ∧ CacheOk (totalSize t).2 ∧
      subtreeSum (totalSize t).2 = subtreeSum t ∧ SumsFit (totalSize t).2
  | mk n p s m d cs cv cf, h, hf => by
    cases cf with
    | true =>
      have hv := h.1 rfl
      simp only [totalSize, if_true, subtreeSum]
      exact ⟨hv, h, trivial, hf⟩
    | false =>
      have ih := totalSizeLoop_spec cs s h.2 hf.2
      have hw := totalSizeLoop_wrap cs s h.2
      have hfit : Fits64 (s + subtreeSumList cs) := hf.1
      have hval : (totalSizeLoop cs s).1 = s + subtreeSumList cs := by
        cases cs with
        | nil => simp [totalSizeLoop, subtreeSumList]
        | cons c cs2 =>
          exact eq_of_wrap64_eq (hw.2.1 (fun hnil => List.noConfusion hnil)) hfit hw.1
      simp only [totalSize, Bool.false_eq_true, if_false, subtreeSum, CacheOk, SumsFit]
      refine ⟨hval, ⟨fun _ => ?_, ih.1⟩, ?_, ?_, ih.2.2⟩
      · rw [hval, ih.2.1]
      · rw [ih.2.1]
      · rw [ih.2.1]; exact hfit
theorem totalSizeLoop_spec : ∀ (cs : List FileItem) (total : Int), CacheOkList cs →
    SumsFitList cs →
      CacheOkList (totalSizeLoop cs total).2 ∧
      subtreeSumList (totalSizeLoop cs total).2 = subtreeSumList cs ∧
      SumsFitList (totalSizeLoop cs total).2
  | [], total, _, _ => by simp [totalSizeLoop, subtreeSumList, CacheOkList, SumsFitList]
  | c :: cs, total, h, hf => by
    have hc := totalSize_spec c h.1 hf.1
    have hr := totalSizeLoop_spec cs (wrap64 (total + (totalSize c).1)) h.2 hf.2
    simp only [totalSizeLoop, subtreeSumList, CacheOkList, SumsFitList]
    exact ⟨⟨hc.2.1, hr.1⟩, by rw [hr.2.1, hc.2.2.1], hc.2.2.2, hr.2.2⟩
end

theorem size_totalSize (t : FileItem) : (totalSize t).2.size = t.size := by
  cases t with
  | mk n p s m d cs cv cf =>
    cases cf <;> simp [totalSize, size]

theorem cacheOkList_iff (cs : List FileItem) : CacheOkList cs ↔ ∀ c ∈ cs, CacheOk c := by
  induction cs with
  | nil => simp [CacheOkList]
  | cons c cs ih => simp [CacheOkList, ih]

theorem sumsFitList_iff (cs : List FileItem) : SumsFitList cs ↔ ∀ c ∈ cs, SumsFit c := by
  induction cs with
  | nil => simp [SumsFitList]
  | cons c cs ih => simp [SumsFitList, ih]

theorem freshList_iff (cs : List FileItem) : FreshList cs ↔ ∀ c ∈ cs, Fresh c := by
  induction cs with
  | nil => simp [FreshList]
  | cons c cs ih => simp [FreshList, ih]

mutual
theorem Fresh.cacheOk : ∀ t : FileItem, Fresh t → CacheOk t
  | mk _ _ _ _ _ cs _ _, h => ⟨fun hc => by simp [h.1] at hc, FreshList.cacheOkList cs h.2⟩
theorem FreshList.cacheOkList : ∀ cs : List FileItem, FreshList cs → CacheOkList cs
  | [], _ => trivial
  | c :: cs, h => ⟨Fresh.cacheOk c h.1, FreshList.cacheOkList cs h.2⟩
end

theorem subtreeSumList_set (cs : List FileItem) (k : Nat) (c c' : FileItem)
    (hk : cs[k]? = some c) (hs : subtreeSum c' = subtreeSum c) :
    subtreeSumList (cs.set k c') = subtreeSumList cs := by
  induction cs generalizing k with
  | nil => simp
  | cons x xs ih =>
    cases k with
    | zero =>
      simp at hk
      subst hk
      simp [subtreeSumList, hs]
    | succ k =>
      simp at hk
      simp [subtreeSumList, ih k hk]

theorem fresh_addChildAt (q : List Nat) (child : FileItem) (hc : Fresh child) :
    ∀ t : FileItem, Fresh t → Fresh (addChildAt q child t) := by
  induction q with
  | nil =>
    intro t ht
    cases t with
    | mk n p s m d cs cv cf =>
      simp only [addChildAt, addChild, Fresh] at ht ⊢
      refine ⟨trivial, ?_⟩
      rw [freshList_iff] at ht ⊢
      intro c hmem
      rcases List.mem_append.1 hmem with h | h
      · exact ht.2 c h
      · simp at h; subst h; exact hc
  | cons k q ih =>
    intro t ht
    cases t with
    | mk n p s m d cs cv cf =>
      simp only [addChildAt]
      cases hk : cs[k]? with
      | none => simpa using ht
      | some c =>
        simp only [Fresh] at ht ⊢
        refine ⟨ht.1, ?_⟩
        have hl := ht.2
        rw [freshList_iff] at hl ⊢
        intro x hx
        rcases List.mem_or_eq_of_mem_set hx with h | h
        · exact hl x h
        · subst h
          exact ih c (hl c (List.getElem?_mem hk))

theorem Built.fresh {t : FileItem} (h : Built t) : Fresh t := by
  induction h with
  | new name path size modified isDir => simp [FileItem.new, Fresh, FreshList]
  | addChildAt q child t _ _ iht ihc => exact fresh_addChildAt q child ihc t iht

theorem totalSizeAt_spec (q : List Nat) :
    ∀ (t : FileItem) (r : Int × FileItem), CacheOk t → SumsFit t → totalSizeAt q t = some r →
      CacheOk r.2 ∧ subtreeSum r.2 = subtreeSum t ∧ SumsFit r.2 := by
  induction q with
  | nil =>
    intro t r ht hf hr
    simp only [totalSizeAt, Option.some.injEq] at hr
    subst hr
    exact (totalSize_spec t ht hf).2
  | cons k q ih =>
    intro t r ht hf hr
    cases t with
    | mk n p s m d cs cv cf =>
      simp only [totalSizeAt] at hr
      cases hk : cs[k]? with
      | none => simp [hk] at hr
      | some c =>
        simp only [hk] at hr
        cases hq : totalSizeAt q c with
        | none => simp [hq] at hr
        | some r' =>
          simp only [hq, Option.some.injEq] at hr
          subst hr
          have hl := ht.2
          rw [cacheOkList_iff] at hl
          have hfl := hf.2
          rw [sumsFitList_iff] at hfl
          have hfit : Fits64 (s + subtreeSumList cs) := hf.1
          have hc := ih c r' (hl c (List.getElem?_mem hk)) (hfl c (List.getElem?_mem hk)) hq
          have hsum := subtreeSumList_set cs k c r'.2 hk hc.2.1
          simp only [CacheOk, SumsFit, subtreeSum, hsum]
          refine ⟨⟨ht.1, ?_⟩, trivial, hfit, ?_⟩
          · rw [cacheOkList_iff]
            intro x hx
            rcases List.mem_or_eq_of_mem_set hx with h | h
            · exact hl x h
            · subst h; exact hc.1
          · rw [sumsFitList_iff]
            intro x hx
            rcases List.mem_or_eq_of_mem_set hx with h | h
            · exact hfl x h
            · subst h; exact hc.2.2

theorem cacheOk_afterCalls (qs : List (List Nat)) :
    ∀ t : FileItem, CacheOk t → SumsFit t →
      CacheOk (afterCalls qs t) ∧ SumsFit (afterCalls qs t) := by
  induction qs with
  | nil => intro t ht hf; exact ⟨ht, hf⟩
  | cons q qs ih =>
    intro t ht hf
    simp only [afterCalls]
    cases hq : totalSizeAt q t with
    | none => exact ih t ht hf
    | some r =>
      have h := totalSizeAt_spec q t r ht hf hq
      exact ih r.2 h.1 h.2.2

theorem cacheOk_nodeAt (p : List Nat) :
    ∀ (t n : FileItem), CacheOk t → nodeAt p t = some n → CacheOk n := by
  induction p with
  | nil =>
    intro t n ht hn
    simp only [nodeAt, Option.some.injEq] at hn
    subst hn; exact ht
  | cons k p ih =>
    intro t n ht hn
    cases t with
    | mk nm pa s m d cs cv cf =>
      simp only [nodeAt, children] at hn
      cases hk : cs[k]? with
      | none => simp [hk] at hn
      | some c =>
        simp only [hk] at hn
        have hl := ht.2
        rw [cacheOkList_iff] at hl
        exact ih c n (hl c (List.getElem?_mem hk)) hn

theorem sumsFit_nodeAt (p : List Nat) :
    ∀ (t n : FileItem), SumsFit t → nodeAt p t = some n → SumsFit n := by
  induction p with
  | nil =>
    intro t n ht hn
    simp only [nodeAt, Option.some.injEq] at hn
    subst hn; exact ht
  | cons k p ih =>
    intro t n ht hn
    cases t with
    | mk nm pa s m d cs cv cf =>
      simp only [nodeAt, children] at hn
      cases hk : cs[k]? with
      | none => simp [hk] at hn
      | some c =>
        simp only [hk] at hn
        have hl := ht.2
        rw [sumsFitList_iff] at hl
        exact ih c n (hl c (List.getElem?_mem hk)) hn

theorem sum_totalSize_children (cs : List FileItem) (h : CacheOkList cs)
    (hf : SumsFitList cs) :
    (cs.map (fun c => (totalSize c).1)).sum = subtreeSumList cs := by
  induction cs with
  | nil => simp [subtreeSumList]
  | cons c cs ih =>
    simp only [List.map_cons, List.sum_cons, subtreeSumList]
    rw [ih h.2 hf.2, (totalSize_spec c h.1 hf.1).1]

/-- What the children return sums to the true total of the children up to a
multiple of 2^64, whatever the sizes are. -/
theorem sum_totalSize_children_wrap (cs : List FileItem) (h : CacheOkList cs) (x : Int) :
    wrap64 (x + (cs.map (fun c => (totalSize c).1)).sum) = wrap64 (x + subtreeSumList cs) := by
  induction cs generalizing x with
  | nil => simp [subtreeSumList]
  | cons c cs ih =>
    simp only [List.map_cons, List.sum_cons, subtreeSumList]
    have h1 := (totalSize_wrap c h.1).1
    have h2 := ih h.2 (x + (totalSize c).1)
    have h3 : wrap64 (x + (totalSize c).1 + subtreeSumList cs) =
        wrap64 (x + (subtreeSum c + subtreeSumList cs)) := by
      revert h1
      unfold wrap64
      omega
    rw [← h3, ← h2]
    congr 1
    omega

/-- C1: in a tree built by the constructor and `addChild` alone in which the
total of every subtree lies in the range of `qint64`, after any sequence of
earlier `totalSize()` calls on any of its nodes, a `totalSize()` call on any
node `n` returns `n`'s own size plus the sum of what `totalSize()` returns on
its children (as they are before the call and as they are after it), which is
the sum of the own sizes of all nodes of `n`'s subtree. -/
theorem C1_totalSize_own_plus_children (t : FileItem) (hb : Built t) (hfit : SumsFit t)
    (calls : List (List Nat)) (p : List Nat) (n : FileItem)
    (hn : nodeAt p (afterCalls calls t) = some n) :
    (totalSize n).1 = n.size + (n.children.map (fun c => (totalSize c).1)).sum ∧
    (totalSize n).1 =
      n.size + ((totalSize n).2.children.map (fun c => (totalSize c).1)).sum ∧
    (totalSize n).1 = subtreeSum n := by
  have hcalls := cacheOk_afterCalls calls t (Fresh.cacheOk t hb.fresh) hfit
  have hok : CacheOk n := cacheOk_nodeAt p _ n hcalls.1 hn
  have hnf : SumsFit n := sumsFit_nodeAt p _ n hcalls.2 hn
  have hs := totalSize_spec n hok hnf
  refine ⟨?_, ?_, hs.1⟩
  · cases n with
    | mk nm pa s m d cs cv cf =>
      rw [hs.1]
      simp only [size, children, subtreeSum]
      rw [sum_totalSize_children cs hok.2 hnf.2]
  · have h2 := hs.2.2.1
    have h3 := size_totalSize n
    generalize totalSize n = r at hs h2 h3
    rcases r with ⟨v, n'⟩
    cases n' with
    | mk nm pa s m d cs cv cf =>
      have h1 : v = n.subtreeSum := hs.1
      have hc : CacheOkList cs := hs.2.1.2
      have hcf : SumsFitList cs := hs.2.2.2.2
      simp only [children, subtreeSum] at h2 ⊢
      rw [sum_totalSize_children cs hc hcf, h1, ← h2, ← h3]
      rfl

/-- Witness of C1: a root with one file child of 100 bytes, `totalSize()` called
on the child first and then on the root. -/
theorem C1_totalSize_own_plus_children_witness :
    SumsFit (addChildAt [] (FileItem.new "a.txt" "/r/a.txt" 100 0 false)
      (FileItem.new "r" "/r" 0 0 true)) ∧
    nodeAt [] (afterCalls [[0]]
        (addChildAt [] (FileItem.new "a.txt" "/r/a.txt" 100 0 false)
          (FileItem.new "r" "/r" 0 0 true))) =
      some (mk "r" "/r" 0 0 true [mk "a.txt" "/r/a.txt" 100 0 false [] 100 true] 0 false) ∧
    (totalSize (mk "r" "/r" 0 0 true [mk "a.txt" "/r/a.txt" 100 0 false [] 100 true] 0 false)).1 =
      subtreeSum (mk "r" "/r" 0 0 true [mk "a.txt" "/r/a.txt" 100 0 false [] 100 true] 0 false) :=
  ⟨⟨⟨by decide, by decide⟩, ⟨⟨by decide, by decide⟩, trivial⟩, trivial⟩, rfl,
    (C1_totalSize_own_plus_children _
      (Built.addChildAt [] _ _ (Built.new "r" "/r" 0 0 true)
        (Built.new "a.txt" "/r/a.txt" 100 0 false))
      ⟨⟨by decide, by decide⟩, ⟨⟨by decide, by decide⟩, trivial⟩, trivial⟩
      [[0]] [] _ rfl).2.2⟩

/-- The total of a root of `2^63 - 1` bytes with one child of 1 byte is `2^63`;
`totalSize()` returns `-2^63`. -/
theorem totalSize_wraps :
    (totalSize (addChildAt [] (FileItem.new "b" "/r/b" 1 0 false)
      (FileItem.new "r" "/r" (2 ^ 63 - 1) 0 true))).1 = -2 ^ 63 ∧
    subtreeSum (addChildAt [] (FileItem.new "b" "/r/b" 1 0 false)
      (FileItem.new "r" "/r" (2 ^ 63 - 1) 0 true)) = 2 ^ 63 := by
  decide

end FileItem

/-! ### Pointers into a tree -/

namespace FileItem

theorem info_addChild (t c : FileItem) : (t.addChild c).info = t.info := by
  cases t; rfl

theorem children_addChild (t c : FileItem) : (t.addChild c).children = t.children ++ [c] := by
  cases t; rfl

theorem info_addChildAt (q : List Nat) (c : FileItem) :
    ∀ t : FileItem, (addChildAt q c t).info = t.info := by
  cases q with
  | nil => intro t; exact info_addChild t c
  | cons k q =>
    intro t
    cases t with
    | mk n p s m d cs cv cf =>
      simp only [addChildAt]
      split <;> rfl

theorem map_info_set (cs : List FileItem) (k : Nat) (x y : FileItem) (hk : cs[k]? = some y)
    (hx : x.info = y.info) : (cs.set k x).map info = cs.map info := by
  induction cs generalizing k with
  | nil => simp
  | cons a as ih =>
    cases k with
    | zero =>
      simp at hk
      subst hk
      simp [hx]
    | succ k =>
      simp at hk
      simp [ih k hk]

/-- A node that exists before an `addChild` through the pointer `q` exists
after it with the same stored data; its child list is the old one followed by
the new child when it is the node at `q`, and has the same length and the same
stored data otherwise. -/
theorem nodeAt_addChildAt (c : FileItem) (p : List Nat) :
    ∀ (q : List Nat) (t n : FileItem), nodeAt p t = some n →
      ∃ n', nodeAt p (addChildAt q c t) = some n' ∧ n'.info = n.info ∧
        (p = q → n'.children = n.children ++ [c]) ∧
        (p ≠ q → n'.children.map info = n.children.map info) := by
  induction p with
  | nil =>
    intro q t n hn
    simp only [nodeAt, Option.some.injEq] at hn
    subst hn
    refine ⟨addChildAt q c t, rfl, info_addChildAt q c t, ?_, ?_⟩
    · intro hq
      subst hq
      exact children_addChild t c
    · intro hq
      cases q with
      | nil => exact absurd rfl hq
      | cons k q =>
        cases t with
        | mk nm pa s m d cs cv cf =>
          simp only [addChildAt]
          cases hk : cs[k]? with
          | none => rfl
          | some ck =>
            simp only [children]
            exact map_info_set cs k _ ck hk (info_addChildAt q c ck)
  | cons k p ih =>
    intro q t n hn
    cases t with
    | mk nm pa s m d cs cv cf =>
      simp only [nodeAt, children] at hn
      cases hk : cs[k]? with
      | none => simp [hk] at hn
      | some ck =>
        simp only [hk] at hn
        have hlen : k < cs.length := (List.getElem?_eq_some_iff.1 hk).1
        cases q with
        | nil =>
          refine ⟨n, ?_, rfl, fun h => by simp at h, fun _ => rfl⟩
          simp only [addChildAt, addChild, nodeAt, children]
          rw [List.getElem?_append_left hlen, hk]
          exact hn
        | cons k2 q =>
          simp only [addChildAt]
          cases hk2 : cs[k2]? with
          | none =>
            refine ⟨n, ?_, rfl, ?_, fun _ => rfl⟩
            · simp only [nodeAt, children, hk]; exact hn
            · intro h
              simp only [List.cons.injEq] at h
              rw [h.1, hk2] at hk
              simp at hk
          | some ck2 =>
            by_cases hkk : k = k2
            · subst hkk
              rw [hk] at hk2
              simp only [Option.some.injEq] at hk2
              subst hk2
              obtain ⟨n', h1, h2, h3, h4⟩ := ih q ck n hn
              refine ⟨n', ?_, h2, ?_, ?_⟩
              · simp only [nodeAt, children]
                rw [List.getElem?_set_self hlen]
                exact h1
              · intro h
                simp only [List.cons.injEq, true_and] at h
                exact h3 h
              · intro h
                exact h4 (fun hpq => h (by rw [hpq]))
            · refine ⟨n, ?_, rfl, ?_, fun _ => rfl⟩
              · simp only [nodeAt, children]
                rw [List.getElem?_set_ne (Ne.symm hkk), hk]
                exact hn
              · intro h
                simp only [List.cons.injEq] at h
                exact absurd h.1 hkk

/-- The child appended through the pointer `q` is the node at `q` followed by
its index. -/
theorem nodeAt_addChildAt_new (c : FileItem) (q : List Nat) :
    ∀ (t n : FileItem), nodeAt q t = some n →
      nodeAt (q ++ [n.children.length]) (addChildAt q c t) = some c := by
  induction q with
  | nil =>
    intro t n hn
    simp only [nodeAt, Option.some.injEq] at hn
    subst hn
    cases t with
    | mk nm pa s m d cs cv cf =>
      simp [addChildAt, addChild, nodeAt, children]
  | cons k q ih =>
    intro t n hn
    cases t with
    | mk nm pa s m d cs cv cf =>
      simp only [nodeAt, children] at hn
      cases hk : cs[k]? with
      | none => simp [hk] at hn
      | some ck =>
        simp only [hk] at hn
        have hlen : k < cs.length := (List.getElem?_eq_some_iff.1 hk).1
        simp only [addChildAt, hk, List.cons_append, nodeAt, children]
        rw [List.getElem?_set_self hlen]
        exact ih ck n hn

/-- A pointer that designates a node after an `addChild` through `q` of a child
without children either designated one before, or is the pointer to the new
child. -/
theorem nodeAt_addChildAt_inv (c : FileItem) (hc : c.children = []) (p : List Nat) :
    ∀ (q : List Nat) (t n' : FileItem), nodeAt p (addChildAt q c t) = some n' →
      (∃ n, nodeAt p t = some n) ∨
        (∃ n, nodeAt q t = some n ∧ p = q ++ [n.children.length]) := by
  induction p with
  | nil => intro q t n' _; exact Or.inl ⟨t, rfl⟩
  | cons k p ih =>
    intro q t n' hn
    cases t with
    | mk nm pa s m d cs cv cf =>
      cases q with
      | nil =>
        simp only [addChildAt, addChild, nodeAt, children] at hn
        by_cases hlen : k < cs.length
        · rw [List.getElem?_append_left hlen] at hn
          left
          simp only [nodeAt, children]
          cases hk : cs[k]? with
          | none => simp [hk] at hn
          | some ck => simp only [hk] at hn; exact ⟨n', hn⟩
        · right
          refine ⟨_, rfl, ?_⟩
          simp only [children, List.nil_append]
          have hge : cs.length ≤ k := Nat.le_of_not_lt hlen
          rw [List.getElem?_append_right hge] at hn
          cases hd : k - cs.length with
          | zero =>
            have hk : k = cs.length := by omega
            simp only [hd, List.getElem?_cons_zero] at hn
            cases p with
            | nil => rw [hk]
            | cons k' p' =>
              simp only [nodeAt, hc] at hn
              simp at hn
          | succ d' => simp [hd] at hn
      | cons k2 q =>
        simp only [addChildAt] at hn
        cases hk2 : cs[k2]? with
        | none =>
          simp only [hk2] at hn
          exact Or.inl ⟨n', hn⟩
        | some ck2 =>
          simp only [hk2, nodeAt, children] at hn
          have hlen2 : k2 < cs.length := (List.getElem?_eq_some_iff.1 hk2).1
          by_cases hkk : k = k2
          · subst hkk
            rw [List.getElem?_set_self hlen2] at hn
            rcases ih q ck2 n' hn with ⟨n, h⟩ | ⟨n, h1, h2⟩
            · left
              exact ⟨n, by simp only [nodeAt, children, hk2]; exact h⟩
            · right
              refine ⟨n, by simp only [nodeAt, children, hk2]; exact h1, ?_⟩
              rw [h2]; rfl
          · rw [List.getElem?_set_ne (Ne.symm hkk)] at hn
            left
            exact ⟨n', by simp only [nodeAt, children]; exact hn⟩

theorem fileNodesList_append (as bs : List FileItem) :
    fileNodesList (as ++ bs) = fileNodesList as + fileNodesList bs := by
  induction as with
  | nil => simp [fileNodesList]
  | cons a as ih => simp [fileNodesList, ih, Nat.add_assoc]

theorem fileBytesList_append (as bs : List FileItem) :
    fileBytesList (as ++ bs) = fileBytesList as + fileBytesList bs := by
  induction as with
  | nil => simp [fileBytesList]
  | cons a as ih => simp [fileBytesList, ih, add_assoc]

theorem fileNodesList_set (cs : List FileItem) (k : Nat) (x y : FileItem) (d : Nat)
    (hk : cs[k]? = some y) (hx : fileNodes x = fileNodes y + d) :
    fileNodesList (cs.set k x) = fileNodesList cs + d := by
  induction cs generalizing k with
  | nil => simp at hk
  | cons a as ih =>
    cases k with
    | zero =>
      simp at hk
      subst hk
      simp only [List.set_cons_zero, fileNodesList, hx]
      omega
    | succ k =>
      simp at hk
      simp only [List.set_cons_succ, fileNodesList, ih k hk]
      omega

theorem fileBytesList_set (cs : List FileItem) (k : Nat) (x y : FileItem) (d : Int)
    (hk : cs[k]? = some y) (hx : fileBytes x = fileBytes y + d) :
    fileBytesList (cs.set k x) = fileBytesList cs + d := by
  induction cs generalizing k with
  | nil => simp at hk
  | cons a as ih =>
    cases k with
    | zero =>
      simp at hk
      subst hk
      simp only [List.set_cons_zero, fileBytesList, hx]
      ring
    | succ k =>
      simp at hk
      simp only [List.set_cons_succ, fileBytesList, ih k hk]
      ring

/-- An `addChild` through a pointer that designates a node adds the file nodes
and the file bytes of the child to those of the tree. -/
theorem fileNodes_addChildAt (c : FileItem) (q : List Nat) :
    ∀ (t n : FileItem), nodeAt q t = some n →
      fileNodes (addChildAt q c t) = fileNodes t + fileNodes c ∧
      fileBytes (addChildAt q c t) = fileBytes t + fileBytes c := by
  induction q with
  | nil =>
    intro t n _
    cases t with
    | mk nm pa s m d cs cv cf =>
      simp only [addChildAt, addChild, fileNodes, fileBytes, fileNodesList_append,
        fileBytesList_append, fileNodesList, fileBytesList]
      constructor
      · omega
      · ring
  | cons k q ih =>
    intro t n hn
    cases t with
    | mk nm pa s m d cs cv cf =>
      simp only [nodeAt, children] at hn
      cases hk : cs[k]? with
      | none => simp [hk] at hn
      | some ck =>
        simp only [hk] at hn
        obtain ⟨h1, h2⟩ := ih ck n hn
        simp only [addChildAt, hk, fileNodes, fileBytes,
          fileNodesList_set cs k _ ck _ hk h1, fileBytesList_set cs k _ ck _ hk h2]
        constructor
        · omega
        · ring

end FileItem

/-! ### `addChild` and the memoized totals -/

namespace FileItem

theorem subtreeSumList_append (as bs : List FileItem) :
    subtreeSumList (as ++ bs) = subtreeSumList as + subtreeSumList bs := by
  induction as with
  | nil => simp [subtreeSumList]
  | cons a as ih => simp [subtreeSumList, ih, add_assoc]

theorem subtreeSumList_set_add (cs : List FileItem) (k : Nat) (x y : FileItem) (d : Int)
    (hk : cs[k]? = some y) (hx : subtreeSum x = subtreeSum y + d) :
    subtreeSumList (cs.set k x) = subtreeSumList cs + d := by
  induction cs generalizing k with
  | nil => simp at hk
  | cons a as ih =>
    cases k with
    | zero =>
      simp at hk
      subst hk
      simp only [List.set_cons_zero, subtreeSumList, hx]
      omega
    | succ k =>
      simp at hk
      simp only [List.set_cons_succ, subtreeSumList, ih k hk]
      omega

/-- An `addChild` through a pointer adds the total of the new child to the true
total of the tree. -/
theorem subtreeSum_addChildAt (c : FileItem) (q : List Nat) :
    ∀ (t n : FileItem), nodeAt q t = some n →
      subtreeSum (addChildAt q c t) = subtreeSum t + subtreeSum c := by
  induction q with
  | nil =>
    intro t n _
    cases t with
    | mk nm p s m d cs cv cf =>
      simp only [addChildAt, addChild, subtreeSum, subtreeSumList_append, subtreeSumList]
      omega
  | cons k q ih =>
    intro t n hn
    cases t with
    | mk nm p s m d cs cv cf =>
      simp only [nodeAt, children] at hn
      cases hk : cs[k]? with
      | none => simp [hk] at hn
      | some x =>
        simp only [hk] at hn
        simp only [addChildAt, hk, subtreeSum]
        rw [subtreeSumList_set_add cs k _ x (subtreeSum c) hk (ih x n hn)]
        omega

/-- What an `addChild` through the pointer `q` does to the node at `p`: the node
at `q` is the one `addChild` is called on; every other node that existed keeps
its cache flag and its cached value. -/
theorem nodeAt_addChildAt_cache (c : FileItem) (p : List Nat) :
    ∀ (q : List Nat) (t n : FileItem), nodeAt p t = some n →
      ∃ n', nodeAt p (addChildAt q c t) = some n' ∧
        (p = q → n' = n.addChild c) ∧
        (p ≠ q → n'.totalSizeCached = n.totalSizeCached ∧
          n'.cachedTotalSize = n.cachedTotalSize) := by
  induction p with
  | nil =>
    intro q t n hn
    simp only [nodeAt, Option.some.injEq] at hn
    subst hn
    cases q with
    | nil => exact ⟨_, rfl, fun _ => rfl, fun h => absurd rfl h⟩
    | cons k q =>
      cases t with
      | mk nm pa s m d cs cv cf =>
        refine ⟨_, rfl, fun h => by simp at h, fun _ => ?_⟩
        simp only [addChildAt]
        split <;> exact ⟨rfl, rfl⟩
  | cons j p ih =>
    intro q t n hn
    cases t with
    | mk nm pa s m d cs cv cf =>
      simp only [nodeAt, children] at hn
      cases hj : cs[j]? with
      | none => simp [hj] at hn
      | some x =>
        simp only [hj] at hn
        cases q with
        | nil =>
          refine ⟨n, ?_, fun h => by simp at h, fun _ => ⟨rfl, rfl⟩⟩
          have hjl : j < cs.length := (List.getElem?_eq_some_iff.1 hj).1
          simp only [addChildAt, addChild, nodeAt, children]
          rw [List.getElem?_append_left hjl, hj]
          exact hn
        | cons k q =>
          simp only [addChildAt]
          cases hk : cs[k]? with
          | none =>
            refine ⟨n, ?_, ?_, fun _ => ⟨rfl, rfl⟩⟩
            · simp only [nodeAt, children, hj]; exact hn
            · intro h
              simp only [List.cons.injEq] at h
              rw [h.1, hk] at hj
              simp at hj
          | some y =>
            simp only [nodeAt, children]
            by_cases hjk : j = k
            · subst hjk
              rw [hj] at hk
              simp only [Option.some.injEq] at hk
              subst hk
              have hjl : j < cs.length := (List.getElem?_eq_some_iff.1 hj).1
              obtain ⟨n', h1, h2, h3⟩ := ih q x n hn
              refine ⟨n', ?_, ?_, ?_⟩
              · simp only [List.getElem?_set_self hjl]; exact h1
              · intro h; simp only [List.cons.injEq, true_and] at h; exact h2 h
              · intro h; exact h3 (fun h' => h (by rw [h']))
            · refine ⟨n, ?_, ?_, fun _ => ⟨rfl, rfl⟩⟩
              · rw [List.getElem?_set_ne (fun h => hjk h.symm), hj]; exact hn
              · intro h; simp only [List.cons.injEq] at h; exact absurd h.1 hjk

/-- C12: for every node `n` and child `c`, `addChild(c)` on `n` makes the child
sequence of `n` its previous child sequence followed by `c` (so every existing
child keeps its place), clears the flag of the memoized total of `n`, and
leaves name, path, size, time stamp and kind of `n` unchanged; a node made by
the constructor has the empty child sequence. -/
theorem C12_addChild_appends_and_invalidates (n c : FileItem) (name path : String)
    (size modified : Int) (isDir : Bool) :
    (n.addChild c).children = n.children ++ [c] ∧
    (∀ (i : Nat) (x : FileItem), n.children[i]? = some x →
      (n.addChild c).children[i]? = some x) ∧
    (n.addChild c).totalSizeCached = false ∧
    (n.addChild c).name = n.name ∧ (n.addChild c).path = n.path ∧
    (n.addChild c).size = n.size ∧ (n.addChild c).modified = n.modified ∧
    (n.addChild c).isDirectory = n.isDirectory ∧
    (FileItem.new name path size modified isDir).children = [] := by
  cases n with
  | mk nm pa s m d cs cv cf =>
    refine ⟨rfl, ?_, rfl, rfl, rfl, rfl, rfl, rfl, rfl⟩
    intro i x hx
    have hil : i < cs.length := (List.getElem?_eq_some_iff.1 hx).1
    simp only [addChild, children] at hx ⊢
    rw [List.getElem?_append_left hil, hx]

/-- C16: let the total of `n` be memoized (flag set, value the total of `n`) and
let `d` be a proper descendant of `n`. `addChild(child)` on `d` clears the flag
of `d` and of no other node: every other node keeps flag and cached value, `n`
among them, so the next `n.totalSize()` returns the value from before the
append. The own size of `n` plus the totals of its children computed afresh
from the sizes is larger than that value by the total of `child`; so for a
child of positive size (over descendants of non-negative total) the two differ.
When `d` is a child of `n` and the other memoized values are right, what
`totalSize()` itself returns for the children of `n` after the append sums to
that fresh total as well: up to a multiple of 2^64 always (each returned value
is a `qint64`), and exactly when every total of the tree lies in the range of
`qint64`. -/
theorem C16_ancestor_cache_not_invalidated (n child d : FileItem) (k : Nat) (q : List Nat)
    (hcached : n.totalSizeCached = true) (hval : n.cachedTotalSize = subtreeSum n)
    (hd : nodeAt (k :: q) n = some d) :
    nodeAt (k :: q) (addChildAt (k :: q) child n) = some (d.addChild child) ∧
    (d.addChild child).totalSizeCached = false ∧
    (∀ (p : List Nat) (x : FileItem), p ≠ k :: q → nodeAt p n = some x →
      ∃ x', nodeAt p (addChildAt (k :: q) child n) = some x' ∧
        x'.totalSizeCached = x.totalSizeCached ∧ x'.cachedTotalSize = x.cachedTotalSize) ∧
    (addChildAt (k :: q) child n).totalSizeCached = true ∧
    (addChildAt (k :: q) child n).cachedTotalSize = n.cachedTotalSize ∧
    (totalSize (addChildAt (k :: q) child n)).1 = (totalSize n).1 ∧
    (addChildAt (k :: q) child n).size + subtreeSumList (addChildAt (k :: q) child n).children =
      (totalSize (addChildAt (k :: q) child n)).1 + subtreeSum child ∧
    (0 < child.size → 0 ≤ subtreeSumList child.children →
      (totalSize (addChildAt (k :: q) child n)).1 ≠
        (addChildAt (k :: q) child n).size +
          subtreeSumList (addChildAt (k :: q) child n).children) ∧
    (q = [] → CacheOk n → CacheOk child →
      wrap64 ((addChildAt (k :: q) child n).size +
          ((addChildAt (k :: q) child n).children.map (fun c => (totalSize c).1)).sum) =
        wrap64 ((totalSize (addChildAt (k :: q) child n)).1 + subtreeSum child) ∧
      (SumsFit (addChildAt (k :: q) child n) →
        (addChildAt (k :: q) child n).size +
            ((addChildAt (k :: q) child n).children.map (fun c => (totalSize c).1)).sum =
          (totalSize (addChildAt (k :: q) child n)).1 + subtreeSum child)) := by
  have hsum := subtreeSum_addChildAt child (k :: q) n d hd
  obtain ⟨d', hd1, hd2, -⟩ := nodeAt_addChildAt_cache child (k :: q) (k :: q) n d hd
  have hd' := hd2 rfl
  subst hd'
  have hother : ∀ (p : List Nat) (x : FileItem), p ≠ k :: q → nodeAt p n = some x →
      ∃ x', nodeAt p (addChildAt (k :: q) child n) = some x' ∧
        x'.totalSizeCached = x.totalSizeCached ∧ x'.cachedTotalSize = x.cachedTotalSize := by
    intro p x hp hx
    obtain ⟨x', h1, -, h3⟩ := nodeAt_addChildAt_cache child p (k :: q) n x hx
    exact ⟨x', h1, h3 hp⟩
  obtain ⟨r', hr1, hr2, hr3⟩ := hother [] n (by simp) rfl
  simp only [nodeAt, Option.some.injEq] at hr1
  subst hr1
  rw [hcached] at hr2
  have hflagd : (d.addChild child).totalSizeCached = false := by cases d; rfl
  have hts : ∀ t : FileItem, t.totalSizeCached = true → (totalSize t).1 = t.cachedTotalSize := by
    intro t ht
    cases t with
    | mk nm pa s m dd cs cv cf =>
      simp only [totalSizeCached] at ht
      subst ht
      simp [totalSize, cachedTotalSize]
  have hsub : ∀ t : FileItem, t.size + subtreeSumList t.children = subtreeSum t := by
    intro t; cases t; rfl
  have hfresh : (addChildAt (k :: q) child n).size +
      subtreeSumList (addChildAt (k :: q) child n).children =
      (totalSize (addChildAt (k :: q) child n)).1 + subtreeSum child := by
    rw [hsub, hsum, hts _ hr2, hr3, hval]
  refine ⟨hd1, hflagd, hother, hr2, hr3, ?_, hfresh, ?_, ?_⟩
  · rw [hts _ hr2, hts _ hcached, hr3]
  · intro hpos hnn
    have hc : 0 < subtreeSum child := by
      rw [← hsub child]; omega
    omega
  · intro hq hok hokc
    subst hq
    rw [← hfresh]
    have hnew : CacheOkList (addChildAt [k] child n).children ∧
        (SumsFit (addChildAt [k] child n) → SumsFitList (addChildAt [k] child n).children) := by
      refine ⟨?_, fun hf => ?_⟩
      · cases n with
        | mk nm pa s m dd cs cv cf =>
          simp only [nodeAt, children] at hd
          cases hk : cs[k]? with
          | none => simp [hk] at hd
          | some y =>
            simp only [hk, Option.some.injEq] at hd
            subst hd
            simp only [addChildAt, hk, children]
            have hl := hok.2
            rw [cacheOkList_iff] at hl ⊢
            intro x hx
            rcases List.mem_or_eq_of_mem_set hx with h | h
            · exact hl x h
            · subst h
              have hy := hl y (List.getElem?_mem hk)
              cases y with
              | mk nm2 pa2 s2 m2 d2 cs2 cv2 cf2 =>
                simp only [addChild, CacheOk]
                refine ⟨fun h => by simp at h, ?_⟩
                rw [cacheOkList_iff]
                intro z hz
                have hy2 := hy.2
                rw [cacheOkList_iff] at hy2
                rcases List.mem_append.1 hz with h | h
                · exact hy2 z h
                · simp at h; subst h; exact hokc
      · generalize addChildAt [k] child n = x at hf ⊢
        cases x
        exact hf.2
    refine ⟨sum_totalSize_children_wrap _ hnew.1 _, fun hf => ?_⟩
    rw [sum_totalSize_children _ hnew.1 (hnew.2 hf)]

/-- Witness of C16: a root with the directory `sub`; `totalSize()` on the root
memoizes 0 in both; a file of 5 bytes is then appended to `sub`. -/
theorem C16_ancestor_cache_not_invalidated_witness :
    (totalSize (addChildAt [0] (FileItem.new "f" "/r/sub/f" 5 0 false)
      (mk "r" "/r" 0 0 true [mk "sub" "/r/sub" 0 0 true [] 0 true] 0 true))).1 = 0 ∧
    (addChildAt [0] (FileItem.new "f" "/r/sub/f" 5 0 false)
      (mk "r" "/r" 0 0 true [mk "sub" "/r/sub" 0 0 true [] 0 true] 0 true)).size +
      subtreeSumList (addChildAt [0] (FileItem.new "f" "/r/sub/f" 5 0 false)
        (mk "r" "/r" 0 0 true [mk "sub" "/r/sub" 0 0 true [] 0 true] 0 true)).children = 5 ∧
    (totalSize (addChildAt [0] (FileItem.new "f" "/r/sub/f" 5 0 false)
      (mk "r" "/r" 0 0 true [mk "sub" "/r/sub" 0 0 true [] 0 true] 0 true))).1 ≠
    (addChildAt [0] (FileItem.new "f" "/r/sub/f" 5 0 false)
      (mk "r" "/r" 0 0 true [mk "sub" "/r/sub" 0 0 true [] 0 true] 0 true)).size +
      subtreeSumList (addChildAt [0] (FileItem.new "f" "/r/sub/f" 5 0 false)
        (mk "r" "/r" 0 0 true [mk "sub" "/r/sub" 0 0 true [] 0 true] 0 true)).children :=
  ⟨by decide, by decide,
    (C16_ancestor_cache_not_invalidated
      (mk "r" "/r" 0 0 true [mk "sub" "/r/sub" 0 0 true [] 0 true] 0 true)
      (FileItem.new "f" "/r/sub/f" 5 0 false) (mk "sub" "/r/sub" 0 0 true [] 0 true) 0 []
      rfl (by decide) rfl).2.2.2.2.2.2.2.1 (by decide) (by decide)⟩

end FileItem

/-! ### The count pass -/

mutual
/-- With cancellation never observed the count pass returns the number of plain
files reduced to the range of `int`. -/
theorem countFilesInDirectory_fst : ∀ (e : Entry) (k : Nat),
    (countFilesInDirectory (fun _ => false) e k).1 = wrapInt (plainFilesBelow e : Int)
  | Entry.dir _ _ _ ex es, k => by
    cases ex with
    | true =>
      have h := countLoop_fst es 0 (k + 1) (by decide)
      simpa [countFilesInDirectory, plainFilesBelow] using h
    | false =>
      simp only [countFilesInDirectory, plainFilesBelow, Bool.false_eq_true, if_false,
        Bool.not_false, if_true]
      decide
  | Entry.file _ _ _, k => by
    simp only [countFilesInDirectory, plainFilesBelow]
    decide
  | Entry.other _, k => by
    simp only [countFilesInDirectory, plainFilesBelow]
    decide
theorem countLoop_fst : ∀ (es : List Entry) (count : Int) (k : Nat), wrapInt count = count →
    (countLoop (fun _ => false) es count k).1 = wrapInt (count + (plainFilesIn es : Int))
  | [], count, k, hcount => by simp [countLoop, plainFilesIn, hcount]
  | Entry.file _ _ _ :: rest, count, k, _ => by
    have h := countLoop_fst rest (wrapInt (count + 1)) (k + 1) (wrapInt_wrapInt _)
    simp only [countLoop, Entry.isDir, Entry.isFile, plainFilesIn] at h ⊢
    simp only [Bool.false_eq_true, if_false, Bool.false_and, if_true] at h ⊢
    rw [h, wrapInt_add_wrapInt]
    congr 1
    push_cast
    ring
  | Entry.other _ :: rest, count, k, hcount => by
    have h := countLoop_fst rest count (k + 1) hcount
    simp only [countLoop, Entry.isDir, Entry.isFile, plainFilesIn] at h ⊢
    simpa using h
  | Entry.dir n m l ex es :: rest, count, k, hcount => by
    cases l with
    | true =>
      have h := countLoop_fst rest count (k + 1) hcount
      simp only [countLoop, Entry.isDir, Entry.isFile, Entry.isSymLink, plainFilesIn] at h ⊢
      simpa using h
    | false =>
      have h1 := countFilesInDirectory_fst (Entry.dir n m false ex es) (k + 1)
      have h := countLoop_fst rest
        (wrapInt
          (count + (countFilesInDirectory (fun _ => false) (Entry.dir n m false ex es) (k + 1)).1))
        (countFilesInDirectory (fun _ => false) (Entry.dir n m false ex es) (k + 1)).2
        (wrapInt_wrapInt _)
      simp only [countLoop, Entry.isDir, Entry.isFile, Entry.isSymLink, plainFilesIn] at h ⊢
      simp only [Bool.false_eq_true, if_false, Bool.not_false, Bool.and_self, if_true] at h ⊢
      rw [h, h1, wrapInt_add_wrapInt]
      push_cast
      generalize (plainFilesBelow (Entry.dir n m false ex es) : Int) = a
      generalize (plainFilesIn rest : Int) = b
      unfold wrapInt
      omega
end

/-- C6: with cancellation never observed, and fewer than 2^31 plain files to
count (the result is an `int`), `countFilesInDirectory` returns the number of
plain files reachable from the path through directories that are not symbolic
links: a path that is not an existing directory gives 0; in a listing a file
counts 1, a symbolic link to a directory and a directory that does not exist
count 0, a directory counts what lies below it, and every entry of the listing
is visited whatever the entries before it were. -/
theorem C6_count_pass_counts_plain_files (e : Entry)
    (hfit : (plainFilesBelow e : Int) < 2 ^ 31) :
    (countFilesInDirectory (fun _ => false) e 0).1 = (plainFilesBelow e : Int) ∧
    (∀ n m l es, plainFilesBelow (Entry.dir n m l false es) = 0) ∧
    (∀ n m l es, plainFilesBelow (Entry.dir n m l true es) = plainFilesIn es) ∧
    (∀ n sz m rest, plainFilesIn (Entry.file n sz m :: rest) = 1 + plainFilesIn rest) ∧
    (∀ n m ex es rest,
      plainFilesIn (Entry.dir n m true ex es :: rest) = plainFilesIn rest) ∧
    (∀ n m es rest,
      plainFilesIn (Entry.dir n m false false es :: rest) = plainFilesIn rest) ∧
    (∀ n m es rest, plainFilesIn (Entry.dir n m false true es :: rest) =
      plainFilesIn es + plainFilesIn rest) ∧
    (∀ n rest, plainFilesIn (Entry.other n :: rest) = plainFilesIn rest) :=
  ⟨by rw [countFilesInDirectory_fst e 0]
      exact wrapInt_of_fits (by omega) hfit,
   by intros; simp [plainFilesBelow],
   by intros; simp [plainFilesBelow],
   by intros; simp [plainFilesIn],
   by intros; simp [plainFilesIn],
   by intros; simp [plainFilesIn, plainFilesBelow],
   by intros; simp [plainFilesIn, plainFilesBelow],
   by intros; simp [plainFilesIn]⟩

/-- Witness of C6: the example of the specification, two plain files, one of
them below the directory `sub`. -/
theorem C6_count_pass_counts_plain_files_witness :
    (plainFilesBelow fsExample : Int) < 2 ^ 31 ∧
    (countFilesInDirectory (fun _ => false) fsExample 0).1 = 2 ∧
    (countFilesInDirectory (fun _ => false) fsExample 0).1 = (plainFilesBelow fsExample : Int) :=
  ⟨by decide, by decide, (C6_count_pass_counts_plain_files fsExample (by decide)).1⟩

/-! ### The session: single steps -/

theorem getElem?_set_append_self {α : Type} (l : List α) (i : Nat) (a b : α)
    (hi : i < l.length) : (l.set i a ++ [b])[i]? = some a := by
  rw [List.getElem?_append_left (by simpa using hi)]
  simp [hi]

/-- C5 (as amended): when the entry a scan loop has in hand is a symbolic link
to a directory, the step that handles it exists and records nothing: no child
is added to any item, no subtask is dispatched (the pool and `m_activeTasks`
are as before), no counter changes and no signal is emitted; the task goes on
to the next entry (or, with cancellation pending, leaves the loop) and no
other task is touched. -/
theorem C5_symlinked_directory_not_recorded (s : Scanner) (i : Nat) (t : Task) (e : Entry)
    (rest : List Entry) (ht : s.pool[i]? = some t) (hpc : t.pc = PC.loop (e :: rest))
    (hdir : e.isDir = true) (hlink : e.isSymLink = true) :
    ∃ s', s.step (Action.task i) = some s' ∧ s'.items = s.items ∧
      s'.pool.length = s.pool.length ∧ s'.m_activeTasks = s.m_activeTasks ∧
      s'.m_scannedFiles = s.m_scannedFiles ∧ s'.m_totalSize = s.m_totalSize ∧
      s'.events = s.events ∧
      (s'.pool[i]?.map Task.pc = some (PC.loop rest) ∨
        s'.pool[i]?.map Task.pc = some PC.rootCheck) ∧
      ∀ j, j ≠ i → s'.pool[j]? = s.pool[j]? := by
  have hf : e.isFile = false := by cases e <;> simp_all [Entry.isDir, Entry.isFile]
  have hi : i < s.pool.length := (List.getElem?_eq_some_iff.1 ht).1
  by_cases hc : s.m_cancelRequested = true
  · refine ⟨s.goto i t PC.rootCheck, ?_, ?_⟩
    · simp [Scanner.step, ht, Scanner.taskStep, hpc, hc]
    · simp [Scanner.goto, Scanner.setTask, hi]
      intro j hj
      rw [List.getElem?_set_ne (Ne.symm hj)]
  · refine ⟨s.goto i t (PC.loop rest), ?_, ?_⟩
    · simp [Scanner.step, ht, Scanner.taskStep, hpc, hc, hf, hdir, hlink]
    · simp [Scanner.goto, Scanner.setTask, hi]
      intro j hj
      rw [List.getElem?_set_ne (Ne.symm hj)]

/-- Witness of C5 (as amended): the root scan of `fsLink`, at the loop head
with the entry `link` in hand. -/
theorem C5_symlinked_directory_not_recorded_witness :
    ∃ s', (Scanner.goto ((Scanner.init "/root" fsLink 2).start) 0
        ⟨true, "/root", fsLink, ⟨0, []⟩, PC.queued⟩
        (PC.loop [Entry.dir "link" 0 true true [Entry.file "x" 7 0]])).step (Action.task 0) =
          some s' ∧
      s'.items = [FileItem.new "root" "/root" 0 0 true] ∧ s'.pool.length = 1 ∧
      s'.m_activeTasks = 0 ∧ s'.m_scannedFiles = 0 ∧ s'.m_totalSize = 0 ∧ s'.events = [] := by
  obtain ⟨s', h1, h2, h3, h4, h5, h6, h7, _⟩ :=
    C5_symlinked_directory_not_recorded
      (Scanner.goto ((Scanner.init "/root" fsLink 2).start) 0
        ⟨true, "/root", fsLink, ⟨0, []⟩, PC.queued⟩
        (PC.loop [Entry.dir "link" 0 true true [Entry.file "x" 7 0]]))
      0 ⟨true, "/root", fsLink, ⟨0, []⟩,
        PC.loop [Entry.dir "link" 0 true true [Entry.file "x" 7 0]]⟩
      (Entry.dir "link" 0 true true [Entry.file "x" 7 0]) [] rfl rfl rfl rfl
  exact ⟨s', h1, h2, h3, h4, h5, h6, h7⟩

/-- C9 (as amended): for every step of a pool task, (1) `m_activeTasks` goes up
by one only in the step `m_activeTasks++` and the pool grows only in the step
`QtConcurrent::run`; (2) a task comes to stand before `m_activeTasks++` only
from its own test `if (!m_cancelRequested)` for that entry, taken in a state
where the flag is false, and before `QtConcurrent::run` only from
`m_activeTasks++` (whatever the flag has become since); (3) a `scanDirectory`
call entered with the flag set returns at once: no item, counter, pool slot or
event changes. -/
theorem C9_dispatch_follows_own_check (s s' : Scanner) (i : Nat) (t : Task)
    (ht : s.pool[i]? = some t) (hstep : s.step (Action.task i) = some s') :
    (s'.m_activeTasks = s.m_activeTasks + 1 →
      ∃ item e rest, t.pc = PC.dirIncrement item e rest) ∧
    (s'.pool.length = s.pool.length + 1 → ∃ item e rest, t.pc = PC.dirRun item e rest) ∧
    (∀ item e rest, s'.pool[i]?.map Task.pc = some (PC.dirIncrement item e rest) →
      t.pc = PC.dirCancel item e rest ∧ s.m_cancelRequested = false) ∧
    (∀ item e rest, s'.pool[i]?.map Task.pc = some (PC.dirRun item e rest) →
      t.pc = PC.dirIncrement item e rest) ∧
    (t.pc = PC.scanCancel → s.m_cancelRequested = true →
      s'.items = s.items ∧ s'.m_scannedFiles = s.m_scannedFiles ∧
      s'.m_totalSize = s.m_totalSize ∧ s'.m_activeTasks = s.m_activeTasks ∧
      s'.m_totalFiles = s.m_totalFiles ∧ s'.pool.length = s.pool.length ∧
      s'.events = s.events ∧ s'.pool[i]?.map Task.pc = some (Scanner.afterScan t)) := by
  have hi : i < s.pool.length := (List.getElem?_eq_some_iff.1 ht).1
  simp only [Scanner.step, ht] at hstep
  unfold Scanner.taskStep at hstep
  cases hpc : t.pc with
  | handler h =>
    simp only [hpc, Option.some.injEq] at hstep
    subst hstep
    cases h <;> by_cases hc : s.m_cancelRequested = true <;>
      simp [Scanner.otfState, Scanner.otfNext, Scanner.emit, Scanner.goto, Scanner.afterScan,
        Scanner.setTask, hi, hc] <;>
      split <;> simp
  | dirRun item e rest =>
    simp only [hpc, Option.some.injEq] at hstep
    subst hstep
    simp [Scanner.goto, Scanner.setTask, hi, getElem?_set_append_self]
  | _ =>
    simp only [hpc] at hstep
    repeat' split at hstep
    all_goals first
      | (simp only [Option.some.injEq] at hstep
         subst hstep
         simp_all [Scanner.emit, Scanner.goto, Scanner.afterScan, Scanner.addChildRef,
           Scanner.setTask]
         try (split <;> simp)
         try (unfold wrapInt; omega)
         try omega)
      | simp at hstep

/-- Witness of C9 (as amended): the step `m_activeTasks++` of the root scan of
`fsExample`, taken after `stop()` has set the flag. -/
theorem C9_dispatch_follows_own_check_witness :
    stateRace.pool[0]? = some (stateRace.pool.getD 0 default) ∧
    stateRace.step (Action.task 0) = some ((stateRace.step (Action.task 0)).getD stateRace) ∧
    (((stateRace.step (Action.task 0)).getD stateRace).m_activeTasks =
        stateRace.m_activeTasks + 1 →
      ∃ item e rest, (stateRace.pool.getD 0 default).pc = PC.dirIncrement item e rest) :=
  ⟨rfl, rfl,
    (C9_dispatch_follows_own_check stateRace ((stateRace.step (Action.task 0)).getD stateRace) 0
      (stateRace.pool.getD 0 default) rfl rfl).1⟩

/-! ### The session: invariants of every run -/

namespace Scanner

theorem taskStep_events (s s' : Scanner) (i : Nat) (t : Task)
    (hstep : s.taskStep i t = some s') :
    s'.m_rootItem = s.m_rootItem ∧
    (s'.events = s.events ∨ ∃ ev, s'.events = s.events ++ [ev] ∧
      (ev = Event.finished s.m_rootItem ∨ ∀ r, ev ≠ Event.finished r)) := by
  unfold Scanner.taskStep at hstep
  cases hpc : t.pc with
  | handler h =>
    simp only [hpc, Option.some.injEq] at hstep
    subst hstep
    cases h <;> simp [otfState, emit, goto, setTask]
  | _ =>
    simp only [hpc] at hstep
    repeat' split at hstep
    all_goals first
      | (simp only [Option.some.injEq] at hstep
         subst hstep
         simp [emit, goto, addChildRef, setTask])
      | simp at hstep

theorem mainStep_events (s s' : Scanner) (hstep : s.mainStep = some s') :
    s'.m_rootItem = s.m_rootItem ∧
    (s'.events = s.events ∨ ∃ ev, s'.events = s.events ++ [ev] ∧
      (ev = Event.finished s.m_rootItem ∨ ∀ r, ev ≠ Event.finished r)) := by
  unfold Scanner.mainStep at hstep
  cases hm : s.mainThread with
  | handler h back =>
    simp only [hm, Option.some.injEq] at hstep
    subst hstep
    cases h <;> simp [otfState, emit]
  | _ =>
    simp only [hm] at hstep
    repeat' split at hstep
    all_goals first
      | (simp only [Option.some.injEq] at hstep
         subst hstep
         simp)
      | simp at hstep

end Scanner

namespace Scanner

theorem missingRun_step (path : String) (fs : Entry) (hfs : fs.dirExists = false)
    (s s' : Scanner) (a : Action) (ha : a.internal = true) (h : MissingRun path fs s)
    (hstep : s.step a = some s') : MissingRun path fs s' := by
  obtain ⟨h1, h2, h3, h4, h5, h6, t, hp, ht1, ht2, ht3, hpc⟩ := h
  cases a with
  | start => simp [Action.internal] at ha
  | stop => simp [Action.internal] at ha
  | main => simp [step, mainStep, h4, h3] at hstep
  | task i =>
    simp only [step, hp] at hstep
    cases i with
    | succ i => simp at hstep
    | zero =>
      simp only [List.getElem?_cons_zero] at hstep
      rcases hpc with ⟨hpc | hpc | hpc, hev⟩ | ⟨hpc | hpc | hpc, hev⟩ | ⟨hpc, hev⟩
      all_goals
        simp [taskStep, hpc, h2, h5, ht1, ht2, hfs, afterScan] at hstep
      all_goals try (obtain ⟨_, hstep⟩ := hstep)
      all_goals try subst hstep
      all_goals
        simp [MissingRun, goto, setTask, emit, hp, h1, h2, h3, h4, h5, h6, ht1, ht2, ht3, hev]

theorem missingRun_run (path : String) (fs : Entry) (hfs : fs.dirExists = false)
    (sched : List Action) :
    ∀ s s' : Scanner, sched.all Action.internal = true → MissingRun path fs s →
      s.run sched = some s' → MissingRun path fs s' := by
  induction sched with
  | nil => intro s s' _ h hr; simp only [run, Option.some.injEq] at hr; subst hr; exact h
  | cons a as ih =>
    intro s s' hall h hr
    simp only [List.all_cons, Bool.and_eq_true] at hall
    simp only [run] at hr
    cases hs : s.step a with
    | none => simp [hs] at hr
    | some s1 =>
      simp only [hs] at hr
      exact ih s1 s' hall.2 (missingRun_step path fs hfs s s1 a hall.1 h hs) hr

end Scanner

/-- C10 (as amended): for every root path that does not exist or is not a
directory, in every run of `start()` without `stop()`, the signals emitted so
far are a prefix of `progress(0, path, 0, 0)`, `error(...)`; when the root task
has ended they are exactly these two, so exactly one `error` is emitted; and no
`finished` and no `fileFound` signal is ever emitted. -/
theorem C10_missing_root_progress_then_error (path : String) (fs : Entry)
    (idealThreadCount : Nat) (hfs : fs.dirExists = false) (sched : List Action)
    (hsched : sched.all Action.internal = true) (s : Scanner)
    (hrun : ((Scanner.init path fs idealThreadCount).start).run sched = some s) :
    (s.events = [] ∨ s.events = [Event.progress 0 path 0 0] ∨
      s.events = [Event.progress 0 path 0 0,
        Event.error ("Директория не существует: " ++ path)]) ∧
    (s.pool.all (fun t => t.pc.isDone) = true →
      s.events = [Event.progress 0 path 0 0,
        Event.error ("Директория не существует: " ++ path)]) ∧
    finishedCount s.events = 0 ∧
    (∀ p sz, Event.fileFound p sz ∉ s.events) := by
  have h0 : Scanner.MissingRun path fs ((Scanner.init path fs idealThreadCount).start) := by
    simp [Scanner.MissingRun, Scanner.start, Scanner.init]
  obtain ⟨_, _, _, _, _, _, t, hp, _, _, _, hpc⟩ :=
    Scanner.missingRun_run path fs hfs sched _ s hsched h0 hrun
  rcases hpc with ⟨hpc, hev⟩ | ⟨hpc, hev⟩ | ⟨hpc, hev⟩
  · refine ⟨Or.inl hev, ?_, by simp [hev, finishedCount], by simp [hev]⟩
    intro hd
    rcases hpc with hpc | hpc | hpc <;> simp [hp, hpc, PC.isDone] at hd
  · refine ⟨Or.inr (Or.inl hev), ?_, by simp [hev, finishedCount], by simp [hev]⟩
    intro hd
    rcases hpc with hpc | hpc | hpc <;> simp [hp, hpc, PC.isDone] at hd
  · exact ⟨Or.inr (Or.inr hev), fun _ => hev, by simp [hev, finishedCount], by simp [hev]⟩

/-- Witness of C10 (as amended): the run on a path at which nothing exists. -/
theorem C10_missing_root_progress_then_error_witness :
    ((Scanner.init "/nope" fsMissing 2).start).run (List.replicate 6 (Action.task 0)) =
      some stateMissing ∧
    stateMissing.events =
      [Event.progress 0 "/nope" 0 0, Event.error ("Директория не существует: " ++ "/nope")] :=
  ⟨rfl,
    (C10_missing_root_progress_then_error "/nope" fsMissing 2 rfl
      (List.replicate 6 (Action.task 0)) rfl stateMissing rfl).2.1 (by decide)⟩

/-! ### The session: pointers and counters in one scan -/

theorem forall_pool_set {P : Nat → Task → Prop} {pool : List Task} {i : Nat} {t' : Task}
    (h : ∀ j tj, j ≠ i → pool[j]? = some tj → P j tj) (ht' : P i t') :
    ∀ j tj, (pool.set i t')[j]? = some tj → P j tj := by
  intro j tj hj
  by_cases hij : i = j
  · subst hij
    by_cases hlt : i < pool.length
    · rw [List.getElem?_set_self hlt] at hj
      simp only [Option.some.injEq] at hj
      subst hj; exact ht'
    · rw [List.getElem?_eq_none (by simpa using hlt)] at hj
      simp at hj
  · rw [List.getElem?_set_ne hij] at hj
    exact h j tj (Ne.symm hij) hj

theorem FileItem.isDirectory_of_info {a b : FileItem} (h : a.info = b.info) :
    a.isDirectory = b.isDirectory := by
  cases a; cases b
  simp only [FileItem.info, Prod.mk.injEq] at h
  exact h.2.2.2.2

theorem RefOk.addChildAt {tree : FileItem} {r : ItemRef} (h : RefOk tree r) (q : List Nat)
    (c : FileItem) : RefOk (FileItem.addChildAt q c tree) r := by
  obtain ⟨h0, n, hn, hd⟩ := h
  obtain ⟨n', h1, h2, _⟩ := FileItem.nodeAt_addChildAt c r.path q tree n hn
  exact ⟨h0, n', h1, (FileItem.isDirectory_of_info h2).trans hd⟩

theorem refsOk_goto {items : List FileItem} {rootItem : Option Nat} {pool : List Task}
    {tree : FileItem} (h : RefsOk items rootItem pool tree) (i : Nat) (t : Task) (pc : PC)
    (ht : pool[i]? = some t) (hitem : ∀ item, pc.item? = some item → t.pc.item? = some item) :
    RefsOk items rootItem (pool.set i { t with pc := pc }) tree := by
  obtain ⟨h1, h2, hd, h3⟩ := h
  refine ⟨h1, h2, hd, forall_pool_set (fun j tj _ => h3 j tj) ?_⟩
  exact ⟨(h3 i t ht).1, fun item hi => (h3 i t ht).2 item (hitem item hi)⟩

theorem refsOk_addChild {items : List FileItem} {rootItem : Option Nat} {pool : List Task}
    {tree : FileItem} (h : RefsOk items rootItem pool tree) (q : List Nat) (c : FileItem) :
    RefsOk [FileItem.addChildAt q c tree] rootItem pool (FileItem.addChildAt q c tree) := by
  obtain ⟨_, h2, hd, h3⟩ := h
  refine ⟨rfl, h2, ?_, ?_⟩
  · exact (FileItem.isDirectory_of_info (FileItem.info_addChildAt q c tree)).trans hd
  · intro j tj hj
    exact ⟨(h3 j tj hj).1.addChildAt q c, fun item hi => ((h3 j tj hj).2 item hi).addChildAt q c⟩

theorem refsOk_clear {items : List FileItem} {rootItem : Option Nat} {pool : List Task}
    {tree : FileItem} (h : RefsOk items rootItem pool tree) :
    RefsOk items rootItem (pool.map Scanner.clearTask) tree := by
  obtain ⟨h1, h2, hd, h3⟩ := h
  refine ⟨h1, h2, hd, ?_⟩
  intro j tj hj
  simp only [List.getElem?_map, Option.map_eq_some'] at hj
  obtain ⟨t0, ht0, rfl⟩ := hj
  obtain ⟨r1, r2⟩ := h3 j t0 ht0
  unfold Scanner.clearTask
  split
  · exact ⟨r1, fun item hi => by simp [PC.item?] at hi⟩
  · exact ⟨r1, r2⟩

theorem PC.item?_afterScan (t : Task) : (Scanner.afterScan t).item? = none := by
  unfold Scanner.afterScan; split <;> rfl

theorem PC.item?_handlerNext (o : Option Otf) (t : Task) :
    (match o with
      | some h' => PC.handler h'
      | none => Scanner.afterScan t).item? = none := by
  cases o with
  | none => exact PC.item?_afterScan t
  | some h' => rfl

theorem refsOk_step (s s' : Scanner) (a : Action) (tree : FileItem) (ha : a.notStart = true)
    (h : RefsOk s.items s.m_rootItem s.pool tree) (hstep : s.step a = some s') :
    ∃ tree', RefsOk s'.items s'.m_rootItem s'.pool tree' := by
  cases a with
  | start => simp [Action.notStart] at ha
  | stop =>
    simp only [Scanner.step] at hstep
    split at hstep
    · simp only [Option.some.injEq] at hstep
      subst hstep
      refine ⟨tree, ?_⟩
      unfold Scanner.stop
      split <;> exact h
    · simp at hstep
  | main =>
    simp only [Scanner.step] at hstep
    unfold Scanner.mainStep at hstep
    cases hm : s.mainThread with
    | handler hh back =>
      simp only [hm, Option.some.injEq] at hstep
      subst hstep
      exact ⟨tree, by cases hh <;> simpa [Scanner.otfState, Scanner.emit] using h⟩
    | stopClear =>
      simp only [hm] at hstep
      split at hstep <;> simp only [Option.some.injEq] at hstep <;> subst hstep
      · exact ⟨tree, refsOk_clear h⟩
      · exact ⟨tree, h⟩
    | _ =>
      simp only [hm] at hstep
      repeat' split at hstep
      all_goals first
        | (simp only [Option.some.injEq] at hstep
           subst hstep
           exact ⟨tree, h⟩)
        | simp at hstep
  | task i =>
    simp only [Scanner.step] at hstep
    cases ht : s.pool[i]? with
    | none => simp [ht] at hstep
    | some t =>
      simp only [ht] at hstep
      have hi : i < s.pool.length := (List.getElem?_eq_some_iff.1 ht).1
      obtain ⟨hparent, hitem⟩ := h.2.2.2 i t ht
      have hitems := h.1
      unfold Scanner.taskStep at hstep
      cases hpc : t.pc with
      | handler hh =>
        simp only [hpc, Option.some.injEq] at hstep
        subst hstep
        refine ⟨tree, ?_⟩
        have := refsOk_goto h i t
          (match s.otfNext hh with
           | some h' => PC.handler h'
           | none => Scanner.afterScan t) ht
          (by intro item hi'; simp [PC.item?_handlerNext] at hi')
        cases hh <;> simpa [Scanner.otfState, Scanner.emit, Scanner.goto, Scanner.setTask]
          using this
      | fileAdd e rest =>
        simp only [hpc] at hstep
        split at hstep
        · simp at hstep
        · simp only [Option.some.injEq] at hstep
          subst hstep
          refine ⟨FileItem.addChildAt t.parent.path (Scanner.fileItem t.path e) tree, ?_⟩
          have h2 := refsOk_goto (refsOk_addChild h t.parent.path (Scanner.fileItem t.path e))
            i t (PC.fileCount e rest) ht (by simp [PC.item?])
          simpa [Scanner.goto, Scanner.setTask, Scanner.addChildRef, hitems, hparent.1] using h2
      | dirAdd e rest =>
        simp only [hpc] at hstep
        split at hstep
        · simp at hstep
        · cases hd : s.deref t.parent with
          | none => simp [hd] at hstep
          | some node =>
            simp only [hd, Option.some.injEq] at hstep
            subst hstep
            refine ⟨FileItem.addChildAt t.parent.path (Scanner.dirItem t.path e) tree, ?_⟩
            have hnode : FileItem.nodeAt t.parent.path tree = some node := by
              simpa [Scanner.deref, hitems, hparent.1] using hd
            obtain ⟨g1, g2, g3, g4⟩ :=
              refsOk_addChild h t.parent.path (Scanner.dirItem t.path e)
            have h2 : RefsOk [FileItem.addChildAt t.parent.path (Scanner.dirItem t.path e) tree]
                s.m_rootItem
                (s.pool.set i { t with pc := (PC.dirCancel
                  ⟨t.parent.root, t.parent.path ++ [node.children.length]⟩ e rest) })
                (FileItem.addChildAt t.parent.path (Scanner.dirItem t.path e) tree) := by
              refine ⟨g1, g2, g3, forall_pool_set (fun j tj _ => g4 j tj) ⟨(g4 i t ht).1, ?_⟩⟩
              intro item hitem'
              simp only [PC.item?, Option.some.injEq] at hitem'
              subst hitem'
              exact ⟨hparent.1, _, FileItem.nodeAt_addChildAt_new _ _ tree node hnode, rfl⟩
            simpa [Scanner.goto, Scanner.setTask, Scanner.addChildRef, hitems, hparent.1]
              using h2
      | dirRun item e rest =>
        simp only [hpc, Option.some.injEq] at hstep
        subst hstep
        refine ⟨tree, ?_⟩
        obtain ⟨g1, g2, g3, g4⟩ := h
        refine ⟨g1, g2, g3, ?_⟩
        simp only [Scanner.goto, Scanner.setTask]
        refine forall_pool_set ?_ ⟨hparent, fun item' hi' => by simp [PC.item?] at hi'⟩
        intro j tj _ hj
        by_cases hjl : j < s.pool.length
        · rw [List.getElem?_append_left hjl] at hj
          exact g4 j tj hj
        · rw [List.getElem?_append_right (Nat.le_of_not_lt hjl)] at hj
          cases hd : j - s.pool.length with
          | zero =>
            simp only [hd, List.getElem?_cons_zero, Option.some.injEq] at hj
            subst hj
            exact ⟨hitem item (by simp [hpc, PC.item?]), fun item' hi' => by
              simp [PC.item?] at hi'⟩
          | succ d => simp [hd] at hj
      | rootCancel =>
        simp only [hpc] at hstep
        split at hstep
        · simp only [Option.some.injEq] at hstep
          subst hstep
          exact ⟨tree, by
            simpa [Scanner.goto, Scanner.setTask] using
              refsOk_goto h i t PC.done ht (by simp [PC.item?])⟩
        · obtain ⟨g1, g2, g3, g4⟩ := h
          simp only [g2, Option.some.injEq] at hstep
          subst hstep
          refine ⟨tree, g1, g2, g3, ?_⟩
          simp only [Scanner.setTask]
          exact forall_pool_set (fun j tj _ => g4 j tj) ⟨⟨rfl, tree, rfl, g3⟩, fun item hi' => by
            simp [PC.item?] at hi'⟩
      | _ =>
        simp only [hpc] at hstep
        repeat' split at hstep
        all_goals first
          | (simp only [Option.some.injEq] at hstep
             subst hstep
             refine ⟨tree, ?_⟩
             simp only [Scanner.goto, Scanner.setTask, Scanner.emit]
             refine refsOk_goto h i t _ ht ?_
             intro item hi'
             first
               | (rw [PC.item?_afterScan] at hi'; simp at hi')
               | (simp [PC.item?] at hi'; done)
               | (simp only [PC.item?, Option.some.injEq] at hi'
                  subst hi'
                  simp [hpc, PC.item?]))
          | simp at hstep

theorem PC.inLock_afterScan (t : Task) : (Scanner.afterScan t).inLock = false := by
  unfold Scanner.afterScan; split <;> rfl

theorem PC.inLock_handlerNext (o : Option Otf) (t : Task) :
    (match o with
      | some h' => PC.handler h'
      | none => Scanner.afterScan t).inLock = false := by
  cases o with
  | none => exact PC.inLock_afterScan t
  | some h' => rfl

theorem inFlight_set_ne (pool : List Task) (i j : Nat) (t' : Task) (hij : i ≠ j) :
    Scanner.inFlight (some j) (pool.set i t') = Scanner.inFlight (some j) pool := by
  simp only [Scanner.inFlight]
  rw [List.getElem?_set_ne hij]

theorem countersOk_set {pool : List Task} {mutex : Option Nat} {sf ts : Int}
    {tree : FileItem} (h : CountersOk pool mutex sf ts tree) (i : Nat) (t t' : Task)
    (ht : pool[i]? = some t) (h1 : t.pc.inLock = false) (h2 : t'.pc.inLock = false) :
    CountersOk (pool.set i t') mutex sf ts tree := by
  obtain ⟨hl, hb, hf, hs⟩ := h
  have hne : mutex ≠ some i := by
    intro hm
    have := (hl i t ht).2 hm
    rw [h1] at this
    exact Bool.noConfusion this
  have hfl : Scanner.inFlight mutex (pool.set i t') = Scanner.inFlight mutex pool := by
    cases hm : mutex with
    | none => rfl
    | some j =>
      apply inFlight_set_ne
      intro hij
      exact hne (by rw [hm, hij])
  refine ⟨forall_pool_set (fun j tj _ => hl j tj) ?_, ?_, ?_, ?_⟩
  · simp only [h2]
    constructor
    · intro hc; exact Bool.noConfusion hc
    · intro hm; exact absurd hm hne
  · intro j hj
    simpa using hb j hj
  · rw [hfl]; exact hf
  · rw [hfl]; exact hs

theorem countersOk_clear {pool : List Task} {mutex : Option Nat} {sf ts : Int}
    {tree : FileItem} (h : CountersOk pool mutex sf ts tree) :
    CountersOk (pool.map Scanner.clearTask) mutex sf ts tree := by
  obtain ⟨hl, hb, hf, hs⟩ := h
  have hpc : ∀ t : Task, (Scanner.clearTask t).pc.inLock = t.pc.inLock ∧
      (Scanner.clearTask t).pc.uncounted = t.pc.uncounted ∧
      (Scanner.clearTask t).pc.unsummed = t.pc.unsummed := by
    intro t
    unfold Scanner.clearTask
    split
    · rename_i hq
      simp [hq, PC.inLock, PC.uncounted, PC.unsummed]
    · exact ⟨rfl, rfl, rfl⟩
  have hfl : Scanner.inFlight mutex (pool.map Scanner.clearTask) =
      Scanner.inFlight mutex pool := by
    cases hm : mutex with
    | none => rfl
    | some j =>
      simp only [Scanner.inFlight, List.getElem?_map]
      cases hj : pool[j]? with
      | none => rfl
      | some tj => simp [(hpc tj).2.1, (hpc tj).2.2]
  refine ⟨?_, ?_, ?_, ?_⟩
  · intro j tj hj
    simp only [List.getElem?_map, Option.map_eq_some'] at hj
    obtain ⟨t0, ht0, rfl⟩ := hj
    rw [(hpc t0).1]
    exact hl j t0 ht0
  · intro j hj
    simpa using hb j hj
  · rw [hfl]; exact hf
  · rw [hfl]; exact hs

theorem tree_unique {items : List FileItem} {tree tree' : FileItem} (h1 : items = [tree])
    (h2 : items = [tree']) : tree' = tree := by
  rw [h1] at h2
  simp only [List.cons.injEq, and_true] at h2
  exact h2.symm

theorem countersOk_step (s s' : Scanner) (a : Action) (tree tree' : FileItem)
    (ha : a.notStart = true) (hr : RefsOk s.items s.m_rootItem s.pool tree)
    (hc : CountersOk s.pool s.m_mutex s.m_scannedFiles s.m_totalSize tree)
    (hstep : s.step a = some s') (htree' : s'.items = [tree']) :
    CountersOk s'.pool s'.m_mutex s'.m_scannedFiles s'.m_totalSize tree' := by
  have hitems := hr.1
  cases a with
  | start => simp [Action.notStart] at ha
  | stop =>
    simp only [Scanner.step] at hstep
    split at hstep
    · simp only [Option.some.injEq] at hstep
      subst hstep
      unfold Scanner.stop at htree' ⊢
      split at htree' <;> (split <;> (cases tree_unique hitems htree'; exact hc))
    · simp at hstep
  | main =>
    simp only [Scanner.step] at hstep
    unfold Scanner.mainStep at hstep
    cases hm : s.mainThread with
    | handler hh back =>
      simp only [hm, Option.some.injEq] at hstep
      subst hstep
      cases hh <;> simp only [Scanner.otfState, Scanner.emit] at htree' ⊢ <;>
        (cases tree_unique hitems htree'; exact hc)
    | stopClear =>
      simp only [hm] at hstep
      split at hstep <;> simp only [Option.some.injEq] at hstep <;> subst hstep <;>
        cases tree_unique hitems htree'
      · exact countersOk_clear hc
      · exact hc
    | _ =>
      simp only [hm] at hstep
      repeat' split at hstep
      all_goals first
        | (simp only [Option.some.injEq] at hstep
           subst hstep
           cases tree_unique hitems htree'
           exact hc)
        | simp at hstep
  | task i =>
    simp only [Scanner.step] at hstep
    cases ht : s.pool[i]? with
    | none => simp [ht] at hstep
    | some t =>
      simp only [ht] at hstep
      have hi : i < s.pool.length := (List.getElem?_eq_some_iff.1 ht).1
      obtain ⟨hparent, -⟩ := hr.2.2.2 i t ht
      obtain ⟨hroot, node, hnode, -⟩ := hparent
      unfold Scanner.taskStep at hstep
      cases hpc : t.pc with
      | handler hh =>
        simp only [hpc, Option.some.injEq] at hstep
        subst hstep
        have := countersOk_set hc i t
          { t with pc := (match s.otfNext hh with
             | some h' => PC.handler h'
             | none => Scanner.afterScan t) } ht (by simp [hpc, PC.inLock])
          (PC.inLock_handlerNext _ t)
        cases hh <;>
          simp only [Scanner.otfState, Scanner.emit, Scanner.goto, Scanner.setTask]
            at htree' ⊢ <;>
          (cases tree_unique hitems htree'; exact this)
      | fileAdd e rest =>
        simp only [hpc] at hstep
        split at hstep
        · simp at hstep
        · rename_i hmx
          have hmx' : s.m_mutex = none := by simpa using hmx
          simp only [Option.some.injEq] at hstep
          subst hstep
          simp only [Scanner.goto, Scanner.setTask, Scanner.addChildRef, hitems, hroot,
            List.getElem?_cons_zero, List.set_cons_zero] at htree' ⊢
          simp only [List.cons.injEq, and_true] at htree'
          subst htree'
          obtain ⟨hl, hb, hf, hs⟩ := hc
          rw [hmx'] at hl hf hs
          obtain ⟨e1, e2⟩ := FileItem.fileNodes_addChildAt (Scanner.fileItem t.path e)
            t.parent.path tree node hnode
          refine ⟨forall_pool_set ?_ ?_, ?_, ?_, ?_⟩
          · intro j tj hji hj
            have := hl j tj hj
            constructor
            · intro h1; exact absurd (this.1 h1) (by simp)
            · intro h1; simp only [Option.some.injEq] at h1; exact absurd h1.symm hji
          · simp [PC.inLock]
          · intro j hj
            simp only [Option.some.injEq] at hj
            subst hj
            simpa using hi
          · simp only [Scanner.inFlight, List.getElem?_set_self hi, PC.uncounted]
            simp only [Scanner.inFlight] at hf
            rw [e1]
            simp only [Scanner.fileItem, FileItem.new, FileItem.fileNodes,
              FileItem.fileNodesList]
            push_cast
            rw [hf]
            congr 1
            omega
          · simp only [Scanner.inFlight, List.getElem?_set_self hi, PC.unsummed]
            simp only [Scanner.inFlight] at hs
            rw [e2]
            simp only [Scanner.fileItem, FileItem.new, FileItem.fileBytes,
              FileItem.fileBytesList]
            rw [hs]
            congr 1
            simp
      | fileCount e rest =>
        simp only [hpc, Option.some.injEq] at hstep
        subst hstep
        simp only [Scanner.goto, Scanner.setTask] at htree' ⊢
        cases tree_unique hitems htree'
        obtain ⟨hl, hb, hf, hs⟩ := hc
        have hmx : s.m_mutex = some i := (hl i t ht).1 (by simp [hpc, PC.inLock])
        rw [hmx] at hf hs ⊢
        refine ⟨forall_pool_set (fun j tj _ hj => by simpa [hmx] using hl j tj hj) ?_, ?_, ?_, ?_⟩
        · simp [PC.inLock]
        · intro j hj
          simp only [Option.some.injEq] at hj
          subst hj
          simpa using hi
        · simp only [Scanner.inFlight, List.getElem?_set_self hi, PC.uncounted]
          simp only [Scanner.inFlight, ht, hpc, PC.uncounted] at hf
          rw [hf]
          unfold wrapInt
          omega
        · simp only [Scanner.inFlight, List.getElem?_set_self hi, PC.unsummed]
          simp only [Scanner.inFlight, ht, hpc, PC.unsummed] at hs
          exact hs
      | fileBytes e rest =>
        simp only [hpc, Option.some.injEq] at hstep
        subst hstep
        simp only [Scanner.goto, Scanner.setTask] at htree' ⊢
        cases tree_unique hitems htree'
        obtain ⟨hl, hb, hf, hs⟩ := hc
        have hmx : s.m_mutex = some i := (hl i t ht).1 (by simp [hpc, PC.inLock])
        rw [hmx] at hf hs
        refine ⟨forall_pool_set ?_ ?_, ?_, ?_, ?_⟩
        · intro j tj hji hj
          have := hl j tj hj
          rw [hmx] at this
          constructor
          · intro h1
            have := this.1 h1
            simp only [Option.some.injEq] at this
            exact absurd this.symm hji
          · intro h1; simp at h1
        · simp [PC.inLock]
        · intro j hj; simp at hj
        · simp only [Scanner.inFlight]
          simp only [Scanner.inFlight, ht, hpc, PC.uncounted] at hf
          exact hf
        · simp only [Scanner.inFlight]
          simp only [Scanner.inFlight, ht, hpc, PC.unsummed] at hs
          rw [hs]
          unfold wrap64
          omega
      | dirAdd e rest =>
        simp only [hpc] at hstep
        split at hstep
        · simp at hstep
        · cases hd : s.deref t.parent with
          | none => simp [hd] at hstep
          | some node' =>
            simp only [hd, Option.some.injEq] at hstep
            subst hstep
            simp only [Scanner.goto, Scanner.setTask, Scanner.addChildRef, hitems, hroot,
              List.getElem?_cons_zero, List.set_cons_zero] at htree' ⊢
            simp only [List.cons.injEq, and_true] at htree'
            subst htree'
            obtain ⟨e1, e2⟩ := FileItem.fileNodes_addChildAt (Scanner.dirItem t.path e)
              t.parent.path tree node hnode
            have h2 := countersOk_set hc i t
              { t with pc := (PC.dirCancel ⟨0, t.parent.path ++ [node'.children.length]⟩ e
                rest) } ht
              (by simp [hpc, PC.inLock]) (by simp [PC.inLock])
            obtain ⟨g1, g2, g3, g4⟩ := h2
            refine ⟨g1, g2, ?_, ?_⟩
            · rw [e1, g3]
              simp [Scanner.dirItem, FileItem.new, FileItem.fileNodes, FileItem.fileNodesList]
            · rw [e2, g4]
              simp [Scanner.dirItem, FileItem.new, FileItem.fileBytes, FileItem.fileBytesList]
      | dirRun item e rest =>
        simp only [hpc, Option.some.injEq] at hstep
        subst hstep
        simp only [Scanner.goto, Scanner.setTask] at htree' ⊢
        cases tree_unique hitems htree'
        obtain ⟨hl, hb, hf, hs⟩ := hc
        have hfl : ∀ newT : Task, Scanner.inFlight s.m_mutex (s.pool ++ [newT]) =
            Scanner.inFlight s.m_mutex s.pool := by
          intro newT
          cases hm : s.m_mutex with
          | none => rfl
          | some j =>
            simp only [Scanner.inFlight]
            rw [List.getElem?_append_left (hb j hm)]
        have hc2 : CountersOk (s.pool ++
            [{ isRootTask := false, path := absoluteFilePath t.path e, dir := e, parent := item,
               pc := PC.queued }]) s.m_mutex s.m_scannedFiles s.m_totalSize tree := by
          refine ⟨?_, ?_, ?_, ?_⟩
          · intro j tj hj
            by_cases hjl : j < s.pool.length
            · rw [List.getElem?_append_left hjl] at hj
              exact hl j tj hj
            · rw [List.getElem?_append_right (Nat.le_of_not_lt hjl)] at hj
              cases hd : j - s.pool.length with
              | zero =>
                simp only [hd, List.getElem?_cons_zero, Option.some.injEq] at hj
                subst hj
                simp only [PC.inLock]
                constructor
                · intro h1; exact Bool.noConfusion h1
                · intro h1; exact absurd (hb j h1) hjl
              | succ d => simp [hd] at hj
          · intro j hj
            have := hb j hj
            simp only [List.length_append, List.length_singleton]
            omega
          · rw [hfl]; exact hf
          · rw [hfl]; exact hs
        exact countersOk_set hc2 i t { t with pc := PC.loop rest }
          (by rw [List.getElem?_append_left hi]; exact ht) (by simp [hpc, PC.inLock])
          (by simp [PC.inLock])
      | _ =>
        simp only [hpc] at hstep
        repeat' split at hstep
        all_goals first
          | (simp only [Option.some.injEq] at hstep
             subst hstep
             simp only [Scanner.goto, Scanner.setTask, Scanner.emit] at htree' ⊢
             cases tree_unique hitems htree'
             refine countersOk_set hc i t _ ht (by simp [hpc, PC.inLock]) ?_
             first
               | exact PC.inLock_afterScan t
               | rfl)
          | simp at hstep

theorem internal_notStart {a : Action} (h : a.internal = true) : a.notStart = true := by
  cases a <;> simp_all [Action.internal, Action.notStart]

theorem scanOk_start (path : String) (fs : Entry) (n : Nat) :
    ScanOk ((Scanner.init path fs n).start) (Scanner.init path fs n).rootItem := by
  refine ⟨⟨rfl, rfl, rfl, ?_⟩, ?_, ?_, ?_, ?_⟩
  · intro j tj hj
    cases j with
    | zero =>
      simp only [Scanner.start, Scanner.init, Bool.false_eq_true, if_false, List.nil_append,
        List.getElem?_cons_zero, Option.some.injEq] at hj
      subst hj
      exact ⟨⟨rfl, _, rfl, rfl⟩, fun item hi => by simp [PC.item?] at hi⟩
    | succ j => simp [Scanner.start, Scanner.init] at hj
  · intro j tj hj
    cases j with
    | zero =>
      simp only [Scanner.start, Scanner.init, Bool.false_eq_true, if_false, List.nil_append,
        List.getElem?_cons_zero, Option.some.injEq] at hj
      subst hj
      simp [PC.inLock, Scanner.start, Scanner.init]
    | succ j => simp [Scanner.start, Scanner.init] at hj
  · intro j hj
    simp [Scanner.start, Scanner.init] at hj
  · simp only [Scanner.start, Scanner.init, Scanner.inFlight, Scanner.rootItem, FileItem.new,
      FileItem.fileNodes, FileItem.fileNodesList, Bool.false_eq_true, if_false]
    decide
  · simp only [Scanner.start, Scanner.init, Scanner.inFlight, Scanner.rootItem, FileItem.new,
      FileItem.fileBytes, FileItem.fileBytesList, Bool.false_eq_true, if_false]
    decide

theorem scanOk_run (sched : List Action) :
    ∀ (s s' : Scanner) (tree : FileItem), sched.all Action.notStart = true → ScanOk s tree →
      s.run sched = some s' → ∃ tree', ScanOk s' tree' := by
  induction sched with
  | nil =>
    intro s s' tree _ h hr
    simp only [Scanner.run, Option.some.injEq] at hr
    subst hr
    exact ⟨tree, h⟩
  | cons a as ih =>
    intro s s' tree hall h hr
    simp only [List.all_cons, Bool.and_eq_true] at hall
    simp only [Scanner.run] at hr
    cases hs : s.step a with
    | none => simp [hs] at hr
    | some s1 =>
      simp only [hs] at hr
      obtain ⟨tree1, h1⟩ := refsOk_step s s1 a tree hall.1 h.1 hs
      have h2 := countersOk_step s s1 a tree tree1 hall.1 h.1 h.2 hs h1.1
      exact ih s1 s' tree1 hall.2 ⟨h1, h2⟩ hr

theorem all_notStart_of_internal {sched : List Action}
    (h : sched.all Action.internal = true) : sched.all Action.notStart = true := by
  rw [List.all_eq_true] at h ⊢
  exact fun a ha => internal_notStart (h a ha)

/-- At a point where no task is between appending a file and adding it to the
counters, the counters are the file nodes and the file bytes of the tree,
reduced to the range of `int` and of `qint64`. -/
theorem ScanOk.quiescent {s : Scanner} {tree : FileItem} (h : ScanOk s tree)
    (hq : s.pool.all (fun t => !t.pc.inLock) = true) :
    s.m_scannedFiles = wrapInt (tree.fileNodes : Int) ∧
      s.m_totalSize = wrap64 tree.fileBytes := by
  obtain ⟨-, hl, hb, hf, hs⟩ := h
  have hm : s.m_mutex = none := by
    cases hmx : s.m_mutex with
    | none => rfl
    | some j =>
      have hj := hb j hmx
      have h1 := (hl j s.pool[j] (List.getElem?_eq_getElem hj)).2 hmx
      rw [List.all_eq_true] at hq
      have h2 := hq s.pool[j] (List.getElem_mem hj)
      simp [h1] at h2
  rw [hm] at hf hs
  simp only [Scanner.inFlight, sub_zero] at hf hs
  exact ⟨hf, hs⟩

theorem isDone_not_inLock {pool : List Task} (h : pool.all (fun t => t.pc.isDone) = true) :
    pool.all (fun t => !t.pc.inLock) = true := by
  rw [List.all_eq_true] at h ⊢
  intro t ht
  have := h t ht
  cases hpc : t.pc <;> simp_all [PC.isDone, PC.inLock]

/-- C3: in every run of one `start()` without `stop()`, whatever the
interleaving, once every pool task has ended the session holds one root item
and `m_scannedFiles`, an `int`, is the number of file-type nodes of its tree
reduced to the range of `int`: exactly that number when the tree has fewer than
2^31 file-type nodes. -/
theorem C3_scannedFiles_is_file_node_count (path : String) (fs : Entry)
    (idealThreadCount : Nat) (sched : List Action) (s : Scanner)
    (hsched : sched.all Action.internal = true)
    (hrun : ((Scanner.init path fs idealThreadCount).start).run sched = some s)
    (hdone : s.pool.all (fun t => t.pc.isDone) = true) :
    ∃ tree, s.items = [tree] ∧ s.m_rootItem = some 0 ∧
      s.m_scannedFiles = wrapInt (tree.fileNodes : Int) ∧
      ((tree.fileNodes : Int) < 2 ^ 31 → s.m_scannedFiles = (tree.fileNodes : Int)) := by
  obtain ⟨tree, h⟩ := scanOk_run sched _ s _ (all_notStart_of_internal hsched)
    (scanOk_start path fs idealThreadCount) hrun
  have hq := (h.quiescent (isDone_not_inLock hdone)).1
  refine ⟨tree, h.1.1, h.1.2.1, hq, fun hfit => ?_⟩
  rw [hq]
  exact wrapInt_of_fits (by omega) hfit

/-- Witness of C3: the complete scan of `fsExample` counts its two files. -/
theorem C3_scannedFiles_is_file_node_count_witness :
    ((Scanner.init "/root" fsExample 2).start).run schedExample.tail = some stateExample ∧
    stateExample.pool.all (fun t => t.pc.isDone) = true ∧
    stateExample.m_scannedFiles = 2 ∧
    ∃ tree, stateExample.items = [tree] ∧ stateExample.m_rootItem = some 0 ∧
      stateExample.m_scannedFiles = wrapInt (tree.fileNodes : Int) ∧
      ((tree.fileNodes : Int) < 2 ^ 31 →
        stateExample.m_scannedFiles = (tree.fileNodes : Int)) :=
  ⟨rfl, by decide, by decide,
    C3_scannedFiles_is_file_node_count "/root" fsExample 2 schedExample.tail stateExample
      (by decide) rfl (by decide)⟩

/-! ### The session: the tree follows the listings -/

theorem childItems_append (path : String) (as bs : List Entry) :
    Scanner.childItems path (as ++ bs) =
      Scanner.childItems path as ++ Scanner.childItems path bs := by
  simp [Scanner.childItems, List.filterMap_append]

theorem dispatched_mono {pool pool' : List Task} (path : String) (parent : List Nat)
    (hm : ∀ (j : Nat) (tj : Task), pool[j]? = some tj →
      ∃ tj', pool'[j]? = some tj' ∧ tj'.parent = tj.parent ∧ tj'.dir = tj.dir ∧
        tj'.path = tj.path) :
    ∀ (es : List Entry) (k : Nat), Dispatched pool path parent k es →
      Dispatched pool' path parent k es := by
  intro es
  induction es with
  | nil => intro k _; trivial
  | cons e es ih =>
    intro k h
    refine ⟨fun hd => ?_, ih _ h.2⟩
    obtain ⟨j, tj, h1, h2, h3, h4⟩ := h.1 hd
    obtain ⟨tj', g1, g2, g3, g4⟩ := hm j tj h1
    exact ⟨j, tj', g1, g2.trans h2, g3.trans h3, g4.trans h4⟩

theorem dispatched_append (pool : List Task) (path : String) (parent : List Nat) :
    ∀ (as bs : List Entry) (k : Nat),
      Dispatched pool path parent k (as ++ bs) ↔
        Dispatched pool path parent k as ∧
          Dispatched pool path parent (k + (Scanner.childItems path as).length) bs := by
  intro as
  induction as with
  | nil => intro bs k; simp [Dispatched, Scanner.childItems]
  | cons a as ih =>
    intro bs k
    simp only [List.cons_append, Dispatched, List.append_eq, ih]
    have hl : (Scanner.childItems path (a :: as)).length =
        (Scanner.childItems path [a]).length + (Scanner.childItems path as).length := by
      rw [← List.length_append, ← childItems_append]; rfl
    rw [hl, ← Nat.add_assoc, and_assoc]

theorem taskOk_mono {tree : FileItem} {pool pool' : List Task} {t : Task}
    (h : TaskOk tree pool t)
    (hm : ∀ (j : Nat) (tj : Task), pool[j]? = some tj →
      ∃ tj', pool'[j]? = some tj' ∧ tj'.parent = tj.parent ∧ tj'.dir = tj.dir ∧
        tj'.path = tj.path) :
    TaskOk tree pool' t := by
  obtain ⟨h1, h2, h3, pre, node, g1, g2, g3, g4, g5⟩ := h
  exact ⟨h1, h2, h3, pre, node, g1, g2, g3, g4, dispatched_mono _ _ hm pre 0 g5⟩

theorem map_info_eq_nil {cs : List FileItem} (h : cs.map FileItem.info = [] ) : cs = [] := by
  simpa using h

/-- An `addChild` through another pointer leaves a task in order. -/
theorem taskOk_addChildAt {tree : FileItem} {pool : List Task} {t : Task}
    (h : TaskOk tree pool t) (q : List Nat) (c : FileItem) (hq : t.parent.path ≠ q)
    (hitem : ∀ item, t.pc.item? = some item → item.path ≠ q) :
    TaskOk (FileItem.addChildAt q c tree) pool t := by
  obtain ⟨h1, h2, h3, pre, node, g1, g2, g3, g4, g5⟩ := h
  obtain ⟨node', n1, _, _, n4⟩ := FileItem.nodeAt_addChildAt c t.parent.path q tree node g2
  refine ⟨h1, h2, h3, pre, node', g1, n1, (n4 hq).trans g3, ?_, g5⟩
  intro item hi
  obtain ⟨e1, c0, e2, e3⟩ := g4 item hi
  obtain ⟨c0', m1, _, _, m4⟩ := FileItem.nodeAt_addChildAt c item.path q tree c0 e2
  refine ⟨e1, c0', m1, ?_⟩
  have := m4 (hitem item hi)
  rw [e3] at this
  exact map_info_eq_nil this

theorem nodeAt_append_singleton (p : List Nat) (k : Nat) :
    ∀ (t n : FileItem), FileItem.nodeAt p t = some n →
      FileItem.nodeAt (p ++ [k]) t = n.children[k]? := by
  induction p with
  | nil =>
    intro t n h
    simp only [FileItem.nodeAt, Option.some.injEq] at h
    subst h
    simp only [List.nil_append, FileItem.nodeAt]
    cases t.children[k]? <;> rfl
  | cons a p ih =>
    intro t n h
    simp only [FileItem.nodeAt] at h
    simp only [List.cons_append, FileItem.nodeAt]
    cases ha : t.children[a]? with
    | none => simp [ha] at h
    | some ca =>
      simp only [ha] at h
      exact ih ca n h

theorem nodeAt_past_end (p : List Nat) (t n : FileItem) (h : FileItem.nodeAt p t = some n) :
    FileItem.nodeAt (p ++ [n.children.length]) t = none := by
  rw [nodeAt_append_singleton p _ t n h]
  simp

theorem pool_set_back {pool : List Task} {i : Nat} {t t' : Task} (ht : pool[i]? = some t)
    (hp : t'.parent = t.parent)
    (hitem : ∀ item, t'.pc.item? = some item →
      (t.pc.item? = some item ∨ ∀ (j : Nat) (tj : Task), pool[j]? = some tj → tj.parent ≠ item))
    (a : Nat) (ta : Task) (ha : (pool.set i t')[a]? = some ta) :
    ∃ ta0, pool[a]? = some ta0 ∧ ta.parent = ta0.parent ∧
      ∀ item, ta.pc.item? = some item →
        (ta0.pc.item? = some item ∨
          ∀ (j : Nat) (tj : Task), pool[j]? = some tj → tj.parent ≠ item) := by
  have hi : i < pool.length := (List.getElem?_eq_some_iff.1 ht).1
  by_cases hia : i = a
  · subst hia
    rw [List.getElem?_set_self hi] at ha
    simp only [Option.some.injEq] at ha
    subst ha
    exact ⟨t, ht, hp, hitem⟩
  · rw [List.getElem?_set_ne hia] at ha
    exact ⟨ta, ha, rfl, fun item h => Or.inl h⟩

theorem pool_set_forth {pool : List Task} {i : Nat} {t t' : Task} (ht : pool[i]? = some t)
    (hp : t'.parent = t.parent) (hd : t'.dir = t.dir) (hpath : t'.path = t.path)
    (j : Nat) (tj : Task) (hj : pool[j]? = some tj) :
    ∃ tj', (pool.set i t')[j]? = some tj' ∧ tj'.parent = tj.parent ∧ tj'.dir = tj.dir ∧
      tj'.path = tj.path := by
  have hi : i < pool.length := (List.getElem?_eq_some_iff.1 ht).1
  by_cases hij : i = j
  · subst hij
    rw [ht] at hj
    simp only [Option.some.injEq] at hj
    subst hj
    exact ⟨t', List.getElem?_set_self hi, hp, hd, hpath⟩
  · exact ⟨tj, by rw [List.getElem?_set_ne hij]; exact hj, rfl, rfl, rfl⟩

/-- Replacing one task by a task that holds the same node, with the other tasks
in order for the (possibly new) tree. -/
theorem shapeOk_replace {pool : List Task} {tree tree' : FileItem} (h : ShapeOk pool tree)
    (i : Nat) (t t' : Task) (ht : pool[i]? = some t)
    (hp : t'.parent = t.parent) (hd : t'.dir = t.dir) (hpath : t'.path = t.path)
    (hitem : ∀ item, t'.pc.item? = some item →
      (t.pc.item? = some item ∨ ∀ (j : Nat) (tj : Task), pool[j]? = some tj → tj.parent ≠ item))
    (hothers : ∀ (j : Nat) (tj : Task), j ≠ i → pool[j]? = some tj → TaskOk tree' pool tj)
    (hok : TaskOk tree' pool t') : ShapeOk (pool.set i t') tree' := by
  obtain ⟨_, hU, hF⟩ := h
  have hforth := pool_set_forth ht hp hd hpath
  refine ⟨forall_pool_set ?_ (taskOk_mono hok hforth), ?_, ?_⟩
  · intro j tj hji hj
    exact taskOk_mono (hothers j tj hji hj) hforth
  · intro a b ta tb ha hb hab
    obtain ⟨ta0, a1, a2, _⟩ := pool_set_back ht hp hitem a ta ha
    obtain ⟨tb0, b1, b2, _⟩ := pool_set_back ht hp hitem b tb hb
    exact hU a b ta0 tb0 a1 b1 (by rw [← a2, ← b2]; exact hab)
  · intro a b ta tb item ha hai hb
    obtain ⟨ta0, a1, _, a3⟩ := pool_set_back ht hp hitem a ta ha
    obtain ⟨tb0, b1, b2, _⟩ := pool_set_back ht hp hitem b tb hb
    rw [b2]
    rcases a3 item hai with h1 | h1
    · exact hF a b ta0 tb0 item a1 h1 b1
    · exact h1 b tb0 b1

/-- A step of task `i` that changes its program point only. -/
theorem shapeOk_goto {pool : List Task} {tree : FileItem} (h : ShapeOk pool tree)
    (i : Nat) (t : Task) (pc : PC) (ht : pool[i]? = some t)
    (hitem : ∀ item, pc.item? = some item → t.pc.item? = some item)
    (hok : TaskOk tree pool { t with pc := pc }) :
    ShapeOk (pool.set i { t with pc := pc }) tree :=
  shapeOk_replace h i t { t with pc := pc } ht rfl rfl rfl
    (fun item hi => Or.inl (hitem item hi)) (fun j tj _ hj => h.1 j tj hj) hok

/-- A step of task `i` that appends the child `c` to its node. -/
theorem shapeOk_addChild {pool : List Task} {tree : FileItem} (h : ShapeOk pool tree)
    (i : Nat) (t : Task) (pc : PC) (c : FileItem) (ht : pool[i]? = some t)
    (hitem : ∀ item, pc.item? = some item →
      ∀ (j : Nat) (tj : Task), pool[j]? = some tj → tj.parent ≠ item)
    (hok : TaskOk (FileItem.addChildAt t.parent.path c tree) pool { t with pc := pc }) :
    ShapeOk (pool.set i { t with pc := pc }) (FileItem.addChildAt t.parent.path c tree) := by
  refine shapeOk_replace h i t { t with pc := pc } ht rfl rfl rfl
    (fun item hi => Or.inr (hitem item hi)) ?_ hok
  intro j tj hji hj
  have htj := h.1 j tj hj
  have hti := h.1 i t ht
  refine taskOk_addChildAt htj _ c ?_ ?_
  · intro hpq
    apply hji
    apply h.2.1 j i tj t hj ht
    cases hp1 : tj.parent with
    | mk r1 p1 =>
      cases hp2 : t.parent with
      | mk r2 p2 =>
        have e1 := htj.2.2.1
        have e2 := hti.2.2.1
        rw [hp1] at e1 hpq
        rw [hp2] at e2 hpq
        simp only at e1 e2 hpq
        rw [e1, e2, hpq]
  · intro item hi hpq
    obtain ⟨_, _, _, pre, node, _, _, _, g4, _⟩ := htj
    obtain ⟨e1, _⟩ := g4 item hi
    apply h.2.2 j i tj t item hj hi ht
    cases hp2 : t.parent with
    | mk r2 p2 =>
      have e2 := hti.2.2.1
      rw [hp2] at e2 hpq
      simp only at e2 hpq
      rw [e1, e2, ← hpq, e1]

/-- A step that leaves the entry in hand and the entries to do as they are. -/
theorem taskOk_same {tree : FileItem} {pool : List Task} {t : Task} (h : TaskOk tree pool t)
    (pc : PC) (hcur : pc.cur = t.pc.cur) (htodo : pc.todo t.listing = t.pc.todo t.listing)
    (hitem : ∀ item, pc.item? = some item → t.pc.item? = some item)
    (hk : pc.kindOk t.isRootTask) :
    TaskOk tree pool { t with pc := pc } := by
  obtain ⟨_, h2, h3, pre, node, g1, g2, g3, g4, g5⟩ := h
  refine ⟨hk, h2, h3, pre, node, ?_, g2, ?_, ?_, g5⟩
  · show t.listing = pre ++ (pc.cur ++ pc.todo t.listing)
    rw [hcur, htodo]; exact g1
  · show node.children.map FileItem.info =
      (Scanner.childItems t.path (pre ++ pc.cur)).map FileItem.info
    rw [hcur]; exact g3
  · intro item hi
    exact g4 item (hitem item hi)

/-- A step that is done with the entry `e`: either its item was appended
before, or no item is made for it; `e` is not a directory to dispatch. -/
theorem taskOk_advance {tree : FileItem} {pool : List Task} {t : Task}
    (h : TaskOk tree pool t) (pc : PC) (e : Entry) (rest : List Entry)
    (hsplit : t.pc.cur ++ t.pc.todo t.listing = e :: rest) (hcur : pc.cur = [])
    (htodo : pc.todo t.listing = rest) (hitem : pc.item? = none)
    (hk : pc.kindOk t.isRootTask)
    (hch : Scanner.childItems t.path t.pc.cur = Scanner.childItems t.path [e])
    (hnd : (e.isDir && !e.isSymLink) = false) :
    TaskOk tree pool { t with pc := pc } := by
  obtain ⟨_, h2, h3, pre, node, g1, g2, g3, g4, g5⟩ := h
  refine ⟨hk, h2, h3, pre ++ [e], node, ?_, g2, ?_, ?_, ?_⟩
  · show t.listing = pre ++ [e] ++ (pc.cur ++ pc.todo t.listing)
    rw [hcur, htodo, g1, hsplit]; simp
  · show node.children.map FileItem.info =
      (Scanner.childItems t.path (pre ++ [e] ++ pc.cur)).map FileItem.info
    rw [hcur, g3, List.append_nil, childItems_append, childItems_append, hch]
  · intro item hi
    rw [hitem] at hi
    exact Option.noConfusion hi
  · show Dispatched pool t.path t.parent.path 0 (pre ++ [e])
    rw [dispatched_append]
    refine ⟨g5, ?_, trivial⟩
    intro hc
    rw [hnd] at hc
    exact Bool.noConfusion hc

theorem info_length {as bs : List FileItem} (h : as.map FileItem.info = bs.map FileItem.info) :
    as.length = bs.length := by
  have := congrArg List.length h
  simpa using this

/-- The step `parent->addChild(fileItem)`. -/
theorem taskOk_fileAdd {tree : FileItem} {pool : List Task} {t : Task}
    (h : TaskOk tree pool t) (e : Entry) (rest : List Entry) (hpc : t.pc = PC.fileAdd e rest) :
    TaskOk (FileItem.addChildAt t.parent.path (Scanner.fileItem t.path e) tree) pool
      { t with pc := PC.fileCount e rest } := by
  obtain ⟨h1, h2, h3, pre, node, g1, g2, g3, _, g5⟩ := h
  rw [hpc] at h1 g1 g3
  simp only [PC.kindOk] at h1
  simp only [PC.cur, PC.todo, List.nil_append, List.append_nil] at g1 g3
  obtain ⟨node', n1, _, n3, _⟩ :=
    FileItem.nodeAt_addChildAt (Scanner.fileItem t.path e) t.parent.path t.parent.path tree
      node g2
  refine ⟨h1, h2, h3, pre, node', ?_, n1, ?_, ?_, g5⟩
  · simpa [PC.cur, PC.todo] using g1
  · show node'.children.map FileItem.info =
      (Scanner.childItems t.path (pre ++ [e])).map FileItem.info
    rw [n3 rfl, childItems_append, List.map_append, List.map_append, g3]
    simp [Scanner.childItems, Scanner.childItem, h1]
  · intro item hi
    simp [PC.item?] at hi

/-- The step `parent->addChild(dirItem)`. -/
theorem taskOk_dirAdd {tree : FileItem} {pool : List Task} {t : Task}
    (h : TaskOk tree pool t) (e : Entry) (rest : List Entry) (hpc : t.pc = PC.dirAdd e rest)
    (node0 : FileItem) (hnode0 : FileItem.nodeAt t.parent.path tree = some node0) :
    TaskOk (FileItem.addChildAt t.parent.path (Scanner.dirItem t.path e) tree) pool
      { t with pc := (PC.dirCancel ⟨t.parent.root, t.parent.path ++ [node0.children.length]⟩ e
          rest) } := by
  obtain ⟨h1, h2, h3, pre, node, g1, g2, g3, _, g5⟩ := h
  rw [hpc] at h1 g1 g3
  simp only [PC.kindOk] at h1
  simp only [PC.cur, PC.todo, List.nil_append, List.append_nil] at g1 g3
  rw [hnode0] at g2
  simp only [Option.some.injEq] at g2
  subst g2
  obtain ⟨node', n1, _, n3, _⟩ :=
    FileItem.nodeAt_addChildAt (Scanner.dirItem t.path e) t.parent.path t.parent.path tree
      node0 hnode0
  refine ⟨h1, h2, h3, pre, node', ?_, n1, ?_, ?_, g5⟩
  · simpa [PC.cur, PC.todo] using g1
  · show node'.children.map FileItem.info =
      (Scanner.childItems t.path (pre ++ [e])).map FileItem.info
    rw [n3 rfl, childItems_append, List.map_append, List.map_append, g3]
    simp [Scanner.childItems, Scanner.childItem, h1.1, h1.2]
  · intro item hi
    simp only [PC.item?, Option.some.injEq] at hi
    subst hi
    refine ⟨?_, Scanner.dirItem t.path e, ?_, rfl⟩
    · rw [h3, info_length g3]
    · exact FileItem.nodeAt_addChildAt_new _ _ tree node0 hnode0

theorem dispatch_back {pool : List Task} {i : Nat} {t' new : Task} (hi : i < pool.length)
    (a : Nat) (ta : Task) (ha : ((pool ++ [new]).set i t')[a]? = some ta) :
    (a = i ∧ ta = t') ∨ (a ≠ i ∧ pool[a]? = some ta) ∨ (a = pool.length ∧ ta = new) := by
  by_cases hia : i = a
  · subst hia
    rw [List.getElem?_set_self (by simp; omega)] at ha
    simp only [Option.some.injEq] at ha
    exact Or.inl ⟨rfl, ha.symm⟩
  · rw [List.getElem?_set_ne hia] at ha
    by_cases hal : a < pool.length
    · rw [List.getElem?_append_left hal] at ha
      exact Or.inr (Or.inl ⟨Ne.symm hia, ha⟩)
    · rw [List.getElem?_append_right (Nat.le_of_not_lt hal)] at ha
      cases hd : a - pool.length with
      | zero =>
        simp only [hd, List.getElem?_cons_zero, Option.some.injEq] at ha
        exact Or.inr (Or.inr ⟨by omega, ha.symm⟩)
      | succ d => simp [hd] at ha

theorem dispatch_forth {pool : List Task} {i : Nat} {t t' new : Task}
    (ht : pool[i]? = some t) (hp : t'.parent = t.parent) (hd : t'.dir = t.dir)
    (hpath : t'.path = t.path) (j : Nat) (tj : Task) (hj : pool[j]? = some tj) :
    ∃ tj', ((pool ++ [new]).set i t')[j]? = some tj' ∧ tj'.parent = tj.parent ∧
      tj'.dir = tj.dir ∧ tj'.path = tj.path := by
  have hi : i < pool.length := (List.getElem?_eq_some_iff.1 ht).1
  have hjl : j < pool.length := (List.getElem?_eq_some_iff.1 hj).1
  by_cases hij : i = j
  · subst hij
    rw [ht] at hj
    simp only [Option.some.injEq] at hj
    subst hj
    exact ⟨t', List.getElem?_set_self (by simp; omega), hp, hd, hpath⟩
  · refine ⟨tj, ?_, rfl, rfl, rfl⟩
    rw [List.getElem?_set_ne hij, List.getElem?_append_left hjl]
    exact hj

/-- The step `QtConcurrent::run`: the new task takes the pointer in hand. -/
theorem shapeOk_dispatch {pool : List Task} {tree : FileItem} (h : ShapeOk pool tree)
    (i : Nat) (t : Task) (item : ItemRef) (e : Entry) (rest : List Entry)
    (ht : pool[i]? = some t) (hpc : t.pc = PC.dirRun item e rest) (t' new : Task)
    (ht' : t' = { t with pc := PC.loop rest })
    (hnew : new = { isRootTask := false, path := absoluteFilePath t.path e, dir := e,
                    parent := item, pc := PC.queued }) :
    ShapeOk ((pool ++ [new]).set i t') tree := by
  have htp : t'.parent = t.parent := by rw [ht']
  have htd : t'.dir = t.dir := by rw [ht']
  have hta : t'.path = t.path := by rw [ht']
  have htr : t'.isRootTask = t.isRootTask := by rw [ht']
  have htc : t'.pc = PC.loop rest := by rw [ht']
  have hnp : new.parent = item := by rw [hnew]
  have hnd : new.dir = e := by rw [hnew]
  have hna : new.path = absoluteFilePath t.path e := by rw [hnew]
  have hnr : new.isRootTask = false := by rw [hnew]
  have hnc : new.pc = PC.queued := by rw [hnew]
  clear ht' hnew
  have hi : i < pool.length := (List.getElem?_eq_some_iff.1 ht).1
  obtain ⟨hE, hU, hF⟩ := h
  obtain ⟨h1, h2, h3, pre, node, g1, g2, g3, g4, g5⟩ := hE i t ht
  rw [hpc] at h1 g1 g3 g4
  simp only [PC.kindOk] at h1
  simp only [PC.cur, PC.todo] at g1 g3
  obtain ⟨e1, c, e2, e3⟩ := g4 item rfl
  have hforth := @dispatch_forth pool i t t' new ht htp htd hta
  have hnewAt : ((pool ++ [new]).set i t')[pool.length]? = some new := by
    rw [List.getElem?_set_ne (Nat.ne_of_lt hi)]
    simp
  have hlt : t'.listing = t.listing := by simp only [Task.listing, htd]
  have hokT : TaskOk tree ((pool ++ [new]).set i t') t' := by
    refine ⟨by rw [htc]; trivial, by rw [htr, htp]; exact h2, by rw [htp]; exact h3,
      pre ++ [e], node, ?_, by rw [htp]; exact g2, ?_, ?_, ?_⟩
    · rw [hlt, htc, g1]; simp [PC.cur, PC.todo]
    · rw [htc, hta]
      simp only [PC.cur, List.append_nil]
      exact g3
    · intro item' hi'
      rw [htc] at hi'
      simp [PC.item?] at hi'
    · rw [hta, htp, dispatched_append]
      refine ⟨dispatched_mono _ _ hforth pre 0 g5, ?_, trivial⟩
      intro _
      refine ⟨pool.length, new, hnewAt, ?_, hnd, hna⟩
      rw [hnp]
      simp only [Nat.zero_add]
      exact e1
  have hokNew : TaskOk tree ((pool ++ [new]).set i t') new := by
    refine ⟨by rw [hnc]; trivial, fun hc => by rw [hnr] at hc; exact Bool.noConfusion hc,
      by rw [hnp, e1], [], c, ?_, by rw [hnp]; exact e2, ?_, ?_, trivial⟩
    · rw [hnc]; simp [PC.cur, PC.todo]
    · rw [e3, hnc]; simp [PC.cur, Scanner.childItems]
    · intro item' hi'
      rw [hnc] at hi'
      simp [PC.item?] at hi'
  have hni : new.pc.item? = none := by rw [hnc]; rfl
  have hti : t'.pc.item? = none := by rw [htc]; rfl
  refine ⟨?_, ?_, ?_⟩
  · intro a ta ha
    rcases dispatch_back hi a ta ha with ⟨_, rfl⟩ | ⟨_, ha0⟩ | ⟨_, rfl⟩
    · exact hokT
    · exact taskOk_mono (hE a ta ha0) hforth
    · exact hokNew
  · intro a b ta tb ha hb hab
    rcases dispatch_back hi a ta ha with ⟨a1, rfl⟩ | ⟨a1, ha0⟩ | ⟨a1, rfl⟩ <;>
      rcases dispatch_back hi b tb hb with ⟨b1, rfl⟩ | ⟨b1, hb0⟩ | ⟨b1, rfl⟩
    · rw [a1, b1]
    · rw [htp] at hab
      exact hU a b t tb (by rw [a1]; exact ht) hb0 hab
    · rw [htp, hnp] at hab
      exact absurd hab (hF i i t t item ht (by rw [hpc]; rfl) ht)
    · rw [htp] at hab
      exact hU a b ta t ha0 (by rw [b1]; exact ht) hab
    · exact hU a b ta tb ha0 hb0 hab
    · rw [hnp] at hab
      exact absurd hab (hF i a t ta item ht (by rw [hpc]; rfl) ha0)
    · rw [htp, hnp] at hab
      exact absurd hab.symm (hF i i t t item ht (by rw [hpc]; rfl) ht)
    · rw [hnp] at hab
      exact absurd hab.symm (hF i b t tb item ht (by rw [hpc]; rfl) hb0)
    · rw [a1, b1]
  · intro a b ta tb item' ha hai hb
    rcases dispatch_back hi a ta ha with ⟨a1, rfl⟩ | ⟨a1, ha0⟩ | ⟨a1, rfl⟩
    · rw [hti] at hai
      exact Option.noConfusion hai
    · rcases dispatch_back hi b tb hb with ⟨b1, rfl⟩ | ⟨b1, hb0⟩ | ⟨b1, rfl⟩
      · rw [htp]
        exact hF a i ta t item' ha0 hai ht
      · exact hF a b ta tb item' ha0 hai hb0
      · rw [hnp]
        intro heq
        apply a1
        apply hU a i ta t ha0 ht
        obtain ⟨_, _, r3, prea, nodea, _, _, _, f4, _⟩ := hE a ta ha0
        obtain ⟨f1, _⟩ := f4 item' hai
        rw [← heq, e1] at f1
        simp only [ItemRef.mk.injEq, true_and] at f1
        have hpp := (List.append_inj' f1 rfl).1
        cases hpa : ta.parent with
        | mk ra pa =>
          cases hpt : t.parent with
          | mk rt pt =>
            rw [hpa] at r3 hpp
            rw [hpt] at h3 hpp
            simp only at r3 h3 hpp
            rw [r3, h3, hpp]
    · rw [hni] at hai
      exact Option.noConfusion hai

theorem isFile_not_dir {e : Entry} (h : e.isFile = true) : (e.isDir && !e.isSymLink) = false := by
  cases e <;> simp_all [Entry.isFile, Entry.isDir]

theorem PC.cur_afterScan (t : Task) : (Scanner.afterScan t).cur = [] := by
  unfold Scanner.afterScan; split <;> rfl

theorem PC.todo_afterScan (l : List Entry) (t : Task) : (Scanner.afterScan t).todo l = [] := by
  unfold Scanner.afterScan; split <;> rfl

theorem PC.kindOk_afterScan (b : Bool) (t : Task) : (Scanner.afterScan t).kindOk b := by
  unfold Scanner.afterScan; split <;> trivial

theorem PC.cur_handlerNext (o : Option Otf) (t : Task) :
    (match o with
      | some h' => PC.handler h'
      | none => Scanner.afterScan t).cur = [] := by
  cases o with
  | none => exact PC.cur_afterScan t
  | some h' => rfl

theorem PC.todo_handlerNext (l : List Entry) (o : Option Otf) (t : Task) :
    (match o with
      | some h' => PC.handler h'
      | none => Scanner.afterScan t).todo l = [] := by
  cases o with
  | none => exact PC.todo_afterScan l t
  | some h' => rfl

theorem PC.kindOk_handlerNext (b : Bool) (o : Option Otf) (t : Task) :
    (match o with
      | some h' => PC.handler h'
      | none => Scanner.afterScan t).kindOk b := by
  cases o with
  | none => exact PC.kindOk_afterScan b t
  | some h' => trivial

theorem shapeOk_clear {pool : List Task} {tree : FileItem} (h : ShapeOk pool tree) :
    ShapeOk (pool.map Scanner.clearTask) tree := by
  obtain ⟨hE, hU, hF⟩ := h
  have hkey : ∀ t : Task, (Scanner.clearTask t).parent = t.parent ∧
      (Scanner.clearTask t).dir = t.dir ∧ (Scanner.clearTask t).path = t.path ∧
      (Scanner.clearTask t).pc.item? = t.pc.item? := by
    intro t
    unfold Scanner.clearTask
    split
    · rename_i hq
      exact ⟨rfl, rfl, rfl, by rw [hq]; rfl⟩
    · exact ⟨rfl, rfl, rfl, rfl⟩
  have hforth : ∀ (j : Nat) (tj : Task), pool[j]? = some tj →
      ∃ tj', (pool.map Scanner.clearTask)[j]? = some tj' ∧ tj'.parent = tj.parent ∧
        tj'.dir = tj.dir ∧ tj'.path = tj.path := by
    intro j tj hj
    exact ⟨Scanner.clearTask tj, by simp [hj], (hkey tj).1, (hkey tj).2.1, (hkey tj).2.2.1⟩
  refine ⟨?_, ?_, ?_⟩
  · intro j tj hj
    simp only [List.getElem?_map, Option.map_eq_some'] at hj
    obtain ⟨t0, ht0, rfl⟩ := hj
    refine taskOk_mono ?_ hforth
    have h0 := hE j t0 ht0
    unfold Scanner.clearTask
    split
    · rename_i hq
      refine taskOk_same h0 PC.cleared (by rw [hq]; rfl) (by rw [hq]; rfl) ?_ trivial
      intro item hi
      simp [PC.item?] at hi
    · exact h0
  · intro a b ta tb ha hb hab
    simp only [List.getElem?_map, Option.map_eq_some'] at ha hb
    obtain ⟨ta0, ha0, rfl⟩ := ha
    obtain ⟨tb0, hb0, rfl⟩ := hb
    rw [(hkey ta0).1, (hkey tb0).1] at hab
    exact hU a b ta0 tb0 ha0 hb0 hab
  · intro a b ta tb item ha hai hb
    simp only [List.getElem?_map, Option.map_eq_some'] at ha hb
    obtain ⟨ta0, ha0, rfl⟩ := ha
    obtain ⟨tb0, hb0, rfl⟩ := hb
    rw [(hkey ta0).2.2.2] at hai
    rw [(hkey tb0).1]
    exact hF a b ta0 tb0 item ha0 hai hb0

theorem shapeOk_step (s s' : Scanner) (a : Action) (tree tree' : FileItem)
    (ha : a.internal = true) (hr : RefsOk s.items s.m_rootItem s.pool tree)
    (hc : s.m_cancelRequested = false) (h : ShapeOk s.pool tree)
    (hstep : s.step a = some s') (htree' : s'.items = [tree']) :
    ShapeOk s'.pool tree' ∧ s'.m_cancelRequested = false := by
  have hitems := hr.1
  cases a with
  | start => simp [Action.internal] at ha
  | stop => simp [Action.internal] at ha
  | main =>
    simp only [Scanner.step] at hstep
    unfold Scanner.mainStep at hstep
    cases hm : s.mainThread with
    | handler hh back =>
      simp only [hm, Option.some.injEq] at hstep
      subst hstep
      cases hh <;> simp only [Scanner.otfState, Scanner.emit] at htree' ⊢ <;>
        (cases tree_unique hitems htree'; exact ⟨h, hc⟩)
    | stopClear =>
      simp only [hm] at hstep
      split at hstep <;> simp only [Option.some.injEq] at hstep <;> subst hstep <;>
        cases tree_unique hitems htree'
      · exact ⟨shapeOk_clear h, hc⟩
      · exact ⟨h, hc⟩
    | _ =>
      simp only [hm] at hstep
      repeat' split at hstep
      all_goals first
        | (simp only [Option.some.injEq] at hstep
           subst hstep
           cases tree_unique hitems htree'
           exact ⟨h, hc⟩)
        | simp at hstep
  | task i =>
    simp only [Scanner.step] at hstep
    cases ht : s.pool[i]? with
    | none => simp [ht] at hstep
    | some t =>
      simp only [ht] at hstep
      have hi : i < s.pool.length := (List.getElem?_eq_some_iff.1 ht).1
      have hok := h.1 i t ht
      have hk := hok.1
      have hroot := hok.2.2.1
      unfold Scanner.taskStep at hstep
      cases hpc : t.pc with
      | handler hh =>
        simp only [hpc, Option.some.injEq] at hstep
        subst hstep
        have := shapeOk_goto h i t
          (match s.otfNext hh with
           | some h' => PC.handler h'
           | none => Scanner.afterScan t) ht
          (by intro item hi'; simp [PC.item?_handlerNext] at hi')
          (taskOk_same hok _
            (by rw [hpc, PC.cur_handlerNext]; rfl)
            (by rw [hpc, PC.todo_handlerNext]; rfl)
            (by intro item hi'; simp [PC.item?_handlerNext] at hi')
            (PC.kindOk_handlerNext _ _ t))
        cases hh <;>
          simp only [Scanner.otfState, Scanner.emit, Scanner.goto, Scanner.setTask]
            at htree' ⊢ <;>
          (cases tree_unique hitems htree'; exact ⟨this, hc⟩)
      | fileAdd e rest =>
        simp only [hpc] at hstep
        split at hstep
        · simp at hstep
        · simp only [Option.some.injEq] at hstep
          subst hstep
          simp only [Scanner.goto, Scanner.setTask, Scanner.addChildRef, hitems, hroot,
            List.getElem?_cons_zero, List.set_cons_zero] at htree' ⊢
          simp only [List.cons.injEq, and_true] at htree'
          subst htree'
          refine ⟨shapeOk_addChild h i t _ _ ht ?_ (taskOk_fileAdd hok e rest hpc), hc⟩
          intro item hi'
          simp [PC.item?] at hi'
      | dirAdd e rest =>
        simp only [hpc] at hstep
        split at hstep
        · simp at hstep
        · cases hd : s.deref t.parent with
          | none => simp [hd] at hstep
          | some node0 =>
            simp only [hd, Option.some.injEq] at hstep
            subst hstep
            have hnode0 : FileItem.nodeAt t.parent.path tree = some node0 := by
              simpa [Scanner.deref, hitems, hroot] using hd
            simp only [Scanner.goto, Scanner.setTask, Scanner.addChildRef, hitems, hroot,
              List.getElem?_cons_zero, List.set_cons_zero] at htree' ⊢
            simp only [List.cons.injEq, and_true] at htree'
            subst htree'
            have h2 := taskOk_dirAdd hok e rest hpc node0 hnode0
            rw [hroot] at h2
            refine ⟨shapeOk_addChild h i t _ _ ht ?_ h2, hc⟩
            intro item hi' j tj hj heq
            simp only [PC.item?, Option.some.injEq] at hi'
            subst hi'
            obtain ⟨_, _, _, _, nodej, _, gj, _⟩ := h.1 j tj hj
            rw [heq] at gj
            simp only at gj
            rw [nodeAt_past_end _ tree node0 hnode0] at gj
            exact Option.noConfusion gj
      | dirRun item e rest =>
        simp only [hpc, Option.some.injEq] at hstep
        subst hstep
        simp only [Scanner.goto, Scanner.setTask] at htree' ⊢
        cases tree_unique hitems htree'
        exact ⟨shapeOk_dispatch h i t item e rest ht hpc _ _ rfl rfl, hc⟩
      | fileProgress pct e rest =>
        simp only [hpc, Option.some.injEq] at hstep
        subst hstep
        simp only [Scanner.goto, Scanner.setTask, Scanner.emit] at htree' ⊢
        cases tree_unique hitems htree'
        rw [hpc] at hk
        refine ⟨shapeOk_goto h i t _ ht (by intro item hi'; simp [PC.item?] at hi')
          (taskOk_advance hok _ e rest (by rw [hpc]; rfl) rfl rfl rfl trivial
            (by rw [hpc]; rfl) (isFile_not_dir hk)), hc⟩
      | loop entries =>
        simp only [hpc] at hstep
        cases entries with
        | nil =>
          simp only [Option.some.injEq] at hstep
          subst hstep
          simp only [Scanner.goto, Scanner.setTask] at htree' ⊢
          cases tree_unique hitems htree'
          exact ⟨shapeOk_goto h i t _ ht (by intro item hi'; simp [PC.item?] at hi')
            (taskOk_same hok _ (by rw [hpc]; rfl) (by rw [hpc]; rfl)
              (by intro item hi'; simp [PC.item?] at hi') trivial), hc⟩
        | cons e rest =>
          simp only [hc, Bool.false_eq_true, if_false] at hstep
          by_cases hf : e.isFile = true
          · simp only [hf, if_true, Option.some.injEq] at hstep
            subst hstep
            simp only [Scanner.goto, Scanner.setTask] at htree' ⊢
            cases tree_unique hitems htree'
            exact ⟨shapeOk_goto h i t _ ht (by intro item hi'; simp [PC.item?] at hi')
              (taskOk_same hok _ (by rw [hpc]; rfl) (by rw [hpc]; rfl)
                (by intro item hi'; simp [PC.item?] at hi') hf), hc⟩
          · by_cases hdir : (e.isDir && !e.isSymLink) = true
            · simp only [hf, if_false, hdir, if_true, Bool.false_eq_true,
                Option.some.injEq] at hstep
              subst hstep
              simp only [Scanner.goto, Scanner.setTask] at htree' ⊢
              cases tree_unique hitems htree'
              exact ⟨shapeOk_goto h i t _ ht (by intro item hi'; simp [PC.item?] at hi')
                (taskOk_same hok _ (by rw [hpc]; rfl) (by rw [hpc]; rfl)
                  (by intro item hi'; simp [PC.item?] at hi')
                  ⟨by simpa using hf, hdir⟩), hc⟩
            · simp only [hf, if_false, hdir, Bool.false_eq_true, Option.some.injEq] at hstep
              subst hstep
              simp only [Scanner.goto, Scanner.setTask] at htree' ⊢
              cases tree_unique hitems htree'
              exact ⟨shapeOk_goto h i t _ ht (by intro item hi'; simp [PC.item?] at hi')
                (taskOk_advance hok _ e rest (by rw [hpc]; rfl) rfl rfl rfl trivial
                  (by rw [hpc]; simp [PC.cur, Scanner.childItems, Scanner.childItem, hf, hdir])
                  (by simpa using hdir)), hc⟩
      | scanExists =>
        simp only [hpc] at hstep
        by_cases hex : t.dir.dirExists = true
        · simp only [hex, Bool.not_true, Bool.false_eq_true, if_false,
            Option.some.injEq] at hstep
          subst hstep
          simp only [Scanner.goto, Scanner.setTask] at htree' ⊢
          cases tree_unique hitems htree'
          exact ⟨shapeOk_goto h i t _ ht (by intro item hi'; simp [PC.item?] at hi')
            (taskOk_same hok _ (by rw [hpc]; rfl)
              (by rw [hpc]; simp [PC.todo, Task.listing, hex])
              (by intro item hi'; simp [PC.item?] at hi') trivial), hc⟩
        · have hex' : t.dir.dirExists = false := by simpa using hex
          simp only [hex', Bool.not_false, if_true, Option.some.injEq] at hstep
          subst hstep
          simp only [Scanner.goto, Scanner.setTask, Scanner.emit] at htree' ⊢
          cases tree_unique hitems htree'
          exact ⟨shapeOk_goto h i t _ ht
            (by intro item hi'; rw [PC.item?_afterScan] at hi'; simp at hi')
            (taskOk_same hok _ (by rw [hpc, PC.cur_afterScan]; rfl)
              (by rw [hpc, PC.todo_afterScan]; simp [PC.todo, Task.listing, hex'])
              (by intro item hi'; rw [PC.item?_afterScan] at hi'; simp at hi')
              (PC.kindOk_afterScan _ t)), hc⟩
      | rootCancel =>
        simp only [hpc, hc, Bool.false_eq_true, if_false] at hstep
        rw [hr.2.1] at hstep
        simp only [Option.some.injEq] at hstep
        subst hstep
        simp only [Scanner.setTask] at htree' ⊢
        cases tree_unique hitems htree'
        rw [hpc] at hk
        have hp0 := hok.2.1 hk
        have hsame := taskOk_same hok PC.scanCancel (by rw [hpc]; rfl) (by rw [hpc]; rfl)
          (by intro item hi'; simp [PC.item?] at hi') trivial
        refine ⟨shapeOk_replace h i t _ ht hp0.symm rfl rfl
          (by intro item hi'; simp [PC.item?] at hi') (fun j tj _ hj => h.1 j tj hj) ?_, hc⟩
        have e0 : ({ t with parent := (⟨0, []⟩ : ItemRef), pc := PC.scanCancel } : Task) =
            { t with pc := PC.scanCancel } := by
          rw [← hp0]
        rw [e0]
        exact hsame
      | _ =>
        simp only [hpc] at hstep
        rw [hpc] at hk
        repeat' split at hstep
        all_goals first
          | (exfalso; simp_all; done)
          | (simp only [Option.some.injEq] at hstep
             subst hstep
             simp only [Scanner.goto, Scanner.setTask, Scanner.emit] at htree' ⊢
             cases tree_unique hitems htree'
             refine ⟨shapeOk_goto h i t _ ht ?_ (taskOk_same hok _ ?_ ?_ ?_ ?_), hc⟩
             · intro item hi'
               first
                 | (rw [PC.item?_afterScan] at hi'; simp at hi')
                 | (simp [PC.item?] at hi'; done)
                 | (simp only [PC.item?, Option.some.injEq] at hi'
                    subst hi'
                    simp [hpc, PC.item?])
             · first
                 | (rw [hpc, PC.cur_afterScan]; rfl)
                 | (rw [hpc]; rfl)
             · first
                 | (rw [hpc, PC.todo_afterScan]; rfl)
                 | (rw [hpc]; rfl)
             · intro item hi'
               first
                 | (rw [PC.item?_afterScan] at hi'; simp at hi')
                 | (simp [PC.item?] at hi'; done)
                 | (simp only [PC.item?, Option.some.injEq] at hi'
                    subst hi'
                    simp [hpc, PC.item?])
             · first
                 | exact PC.kindOk_afterScan _ t
                 | exact hk
                 | trivial)

theorem shapeOk_start (path : String) (fs : Entry) (n : Nat) :
    ShapeOk ((Scanner.init path fs n).start).pool (Scanner.init path fs n).rootItem := by
  have hp : ((Scanner.init path fs n).start).pool =
      [{ isRootTask := true, path := path, dir := fs, parent := ⟨0, []⟩, pc := PC.queued }] := by
    simp [Scanner.start, Scanner.init]
  rw [hp]
  refine ⟨?_, ?_, ?_⟩
  · intro j tj hj
    cases j with
    | zero =>
      simp only [List.getElem?_cons_zero, Option.some.injEq] at hj
      subst hj
      refine ⟨trivial, fun _ => rfl, rfl, [], _, ?_, rfl, ?_, ?_, trivial⟩
      · simp [PC.cur, PC.todo]
      · simp [PC.cur, Scanner.childItems, Scanner.rootItem, FileItem.new, FileItem.children]
      · intro item hi
        simp [PC.item?] at hi
    | succ j => simp at hj
  · intro a b ta tb ha hb _
    have ha' : a < 1 := by
      have := (List.getElem?_eq_some_iff.1 ha).1
      simpa using this
    have hb' : b < 1 := by
      have := (List.getElem?_eq_some_iff.1 hb).1
      simpa using this
    omega
  · intro a b ta tb item ha hai hb
    cases a with
    | zero =>
      simp only [List.getElem?_cons_zero, Option.some.injEq] at ha
      subst ha
      simp [PC.item?] at hai
    | succ a => simp at ha

/-- The invariants of one scan without cancellation hold in every state of
every run. -/
theorem shape_run (sched : List Action) :
    ∀ (s s' : Scanner) (tree : FileItem), sched.all Action.internal = true →
      ScanOk s tree → ShapeOk s.pool tree → s.m_cancelRequested = false →
      s.run sched = some s' →
      ∃ tree', ScanOk s' tree' ∧ ShapeOk s'.pool tree' ∧ s'.m_cancelRequested = false := by
  induction sched with
  | nil =>
    intro s s' tree _ h1 h2 h3 hr
    simp only [Scanner.run, Option.some.injEq] at hr
    subst hr
    exact ⟨tree, h1, h2, h3⟩
  | cons a as ih =>
    intro s s' tree hall h1 h2 h3 hr
    simp only [List.all_cons, Bool.and_eq_true] at hall
    simp only [Scanner.run] at hr
    cases hs : s.step a with
    | none => simp [hs] at hr
    | some s1 =>
      simp only [hs] at hr
      have hns := internal_notStart hall.1
      obtain ⟨tree1, g1⟩ := refsOk_step s s1 a tree hns h1.1 hs
      have g2 := countersOk_step s s1 a tree tree1 hns h1.1 h1.2 hs g1.1
      obtain ⟨g3, g4⟩ := shapeOk_step s s1 a tree tree1 hall.1 h1.1 h3 h2 hs g1.1
      exact ih s1 s' tree1 hall.2 ⟨g1, g2⟩ g3 g4 hr

theorem childItems_dirsFirst (path : String) (es : List Entry) :
    (∀ x ∈ Scanner.childItems path (es.filter (fun e => e.isDir)), x.isDirectory = true) ∧
    (∀ x ∈ Scanner.childItems path (es.filter (fun e => !e.isDir)), x.isDirectory = false) := by
  constructor
  · intro x hx
    simp only [Scanner.childItems, List.mem_filterMap, List.mem_filter] at hx
    obtain ⟨e, ⟨_, hd⟩, hc⟩ := hx
    have hf : e.isFile = false := by cases e <;> simp_all [Entry.isDir, Entry.isFile]
    simp only [Scanner.childItem, hf, Bool.false_eq_true, if_false] at hc
    split at hc
    · simp only [Option.some.injEq] at hc
      subst hc; rfl
    · exact Option.noConfusion hc
  · intro x hx
    simp only [Scanner.childItems, List.mem_filterMap, List.mem_filter] at hx
    obtain ⟨e, ⟨_, hd⟩, hc⟩ := hx
    have hd' : e.isDir = false := by simpa using hd
    simp only [Scanner.childItem, hd', Bool.false_and, Bool.false_eq_true, if_false] at hc
    split at hc
    · simp only [Option.some.injEq] at hc
      subst hc; rfl
    · exact Option.noConfusion hc

/-! ### The tree of a complete scan -/


namespace FileItem

theorem pristineList_iff (cs : List FileItem) : PristineList cs ↔ ∀ c ∈ cs, Pristine c := by
  induction cs with
  | nil => simp [PristineList]
  | cons c cs ih => simp [PristineList, ih]

theorem wellKindedList_iff (cs : List FileItem) :
    WellKindedList cs ↔ ∀ c ∈ cs, WellKinded c := by
  induction cs with
  | nil => simp [WellKindedList]
  | cons c cs ih => simp [WellKindedList, ih]

theorem pristine_addChildAt (q : List Nat) (child : FileItem) (hc : Pristine child) :
    ∀ t : FileItem, Pristine t → Pristine (addChildAt q child t) := by
  induction q with
  | nil =>
    intro t ht
    cases t with
    | mk n p s m d cs cv cf =>
      simp only [addChildAt, addChild, Pristine] at ht ⊢
      refine ⟨ht.1, trivial, ?_⟩
      have hl := ht.2.2
      rw [pristineList_iff] at hl ⊢
      intro c hmem
      rcases List.mem_append.1 hmem with h | h
      · exact hl c h
      · simp at h; subst h; exact hc
  | cons k q ih =>
    intro t ht
    cases t with
    | mk n p s m d cs cv cf =>
      simp only [addChildAt]
      cases hk : cs[k]? with
      | none => simpa using ht
      | some c =>
        simp only [Pristine] at ht ⊢
        refine ⟨ht.1, ht.2.1, ?_⟩
        have hl := ht.2.2
        rw [pristineList_iff] at hl ⊢
        intro x hx
        rcases List.mem_or_eq_of_mem_set hx with h | h
        · exact hl x h
        · subst h
          exact ih c (hl c (List.getElem?_mem hk))

theorem wellKinded_addChildAt (q : List Nat) (child : FileItem) (hc : WellKinded child) :
    ∀ t n : FileItem, WellKinded t → nodeAt q t = some n → n.isDirectory = true →
      WellKinded (addChildAt q child t) := by
  induction q with
  | nil =>
    intro t n ht hn hd
    simp only [nodeAt, Option.some.injEq] at hn
    subst hn
    cases t with
    | mk nm p s m d cs cv cf =>
      simp only [isDirectory] at hd
      subst hd
      simp only [addChildAt, addChild, WellKinded] at ht ⊢
      refine ⟨fun h => Bool.noConfusion h, ht.2.1, ?_⟩
      have hl := ht.2.2
      rw [wellKindedList_iff] at hl ⊢
      intro c hmem
      rcases List.mem_append.1 hmem with h | h
      · exact hl c h
      · simp at h; subst h; exact hc
  | cons k q ih =>
    intro t n ht hn hd
    cases t with
    | mk nm p s m d cs cv cf =>
      simp only [nodeAt, children] at hn
      cases hk : cs[k]? with
      | none => simp [hk] at hn
      | some c =>
        simp only [hk] at hn
        simp only [addChildAt, hk, WellKinded] at ht ⊢
        have hdir : d = true := by
          cases d with
          | true => rfl
          | false =>
            have := ht.1 rfl
            rw [this] at hk
            simp at hk
        refine ⟨fun h => by rw [hdir] at h; exact Bool.noConfusion h, ht.2.1, ?_⟩
        have hl := ht.2.2
        rw [wellKindedList_iff] at hl ⊢
        intro x hx
        rcases List.mem_or_eq_of_mem_set hx with h | h
        · exact hl x h
        · subst h
          exact ih c n (hl c (List.getElem?_mem hk)) hn hd

theorem pristine_nodeAt (p : List Nat) :
    ∀ (t n : FileItem), Pristine t → nodeAt p t = some n → Pristine n := by
  induction p with
  | nil =>
    intro t n ht hn
    simp only [nodeAt, Option.some.injEq] at hn
    subst hn; exact ht
  | cons k p ih =>
    intro t n ht hn
    cases t with
    | mk nm pa s m d cs cv cf =>
      simp only [nodeAt, children] at hn
      cases hk : cs[k]? with
      | none => simp [hk] at hn
      | some c =>
        simp only [hk] at hn
        have hl := ht.2.2
        rw [pristineList_iff] at hl
        exact ih c n (hl c (List.getElem?_mem hk)) hn

theorem wellKinded_nodeAt (p : List Nat) :
    ∀ (t n : FileItem), WellKinded t → nodeAt p t = some n → WellKinded n := by
  induction p with
  | nil =>
    intro t n ht hn
    simp only [nodeAt, Option.some.injEq] at hn
    subst hn; exact ht
  | cons k p ih =>
    intro t n ht hn
    cases t with
    | mk nm pa s m d cs cv cf =>
      simp only [nodeAt, children] at hn
      cases hk : cs[k]? with
      | none => simp [hk] at hn
      | some c =>
        simp only [hk] at hn
        have hl := ht.2.2
        rw [wellKindedList_iff] at hl
        exact ih c n (hl c (List.getElem?_mem hk)) hn

end FileItem

theorem treeOk_addChild {tree : FileItem} (h : TreeOk tree) (r : ItemRef) (hr : RefOk tree r)
    (c : FileItem) (hc : TreeOk c) : TreeOk (FileItem.addChildAt r.path c tree) := by
  obtain ⟨_, n, hn, hd⟩ := hr
  exact ⟨FileItem.pristine_addChildAt _ c hc.1 tree h.1,
    FileItem.wellKinded_addChildAt _ c hc.2 tree n h.2 hn hd⟩

theorem treeOk_fileItem (path : String) (e : Entry) : TreeOk (Scanner.fileItem path e) := by
  simp [TreeOk, Scanner.fileItem, FileItem.new, FileItem.Pristine, FileItem.PristineList,
    FileItem.WellKinded, FileItem.WellKindedList]

theorem treeOk_dirItem (path : String) (e : Entry) : TreeOk (Scanner.dirItem path e) := by
  simp [TreeOk, Scanner.dirItem, FileItem.new, FileItem.Pristine, FileItem.PristineList,
    FileItem.WellKinded, FileItem.WellKindedList]

/-- A step changes the one root item by at most one `addChild`, of a new file
item or directory item, through the pointer `parent` of the task that moves. -/
theorem items_step (s s' : Scanner) (a : Action) (tree tree' : FileItem)
    (ha : a.notStart = true) (hr : RefsOk s.items s.m_rootItem s.pool tree)
    (hstep : s.step a = some s') (htree' : s'.items = [tree']) :
    tree' = tree ∨ ∃ (i : Nat) (t : Task) (e : Entry), s.pool[i]? = some t ∧
      (tree' = FileItem.addChildAt t.parent.path (Scanner.fileItem t.path e) tree ∨
       tree' = FileItem.addChildAt t.parent.path (Scanner.dirItem t.path e) tree) := by
  have hitems := hr.1
  cases a with
  | start => simp [Action.notStart] at ha
  | stop =>
    simp only [Scanner.step] at hstep
    split at hstep
    · simp only [Option.some.injEq] at hstep
      subst hstep
      unfold Scanner.stop at htree'
      split at htree' <;> exact Or.inl (tree_unique hitems htree')
    · simp at hstep
  | main =>
    simp only [Scanner.step] at hstep
    unfold Scanner.mainStep at hstep
    cases hm : s.mainThread with
    | handler hh back =>
      simp only [hm, Option.some.injEq] at hstep
      subst hstep
      cases hh <;> simp only [Scanner.otfState, Scanner.emit] at htree' <;>
        exact Or.inl (tree_unique hitems htree')
    | _ =>
      simp only [hm] at hstep
      repeat' split at hstep
      all_goals first
        | (simp only [Option.some.injEq] at hstep
           subst hstep
           exact Or.inl (tree_unique hitems htree'))
        | simp at hstep
  | task i =>
    simp only [Scanner.step] at hstep
    cases ht : s.pool[i]? with
    | none => simp [ht] at hstep
    | some t =>
      simp only [ht] at hstep
      obtain ⟨⟨hroot, -⟩, -⟩ := hr.2.2.2 i t ht
      unfold Scanner.taskStep at hstep
      cases hpc : t.pc with
      | handler hh =>
        simp only [hpc, Option.some.injEq] at hstep
        subst hstep
        cases hh <;>
          simp only [Scanner.otfState, Scanner.emit, Scanner.goto, Scanner.setTask] at htree' <;>
          exact Or.inl (tree_unique hitems htree')
      | fileAdd e rest =>
        simp only [hpc] at hstep
        split at hstep
        · simp at hstep
        · simp only [Option.some.injEq] at hstep
          subst hstep
          simp only [Scanner.goto, Scanner.setTask, Scanner.addChildRef, hitems, hroot,
            List.getElem?_cons_zero, List.set_cons_zero, List.cons.injEq, and_true] at htree'
          exact Or.inr ⟨i, t, e, ht, Or.inl htree'.symm⟩
      | dirAdd e rest =>
        simp only [hpc] at hstep
        split at hstep
        · simp at hstep
        · cases hd : s.deref t.parent with
          | none => simp [hd] at hstep
          | some node0 =>
            simp only [hd, Option.some.injEq] at hstep
            subst hstep
            simp only [Scanner.goto, Scanner.setTask, Scanner.addChildRef, hitems, hroot,
              List.getElem?_cons_zero, List.set_cons_zero, List.cons.injEq, and_true] at htree'
            exact Or.inr ⟨i, t, e, ht, Or.inr htree'.symm⟩
      | _ =>
        simp only [hpc] at hstep
        repeat' split at hstep
        all_goals first
          | (simp only [Option.some.injEq] at hstep
             subst hstep
             simp only [Scanner.goto, Scanner.setTask, Scanner.emit] at htree'
             exact Or.inl (tree_unique hitems htree'))
          | simp at hstep

theorem treeOk_step (s s' : Scanner) (a : Action) (tree tree' : FileItem)
    (ha : a.notStart = true) (hr : RefsOk s.items s.m_rootItem s.pool tree)
    (h : TreeOk tree) (hstep : s.step a = some s') (htree' : s'.items = [tree']) :
    TreeOk tree' := by
  rcases items_step s s' a tree tree' ha hr hstep htree' with h1 | ⟨i, t, e, ht, h1 | h1⟩
  · rw [h1]; exact h
  · rw [h1]; exact treeOk_addChild h t.parent (hr.2.2.2 i t ht).1 _ (treeOk_fileItem _ _)
  · rw [h1]; exact treeOk_addChild h t.parent (hr.2.2.2 i t ht).1 _ (treeOk_dirItem _ _)


theorem FileItem.eq_of_info {c : FileItem} {n p : String} {s m : Int} {d : Bool}
    {cs : List FileItem} (hi : c.info = (n, p, s, m, d)) (hp : c.Pristine)
    (hc : c.children = cs) : c = FileItem.mk n p s m d cs 0 false := by
  cases c with
  | mk n' p' s' m' d' cs' cv cf =>
    simp only [FileItem.info, Prod.mk.injEq] at hi
    simp only [FileItem.children] at hc
    obtain ⟨h1, h2, h3, h4, h5⟩ := hi
    obtain ⟨h6, h7, _⟩ := hp
    subst h1 h2 h3 h4 h5 h6 h7 hc
    rfl

theorem scanDirs_eq (path : String) :
    ∀ es : List Entry, scanDirs path es =
      (es.filter (fun e => e.isDir)).filterMap (deepItem path) := by
  intro es
  induction es with
  | nil => simp [scanDirs]
  | cons e es ih =>
    cases e with
    | file n sz m =>
      simp [scanDirs, Entry.isDir, ih]
    | other n =>
      simp [scanDirs, Entry.isDir, ih]
    | dir n m l ex sub =>
      cases l <;>
        simp [scanDirs, Entry.isDir, ih, deepItem, Entry.isFile, Entry.isSymLink,
          Entry.fileName, Entry.lastModified, absoluteFilePath]

theorem scanFiles_eq (path : String) (es : List Entry) :
    es.filterMap (fun e => if e.isFile then some (Scanner.fileItem path e) else none) =
      (es.filter (fun e => !e.isDir)).filterMap (deepItem path) := by
  induction es with
  | nil => simp
  | cons e es ih =>
    cases e with
    | file n sz m =>
      have h1 : (Entry.file n sz m).isFile = true := rfl
      have h2 : (Entry.file n sz m).isDir = false := rfl
      simp only [List.filterMap_cons, List.filter_cons, h1, h2, if_true, Bool.not_false,
        deepItem]
      rw [ih]
    | other n =>
      have h1 : (Entry.other n).isFile = false := rfl
      have h2 : (Entry.other n).isDir = false := rfl
      simp only [List.filterMap_cons, List.filter_cons, h1, h2, if_true, Bool.not_false,
        deepItem, Bool.false_eq_true, if_false, Bool.false_and]
      rw [ih]
    | dir n m l ex sub =>
      have h1 : (Entry.dir n m l ex sub).isFile = false := rfl
      have h2 : (Entry.dir n m l ex sub).isDir = true := rfl
      simp only [List.filterMap_cons, List.filter_cons, h1, h2, Bool.not_true,
        Bool.false_eq_true, if_false]
      rw [ih]

theorem scanTree_eq (path : String) (e : Entry) :
    scanTree path e =
      (if e.dirExists then e.entryInfoList true else []).filterMap (deepItem path) := by
  cases e with
  | file n sz m => simp [scanTree, Entry.dirExists]
  | other n => simp [scanTree, Entry.dirExists]
  | dir n m l ex sub =>
    cases ex with
    | false => simp [scanTree, Entry.dirExists]
    | true =>
      simp only [scanTree, Entry.dirExists, if_true, Entry.entryInfoList, Entry.entries,
        List.filterMap_append, scanDirs_eq, scanFiles_eq]

/-- The children of a node whose (shallow) data follow the entries `L` are the
deep items of `L`, once the same holds below every directory of `L`. -/
theorem recon_list (pool : List Task) (tree : FileItem) (tp : String) (p : List Nat) :
    ∀ (L : List Entry) (cs : List FileItem) (k0 : Nat),
      (∀ e ∈ L, ReconAt pool tree e) →
      cs.map FileItem.info = (Scanner.childItems tp L).map FileItem.info →
      (∀ c ∈ cs, c.Pristine ∧ c.WellKinded) →
      Dispatched pool tp p k0 L →
      (∀ (idx : Nat) (c : FileItem), cs[idx]? = some c →
        FileItem.nodeAt (p ++ [k0 + idx]) tree = some c) →
      cs = L.filterMap (deepItem tp) := by
  intro L
  induction L with
  | nil =>
    intro cs k0 _ hinfo _ _ _
    simpa [Scanner.childItems] using hinfo
  | cons e L ih =>
    intro cs k0 hP hinfo hcs hD hidx
    have hPL : ∀ e' ∈ L, ReconAt pool tree e' := fun e' he' => hP e' (List.mem_cons_of_mem _ he')
    by_cases hf : e.isFile = true
    · have hci : Scanner.childItems tp (e :: L) =
          Scanner.fileItem tp e :: Scanner.childItems tp L := by
        simp [Scanner.childItems, Scanner.childItem, hf]
      rw [hci] at hinfo
      cases cs with
      | nil => simp at hinfo
      | cons c cs' =>
        simp only [List.map_cons, List.cons.injEq] at hinfo
        obtain ⟨hc1, hc2⟩ := hcs c (List.mem_cons_self _ _)
        have hdir : c.isDirectory = false := by
          rw [FileItem.isDirectory_of_info hinfo.1]; rfl
        have hch : c.children = [] := by
          cases c with
          | mk n' p' s' m' d' cs0 cv cf =>
            simp only [FileItem.isDirectory] at hdir
            exact hc2.1 hdir
        have hceq : c = Scanner.fileItem tp e :=
          FileItem.eq_of_info (by rw [hinfo.1]; rfl) hc1 hch
        have hlen : (Scanner.childItems tp [e]).length = 1 := by
          simp [Scanner.childItems, Scanner.childItem, hf]
        have hrest := ih cs' (k0 + 1) hPL hinfo.2
          (fun c' hc' => hcs c' (List.mem_cons_of_mem _ hc'))
          (by have := hD.2; rw [hlen] at this; exact this)
          (by
            intro idx c' hc'
            have := hidx (idx + 1) c' (by simpa using hc')
            rw [show k0 + 1 + idx = k0 + (idx + 1) by omega]
            exact this)
        simp only [List.filterMap_cons, deepItem, hf, if_true]
        rw [hceq, hrest]
    · by_cases hdir : (e.isDir && !e.isSymLink) = true
      · have hci : Scanner.childItems tp (e :: L) =
            Scanner.dirItem tp e :: Scanner.childItems tp L := by
          simp only [Scanner.childItems, List.filterMap_cons, Scanner.childItem, hf, hdir,
            if_true, if_false, Bool.false_eq_true]
        rw [hci] at hinfo
        cases cs with
        | nil => simp at hinfo
        | cons c cs' =>
          simp only [List.map_cons, List.cons.injEq] at hinfo
          obtain ⟨hc1, _⟩ := hcs c (List.mem_cons_self _ _)
          obtain ⟨j, tj, hj, hjp, hjd, hjpath⟩ := hD.1 hdir
          have hnode : FileItem.nodeAt tj.parent.path tree = some c := by
            rw [hjp]
            have := hidx 0 c (by simp)
            simpa using this
          have hrec := hP e (List.mem_cons_self _ _) j tj hj hjd c hnode
          have hch : c.children = scanTree (absoluteFilePath tp e) e := by
            rw [hrec, scanTree_eq, hjpath]
            simp only [Task.listing, hjd]
          have hceq : c = FileItem.mk e.fileName (absoluteFilePath tp e) 0 e.lastModified true
              (scanTree (absoluteFilePath tp e) e) 0 false :=
            FileItem.eq_of_info (by rw [hinfo.1]; rfl) hc1 hch
          have hlen : (Scanner.childItems tp [e]).length = 1 := by
            simp [Scanner.childItems, Scanner.childItem, hf, hdir]
          have hrest := ih cs' (k0 + 1) hPL hinfo.2
            (fun c' hc' => hcs c' (List.mem_cons_of_mem _ hc'))
            (by have := hD.2; rw [hlen] at this; exact this)
            (by
              intro idx c' hc'
              have := hidx (idx + 1) c' (by simpa using hc')
              rw [show k0 + 1 + idx = k0 + (idx + 1) by omega]
              exact this)
          simp only [List.filterMap_cons, deepItem, hf, hdir, if_true, if_false,
            Bool.false_eq_true]
          rw [hceq, hrest]
      · have hci : Scanner.childItems tp (e :: L) = Scanner.childItems tp L := by
          simp only [Scanner.childItems, List.filterMap_cons, Scanner.childItem, hf, hdir,
            if_false, Bool.false_eq_true]
        rw [hci] at hinfo
        have hlen : (Scanner.childItems tp [e]).length = 0 := by
          simp [Scanner.childItems, Scanner.childItem, hf, hdir]
        have hrest := ih cs k0 hPL hinfo hcs
          (by have := hD.2; rw [hlen] at this; exact this) hidx
        simp only [List.filterMap_cons, deepItem, hf, hdir, if_false, Bool.false_eq_true]
        exact hrest

theorem PC.pastLoop_cur_todo {pc : PC} (h : pc.pastLoop = true) (l : List Entry) :
    pc.cur = [] ∧ pc.todo l = [] := by
  cases pc <;> simp_all [PC.pastLoop, PC.cur, PC.todo]

theorem mem_listing {t : Task} {e' : Entry} (h : e' ∈ t.listing) : e' ∈ t.dir.entries := by
  unfold Task.listing at h
  split at h
  · simp only [Entry.entryInfoList, if_true, List.mem_append, List.mem_filter] at h
    rcases h with h | h <;> exact h.1
  · simp at h

/-- Reconstruction at one task, given it below every entry of its directory. -/
theorem recon_task (pool : List Task) (tree : FileItem) (hT : TreeOk tree)
    (hE : ∀ (j : Nat) (tj : Task), pool[j]? = some tj → TaskOk tree pool tj)
    (hdone : ∀ (j : Nat) (tj : Task), pool[j]? = some tj → tj.pc.pastLoop = true)
    (j : Nat) (t : Task) (hj : pool[j]? = some t)
    (hP : ∀ e' ∈ t.dir.entries, ReconAt pool tree e') (node : FileItem)
    (hnode : FileItem.nodeAt t.parent.path tree = some node) :
    node.children = t.listing.filterMap (deepItem t.path) := by
  obtain ⟨_, _, _, pre, node', g1, g2, g3, _, g5⟩ := hE j t hj
  obtain ⟨c1, c2⟩ := PC.pastLoop_cur_todo (hdone j t hj) t.listing
  rw [c1, c2] at g1
  rw [c1] at g3
  simp only [List.append_nil] at g1 g3
  rw [hnode] at g2
  simp only [Option.some.injEq] at g2
  subst g2
  rw [← g1] at g3 g5
  have hpn := FileItem.pristine_nodeAt _ tree node hT.1 hnode
  have hwn := FileItem.wellKinded_nodeAt _ tree node hT.2 hnode
  refine recon_list pool tree t.path t.parent.path t.listing node.children 0
    (fun e' he' => hP e' (mem_listing he')) g3 ?_ g5 ?_
  · intro c hc
    cases node with
    | mk n p s m d cs cv cf =>
      simp only [FileItem.children] at hc
      have h1 := hpn.2.2
      have h2 := hwn.2.2
      rw [FileItem.pristineList_iff] at h1
      rw [FileItem.wellKindedList_iff] at h2
      exact ⟨h1 c hc, h2 c hc⟩
  · intro idx c hc
    rw [Nat.zero_add, nodeAt_append_singleton _ idx tree node hnode]
    exact hc

mutual
/-- In a state where every task has left its loop, the children of the node of
every task are the deep items of its listing. -/
theorem recon_entry (pool : List Task) (tree : FileItem) (hT : TreeOk tree)
    (hE : ∀ (j : Nat) (tj : Task), pool[j]? = some tj → TaskOk tree pool tj)
    (hdone : ∀ (j : Nat) (tj : Task), pool[j]? = some tj → tj.pc.pastLoop = true) :
    ∀ e : Entry, ReconAt pool tree e
  | Entry.dir n m l ex es => by
    intro j t hj hd node hnode
    refine recon_task pool tree hT hE hdone j t hj ?_ node hnode
    rw [hd]
    exact recon_entries pool tree hT hE hdone es
  | Entry.file n sz m => by
    intro j t hj hd node hnode
    refine recon_task pool tree hT hE hdone j t hj ?_ node hnode
    rw [hd]
    intro e' he'
    simp [Entry.entries] at he'
  | Entry.other n => by
    intro j t hj hd node hnode
    refine recon_task pool tree hT hE hdone j t hj ?_ node hnode
    rw [hd]
    intro e' he'
    simp [Entry.entries] at he'
theorem recon_entries (pool : List Task) (tree : FileItem) (hT : TreeOk tree)
    (hE : ∀ (j : Nat) (tj : Task), pool[j]? = some tj → TaskOk tree pool tj)
    (hdone : ∀ (j : Nat) (tj : Task), pool[j]? = some tj → tj.pc.pastLoop = true) :
    ∀ es : List Entry, ∀ e ∈ es, ReconAt pool tree e
  | [] => by
    intro e he
    simp at he
  | e0 :: es => by
    intro e he
    rcases List.mem_cons.1 he with h | h
    · rw [h]
      exact recon_entry pool tree hT hE hdone e0
    · exact recon_entries pool tree hT hE hdone es e h
end


/-- No step removes a task or changes what a task is for. -/
theorem keys_step (s s' : Scanner) (a : Action) (ha : a.notStart = true)
    (hstep : s.step a = some s') (j : Nat) (tj : Task) (hj : s.pool[j]? = some tj) :
    ∃ tj', s'.pool[j]? = some tj' ∧ tj'.isRootTask = tj.isRootTask ∧ tj'.dir = tj.dir ∧
      tj'.path = tj.path := by
  have hjl : j < s.pool.length := (List.getElem?_eq_some_iff.1 hj).1
  have hset : ∀ (i : Nat) (t t' : Task), s.pool[i]? = some t →
      t'.isRootTask = t.isRootTask → t'.dir = t.dir → t'.path = t.path →
      ∃ tj', (s.pool.set i t')[j]? = some tj' ∧ tj'.isRootTask = tj.isRootTask ∧
        tj'.dir = tj.dir ∧ tj'.path = tj.path := by
    intro i t t' ht h1 h2 h3
    by_cases hij : i = j
    · subst hij
      rw [ht] at hj
      simp only [Option.some.injEq] at hj
      subst hj
      exact ⟨t', List.getElem?_set_self hjl, h1, h2, h3⟩
    · exact ⟨tj, by rw [List.getElem?_set_ne hij]; exact hj, rfl, rfl, rfl⟩
  cases a with
  | start => simp [Action.notStart] at ha
  | stop =>
    simp only [Scanner.step] at hstep
    split at hstep
    · simp only [Option.some.injEq] at hstep
      subst hstep
      unfold Scanner.stop
      split <;> exact ⟨tj, hj, rfl, rfl, rfl⟩
    · simp at hstep
  | main =>
    simp only [Scanner.step] at hstep
    unfold Scanner.mainStep at hstep
    cases hm : s.mainThread with
    | handler hh back =>
      simp only [hm, Option.some.injEq] at hstep
      subst hstep
      cases hh <;> exact ⟨tj, hj, rfl, rfl, rfl⟩
    | stopClear =>
      simp only [hm] at hstep
      split at hstep <;> simp only [Option.some.injEq] at hstep <;> subst hstep
      · refine ⟨Scanner.clearTask tj, by simp [hj], ?_⟩
        unfold Scanner.clearTask
        split <;> exact ⟨rfl, rfl, rfl⟩
      · exact ⟨tj, hj, rfl, rfl, rfl⟩
    | _ =>
      simp only [hm] at hstep
      repeat' split at hstep
      all_goals first
        | (simp only [Option.some.injEq] at hstep
           subst hstep
           exact ⟨tj, hj, rfl, rfl, rfl⟩)
        | simp at hstep
  | task i =>
    simp only [Scanner.step] at hstep
    cases ht : s.pool[i]? with
    | none => simp [ht] at hstep
    | some t =>
      simp only [ht] at hstep
      have hi : i < s.pool.length := (List.getElem?_eq_some_iff.1 ht).1
      unfold Scanner.taskStep at hstep
      cases hpc : t.pc with
      | handler hh =>
        simp only [hpc, Option.some.injEq] at hstep
        subst hstep
        cases hh <;> exact hset i t _ ht rfl rfl rfl
      | dirRun item e rest =>
        simp only [hpc, Option.some.injEq] at hstep
        subst hstep
        simp only [Scanner.goto, Scanner.setTask]
        by_cases hij : i = j
        · subst hij
          rw [ht] at hj
          simp only [Option.some.injEq] at hj
          subst hj
          exact ⟨_, List.getElem?_set_self (by simp; omega), rfl, rfl, rfl⟩
        · refine ⟨tj, ?_, rfl, rfl, rfl⟩
          rw [List.getElem?_set_ne hij, List.getElem?_append_left hjl]
          exact hj
      | _ =>
        simp only [hpc] at hstep
        repeat' split at hstep
        all_goals first
          | (simp only [Option.some.injEq] at hstep
             subst hstep
             exact hset i t _ ht rfl rfl rfl)
          | simp at hstep

theorem rootOk_step (path : String) (fs : Entry) (ri : String × String × Int × Int × Bool)
    (s s' : Scanner) (a : Action) (tree tree' : FileItem) (ha : a.notStart = true)
    (hr : RefsOk s.items s.m_rootItem s.pool tree) (h : RootOk path fs ri s.pool tree)
    (hstep : s.step a = some s') (htree' : s'.items = [tree']) :
    RootOk path fs ri s'.pool tree' := by
  obtain ⟨h1, t0, h2, h3, h4, h5⟩ := h
  refine ⟨?_, ?_⟩
  · rcases items_step s s' a tree tree' ha hr hstep htree' with e1 | ⟨i, t, e, _, e1 | e1⟩
    · rw [e1]; exact h1
    · rw [e1, FileItem.info_addChildAt]; exact h1
    · rw [e1, FileItem.info_addChildAt]; exact h1
  · obtain ⟨t0', g1, g2, g3, g4⟩ := keys_step s s' a ha hstep 0 t0 h2
    exact ⟨t0', g1, g2.trans h3, g3.trans h4, g4.trans h5⟩

/-- All the invariants of one scan without cancellation, in every state of
every run of one `start()`. -/
theorem scan_run (path : String) (fs : Entry) (n : Nat) (sched : List Action) :
    ∀ (s s' : Scanner) (tree : FileItem), sched.all Action.internal = true →
      ScanOk s tree → ShapeOk s.pool tree → s.m_cancelRequested = false → TreeOk tree →
      RootOk path fs (Scanner.init path fs n).rootItem.info s.pool tree →
      s.run sched = some s' →
      ∃ tree', ScanOk s' tree' ∧ ShapeOk s'.pool tree' ∧ s'.m_cancelRequested = false ∧
        TreeOk tree' ∧ RootOk path fs (Scanner.init path fs n).rootItem.info s'.pool tree' := by
  induction sched with
  | nil =>
    intro s s' tree _ h1 h2 h3 h4 h5 hr
    simp only [Scanner.run, Option.some.injEq] at hr
    subst hr
    exact ⟨tree, h1, h2, h3, h4, h5⟩
  | cons a as ih =>
    intro s s' tree hall h1 h2 h3 h4 h5 hr
    simp only [List.all_cons, Bool.and_eq_true] at hall
    simp only [Scanner.run] at hr
    cases hs : s.step a with
    | none => simp [hs] at hr
    | some s1 =>
      simp only [hs] at hr
      have hns := internal_notStart hall.1
      obtain ⟨tree1, g1⟩ := refsOk_step s s1 a tree hns h1.1 hs
      have g2 := countersOk_step s s1 a tree tree1 hns h1.1 h1.2 hs g1.1
      obtain ⟨g3, g4⟩ := shapeOk_step s s1 a tree tree1 hall.1 h1.1 h3 h2 hs g1.1
      have g5 := treeOk_step s s1 a tree tree1 hns h1.1 h4 hs g1.1
      have g6 := rootOk_step path fs _ s s1 a tree tree1 hns h1.1 h5 hs g1.1
      exact ih s1 s' tree1 hall.2 ⟨g1, g2⟩ g3 g4 g5 g6 hr

theorem scan_reach (path : String) (fs : Entry) (n : Nat) (sched : List Action) (s : Scanner)
    (hsched : sched.all Action.internal = true)
    (hrun : ((Scanner.init path fs n).start).run sched = some s) :
    ∃ tree, ScanOk s tree ∧ ShapeOk s.pool tree ∧ s.m_cancelRequested = false ∧
      TreeOk tree ∧ RootOk path fs (Scanner.init path fs n).rootItem.info s.pool tree := by
  refine scan_run path fs n sched _ s _ hsched (scanOk_start path fs n)
    (shapeOk_start path fs n) rfl ?_ ?_ hrun
  · simp [TreeOk, Scanner.rootItem, FileItem.new, FileItem.Pristine, FileItem.PristineList,
      FileItem.WellKinded, FileItem.WellKindedList]
  · exact ⟨rfl, _, rfl, rfl, rfl, rfl⟩

theorem dirsFirst_index (cs a b : List FileItem)
    (h : cs.map FileItem.info = (a ++ b).map FileItem.info)
    (ha : ∀ x ∈ a, x.isDirectory = true) (hb : ∀ x ∈ b, x.isDirectory = false)
    (idx : Nat) (c : FileItem) (hc : cs[idx]? = some c) :
    c.isDirectory = true ↔ idx < a.length := by
  have h1 : (cs.map FileItem.info)[idx]? = some c.info := by simp [hc]
  rw [h] at h1
  simp only [List.getElem?_map, Option.map_eq_some'] at h1
  obtain ⟨c', hc', hinfo⟩ := h1
  have hd := FileItem.isDirectory_of_info hinfo
  by_cases hlt : idx < a.length
  · rw [List.getElem?_append_left hlt] at hc'
    have := ha c' (List.getElem?_mem hc')
    rw [← hd, this]
    simp [hlt]
  · rw [List.getElem?_append_right (Nat.le_of_not_lt hlt)] at hc'
    have := hb c' (List.getElem?_mem hc')
    rw [← hd, this]
    simp [hlt]


theorem pastLoop_of_isDone {pc : PC} (h : pc.isDone = true) : pc.pastLoop = true := by
  cases pc <;> simp_all [PC.isDone, PC.pastLoop]

/-- C4: in every run of one `start()` without `stop()`, whatever the
interleaving, (1) for every task that has left the loop of its `scanDirectory`
call, the children of its node carry, in listing order, the data (name, path,
size, time stamp, kind) of the items made for the listed entries that are a
file or a directory that is not a symbolic link, one node per such entry, and
all directory children come before all file children; (2) once every task has
ended the tree is the root item with, below it, the complete scan of the file
system; (3) for the root `/root` holding `a.txt` (100 bytes) and `sub/b.txt`
(50 bytes) that tree is root(size 0)[sub(size 0)[b.txt 50], a.txt 100], its
`totalSize()` is 150 and `m_scannedFiles` is 2. -/
theorem C4_children_follow_listing (path : String) (fs : Entry) (idealThreadCount : Nat)
    (sched : List Action) (s : Scanner) (hsched : sched.all Action.internal = true)
    (hrun : ((Scanner.init path fs idealThreadCount).start).run sched = some s) :
    ∃ tree, s.items = [tree] ∧
      (∀ t ∈ s.pool, t.pc.pastLoop = true →
        ∃ node, s.deref t.parent = some node ∧
          node.children.map FileItem.info =
            (t.listing.filterMap (Scanner.childItem t.path)).map FileItem.info ∧
          ∃ k, ∀ (idx : Nat) (c : FileItem), node.children[idx]? = some c →
            (c.isDirectory = true ↔ idx < k)) ∧
      (s.pool.all (fun t => t.pc.isDone) = true →
        tree = FileItem.mk (if fs.fileName.isEmpty then path else fs.fileName) path 0
          fs.lastModified true (scanTree path fs) 0 false) ∧
      (path = "/root" → fs = fsExample → s.pool.all (fun t => t.pc.isDone) = true →
        tree = exampleTree ∧ (FileItem.totalSize tree).1 = 150 ∧ s.m_scannedFiles = 2) := by
  obtain ⟨tree, hS, hSh, _, hT, hR⟩ := scan_reach path fs idealThreadCount sched s hsched hrun
  have hitems := hS.1.1
  have hfinal : s.pool.all (fun t => t.pc.isDone) = true →
      tree = FileItem.mk (if fs.fileName.isEmpty then path else fs.fileName) path 0
        fs.lastModified true (scanTree path fs) 0 false := by
    intro hdone
    have hpast : ∀ (j : Nat) (tj : Task), s.pool[j]? = some tj → tj.pc.pastLoop = true := by
      intro j tj hj
      rw [List.all_eq_true] at hdone
      exact pastLoop_of_isDone (hdone tj (List.getElem?_mem hj))
    obtain ⟨hinfo, t0, h0, hroot, hdir, hpath⟩ := hR
    have hp0 := (hSh.1 0 t0 h0).2.1 hroot
    have hch := recon_entry s.pool tree hT hSh.1 hpast fs 0 t0 h0 hdir tree
      (by rw [hp0]; rfl)
    have hch' : tree.children = scanTree path fs := by
      rw [hch, scanTree_eq, hpath]
      simp only [Task.listing, hdir]
    exact FileItem.eq_of_info hinfo hT.1 hch'
  refine ⟨tree, hitems, ?_, hfinal, ?_⟩
  · intro t ht hpl
    obtain ⟨j, hj⟩ := List.getElem?_of_mem ht
    obtain ⟨_, _, hroot, pre, node, g1, g2, g3, _, _⟩ := hSh.1 j t hj
    obtain ⟨c1, c2⟩ := PC.pastLoop_cur_todo hpl t.listing
    rw [c1, c2] at g1
    rw [c1] at g3
    simp only [List.append_nil] at g1 g3
    rw [← g1] at g3
    refine ⟨node, by simp [Scanner.deref, hitems, hroot, g2], g3, ?_⟩
    by_cases hex : t.dir.dirExists = true
    · have hl : t.listing = t.dir.entries.filter (fun e => e.isDir) ++
          t.dir.entries.filter (fun e => !e.isDir) := by
        simp [Task.listing, hex, Entry.entryInfoList]
      obtain ⟨d1, d2⟩ := childItems_dirsFirst t.path t.dir.entries
      refine ⟨_, dirsFirst_index node.children _ _ ?_ d1 d2⟩
      rw [g3, hl, childItems_append]
    · have hl : t.listing = [] := by simp [Task.listing, hex]
      rw [hl] at g3
      have hnil : node.children = [] := map_info_eq_nil (by simpa [Scanner.childItems] using g3)
      refine ⟨0, ?_⟩
      intro idx c hc
      rw [hnil] at hc
      simp at hc
  · intro hp hf hdone
    have htree := hfinal hdone
    subst hp hf
    have hex : tree = exampleTree := by rw [htree]; rfl
    refine ⟨hex, by rw [hex]; rfl, ?_⟩
    have hq := (hS.quiescent (isDone_not_inLock hdone)).1
    rw [hq, hex]
    rfl

/-- Witness of C4: the complete scan of the example of the specification. -/
theorem C4_children_follow_listing_witness :
    ((Scanner.init "/root" fsExample 2).start).run schedExample.tail = some stateExample ∧
    stateExample.items = [exampleTree] ∧ stateExample.m_scannedFiles = 2 ∧
    ∃ tree, stateExample.items = [tree] ∧
      (stateExample.pool.all (fun t => t.pc.isDone) = true →
        tree = FileItem.mk (if fsExample.fileName.isEmpty then "/root" else fsExample.fileName)
          "/root" 0 fsExample.lastModified true (scanTree "/root" fsExample) 0 false) := by
  obtain ⟨tree, h1, _, h3, _⟩ :=
    C4_children_follow_listing "/root" fsExample 2 schedExample.tail stateExample
      (by decide) rfl
  exact ⟨rfl, rfl, by decide, tree, h1, h3⟩

/-! ### The tree and the byte total in every scan -/

mutual
theorem FileItem.fresh_of_pristine : ∀ t : FileItem, t.Pristine → t.Fresh
  | FileItem.mk _ _ _ _ _ cs _ _, h => ⟨h.2.1, FileItem.freshList_of_pristineList cs h.2.2⟩
theorem FileItem.freshList_of_pristineList :
    ∀ cs : List FileItem, FileItem.PristineList cs → FileItem.FreshList cs
  | [], _ => trivial
  | c :: cs, h => ⟨FileItem.fresh_of_pristine c h.1, FileItem.freshList_of_pristineList cs h.2⟩
end

mutual
/-- With directories of own size 0, the sum of all own sizes is the sum of the
sizes of the file nodes. -/
theorem FileItem.subtreeSum_eq_fileBytes :
    ∀ t : FileItem, t.WellKinded → t.subtreeSum = t.fileBytes
  | FileItem.mk _ _ s _ d cs _ _, h => by
    have ih := FileItem.subtreeSumList_eq_fileBytesList cs h.2.2
    simp only [FileItem.subtreeSum, FileItem.fileBytes, ih]
    cases d with
    | true => simp [h.2.1 rfl]
    | false => simp
theorem FileItem.subtreeSumList_eq_fileBytesList :
    ∀ cs : List FileItem, FileItem.WellKindedList cs →
      FileItem.subtreeSumList cs = FileItem.fileBytesList cs
  | [], _ => rfl
  | c :: cs, h => by
    simp only [FileItem.subtreeSumList, FileItem.fileBytesList,
      FileItem.subtreeSum_eq_fileBytes c h.1, FileItem.subtreeSumList_eq_fileBytesList cs h.2]
end

/-- In every state of one scan, cancelled or not: pointers, counters and the
well-formedness of the tree. -/
theorem tree_run (sched : List Action) :
    ∀ (s s' : Scanner) (tree : FileItem), sched.all Action.notStart = true → ScanOk s tree →
      TreeOk tree → s.run sched = some s' → ∃ tree', ScanOk s' tree' ∧ TreeOk tree' := by
  induction sched with
  | nil =>
    intro s s' tree _ h ht hr
    simp only [Scanner.run, Option.some.injEq] at hr
    subst hr
    exact ⟨tree, h, ht⟩
  | cons a as ih =>
    intro s s' tree hall h ht hr
    simp only [List.all_cons, Bool.and_eq_true] at hall
    simp only [Scanner.run] at hr
    cases hs : s.step a with
    | none => simp [hs] at hr
    | some s1 =>
      simp only [hs] at hr
      obtain ⟨tree1, h1⟩ := refsOk_step s s1 a tree hall.1 h.1 hs
      have h2 := countersOk_step s s1 a tree tree1 hall.1 h.1 h.2 hs h1.1
      have h3 := treeOk_step s s1 a tree tree1 hall.1 h.1 ht hs h1.1
      exact ih s1 s' tree1 hall.2 ⟨h1, h2⟩ h3 hr

theorem treeOk_rootItem (s : Scanner) : TreeOk s.rootItem := by
  simp [TreeOk, Scanner.rootItem, FileItem.new, FileItem.Pristine, FileItem.PristineList,
    FileItem.WellKinded, FileItem.WellKindedList]

/-- C13: in every state of every run of one `start()`, with or without
`stop()`, whatever the file system and the interleaving, the session holds one
root item, and every node of its tree that is a file (`isDirectory()` false) has
no children and every node that is a directory has own size 0. -/
theorem C13_file_nodes_are_leaves_directory_sizes_zero (path : String) (fs : Entry)
    (idealThreadCount : Nat) (sched : List Action) (s : Scanner)
    (hsched : sched.all Action.notStart = true)
    (hrun : ((Scanner.init path fs idealThreadCount).start).run sched = some s) :
    ∃ tree, s.items = [tree] ∧ s.m_rootItem = some 0 ∧
      ∀ (p : List Nat) (node : FileItem), FileItem.nodeAt p tree = some node →
        (node.isDirectory = false → node.children = []) ∧
        (node.isDirectory = true → node.size = 0) := by
  obtain ⟨tree, h, ht⟩ := tree_run sched _ s _ hsched (scanOk_start path fs idealThreadCount)
    (treeOk_rootItem _) hrun
  refine ⟨tree, h.1.1, h.1.2.1, ?_⟩
  intro p node hn
  have hw := FileItem.wellKinded_nodeAt p tree node ht.2 hn
  cases node with
  | mk nm pa sz m d cs cv cf => exact ⟨hw.1, hw.2.1⟩

/-- Witness of C13: the cancelled scan of the example of the specification. -/
theorem C13_file_nodes_are_leaves_directory_sizes_zero_witness :
    ((Scanner.init "/root" fsExample 2).start).run schedCancel.tail = some stateCancel ∧
    ∃ tree, stateCancel.items = [tree] ∧ stateCancel.m_rootItem = some 0 ∧
      ∀ (p : List Nat) (node : FileItem), FileItem.nodeAt p tree = some node →
        (node.isDirectory = false → node.children = []) ∧
        (node.isDirectory = true → node.size = 0) :=
  ⟨rfl, C13_file_nodes_are_leaves_directory_sizes_zero "/root" fsExample 2 schedCancel.tail
    stateCancel (by decide) rfl⟩

theorem sum_map_set_int (f : Task → Int) (pool : List Task) (i : Nat) (t t' : Task)
    (ht : pool[i]? = some t) :
    ((pool.set i t').map f).sum = (pool.map f).sum - f t + f t' := by
  induction pool generalizing i with
  | nil => simp at ht
  | cons a as ih =>
    cases i with
    | zero =>
      simp at ht
      subst ht
      simp only [List.set_cons_zero, List.map_cons, List.sum_cons]
      omega
    | succ i =>
      simp at ht
      simp only [List.set_cons_succ, List.map_cons, List.sum_cons, ih i ht]
      omega

theorem getElem?_append_of_some {α : Type} {l : List α} {i : Nat} {a : α}
    (h : l[i]? = some a) (l' : List α) : (l ++ l')[i]? = some a := by
  rw [List.getElem?_append_left (List.getElem?_eq_some_iff.1 h).1]
  exact h

theorem counted_nonneg (t : Task) : 0 ≤ t.counted := by
  unfold Task.counted PC.counted
  split <;> (try split) <;> omega

theorem sum_counted_nonneg (pool : List Task) : 0 ≤ (pool.map Task.counted).sum := by
  induction pool with
  | nil => simp
  | cons a as ih =>
    simp only [List.map_cons, List.sum_cons]
    have := counted_nonneg a
    omega

theorem activeOk_set {pool : List Task} {a a' : Int} (h : ActiveOk pool a) (i : Nat)
    (t t' : Task) (ht : pool[i]? = some t) (hr : t'.pc.roleOk t'.isRootTask = true)
    (ha : a' = wrapInt (a - t.counted + t'.counted)) : ActiveOk (pool.set i t') a' := by
  refine ⟨forall_pool_set (fun j tj _ => h.1 j tj) hr, ?_⟩
  rw [sum_map_set_int Task.counted pool i t t' ht, ha, h.2]
  unfold wrapInt
  omega

theorem activeOk_set_same {pool : List Task} {a : Int} (h : ActiveOk pool a) (i : Nat)
    (t t' : Task) (ht : pool[i]? = some t) (hr : t'.pc.roleOk t'.isRootTask = true)
    (hc : t'.counted = t.counted) : ActiveOk (pool.set i t') a := by
  refine activeOk_set h i t t' ht hr ?_
  rw [hc, h.2]
  unfold wrapInt
  omega

theorem activeOk_append {pool : List Task} {a : Int} (h : ActiveOk pool a) (new : Task)
    (hr : new.pc.roleOk new.isRootTask = true) :
    ActiveOk (pool ++ [new]) (wrapInt (a + new.counted)) := by
  refine ⟨?_, ?_⟩
  · intro j tj hj
    rcases Nat.lt_or_ge j pool.length with hlt | hge
    · rw [List.getElem?_append_left hlt] at hj
      exact h.1 j tj hj
    · rw [List.getElem?_append_right hge] at hj
      cases hk : j - pool.length with
      | zero =>
        simp only [hk, List.getElem?_cons_zero, Option.some.injEq] at hj
        subst hj; exact hr
      | succ k => simp [hk] at hj
  · simp only [List.map_append, List.sum_append, List.map_cons, List.map_nil, List.sum_cons,
      List.sum_nil, add_zero, h.2]
    exact wrapInt_add_wrapInt _ _

theorem activeOk_clear {pool : List Task} {a : Int} (h : ActiveOk pool a) :
    ActiveOk (pool.map Scanner.clearTask) a := by
  have hpc : ∀ t : Task, (Scanner.clearTask t).pc.roleOk (Scanner.clearTask t).isRootTask =
      t.pc.roleOk t.isRootTask ∧ (Scanner.clearTask t).counted = t.counted := by
    intro t
    unfold Scanner.clearTask
    split
    · rename_i hq
      simp [hq, PC.roleOk, Task.counted, PC.counted]
    · exact ⟨rfl, rfl⟩
  refine ⟨?_, ?_⟩
  · intro j tj hj
    simp only [List.getElem?_map, Option.map_eq_some'] at hj
    obtain ⟨t0, ht0, rfl⟩ := hj
    rw [(hpc t0).1]
    exact h.1 j t0 ht0
  · rw [h.2, List.map_map]
    congr 2
    apply List.map_congr_left
    intro t _
    exact ((hpc t).2).symm

theorem roleOk_afterScan (t : Task) : (Scanner.afterScan t).roleOk t.isRootTask = true := by
  unfold Scanner.afterScan
  cases t.isRootTask <;> rfl

theorem counted_afterScan (t : Task) :
    (Scanner.afterScan t).counted t.isRootTask = if t.isRootTask then 0 else 1 := by
  unfold Scanner.afterScan
  cases t.isRootTask <;> rfl

theorem activeOk_step (s s' : Scanner) (a : Action) (ha : a.notStart = true)
    (h : ActiveOk s.pool s.m_activeTasks) (hstep : s.step a = some s') :
    ActiveOk s'.pool s'.m_activeTasks := by
  cases a with
  | start => simp [Action.notStart] at ha
  | stop =>
    simp only [Scanner.step] at hstep
    split at hstep
    · simp only [Option.some.injEq] at hstep
      subst hstep
      unfold Scanner.stop
      split <;> exact h
    · simp at hstep
  | main =>
    simp only [Scanner.step] at hstep
    unfold Scanner.mainStep at hstep
    cases hm : s.mainThread with
    | handler hh back =>
      simp only [hm, Option.some.injEq] at hstep
      subst hstep
      cases hh <;> exact h
    | stopClear =>
      simp only [hm] at hstep
      split at hstep <;> simp only [Option.some.injEq] at hstep <;> subst hstep
      · exact activeOk_clear h
      · exact h
    | _ =>
      simp only [hm] at hstep
      repeat' split at hstep
      all_goals first
        | (simp only [Option.some.injEq] at hstep
           subst hstep
           exact h)
        | simp at hstep
  | task i =>
    simp only [Scanner.step] at hstep
    cases ht : s.pool[i]? with
    | none => simp [ht] at hstep
    | some t =>
      simp only [ht] at hstep
      have hi : i < s.pool.length := (List.getElem?_eq_some_iff.1 ht).1
      have hrole := h.1 i t ht
      unfold Scanner.taskStep at hstep
      cases hpc : t.pc with
      | handler hh =>
        simp only [hpc, Option.some.injEq] at hstep
        subst hstep
        have key : ActiveOk (s.pool.set i { t with pc := (match s.otfNext hh with
             | some h' => PC.handler h'
             | none => Scanner.afterScan t) }) s.m_activeTasks := by
          apply activeOk_set_same h i t _ ht
          · cases s.otfNext hh with
            | none => exact roleOk_afterScan t
            | some h' => rfl
          · cases s.otfNext hh with
            | none =>
              simp only [Task.counted, hpc, counted_afterScan]
              simp [PC.counted]
            | some h' => simp [Task.counted, hpc, PC.counted]
        cases hh <;> exact key
      | dirRun item e rest =>
        simp only [hpc, Option.some.injEq] at hstep
        subst hstep
        simp only [Scanner.goto, Scanner.setTask]
        have h1 := activeOk_append h
          { isRootTask := false, path := absoluteFilePath t.path e, dir := e,
            parent := item, pc := PC.queued } rfl
        have hid : wrapInt s.m_activeTasks = s.m_activeTasks := by
          rw [h.2]
          exact wrapInt_wrapInt _
        apply activeOk_set h1 i t { t with pc := PC.loop rest } (getElem?_append_of_some ht _) rfl
        simp only [Task.counted, hpc, PC.counted]
        cases t.isRootTask <;> simp <;> (revert hid; unfold wrapInt; omega)
      | dirIncrement item e rest =>
        simp only [hpc, Option.some.injEq] at hstep
        subst hstep
        simp only [Scanner.goto, Scanner.setTask]
        refine activeOk_set h i t _ ht rfl ?_
        simp only [Task.counted, hpc, PC.counted]
        congr 1
        omega
      | decrement =>
        simp only [hpc, Option.some.injEq] at hstep
        subst hstep
        simp only [Scanner.goto, Scanner.setTask]
        refine activeOk_set h i t _ ht ?_ ?_
        · simpa [hpc, PC.roleOk] using hrole
        · simp only [Task.counted, hpc, PC.counted]
          have hsub : t.isRootTask = false := by simpa [hpc, PC.roleOk] using hrole
          simp [hsub]
      | _ =>
        simp only [hpc] at hstep hrole
        repeat' split at hstep
        all_goals first
          | ((try simp only [Option.some.injEq] at hstep)
             subst hstep
             simp only [Scanner.goto, Scanner.setTask, Scanner.addChildRef, Scanner.emit]
             apply activeOk_set_same h i t _ ht
             · first
                 | exact roleOk_afterScan t
                 | simp_all [PC.roleOk]
             · simp only [Task.counted, hpc, counted_afterScan]
               simp_all [PC.counted, PC.roleOk])
          | simp at hstep


/-! ### Every scan without `stop()` runs to its end -/

theorem sum_map_set_nat (f : Task → Nat) (pool : List Task) (i : Nat) (t t' : Task)
    (ht : pool[i]? = some t) :
    ((pool.set i t').map f).sum + f t = (pool.map f).sum + f t' := by
  induction pool generalizing i with
  | nil => simp at ht
  | cons a as ih =>
    cases i with
    | zero =>
      simp at ht
      subst ht
      simp only [List.set_cons_zero, List.map_cons, List.sum_cons]
      omega
    | succ i =>
      simp at ht
      have := ih i ht
      simp only [List.set_cons_succ, List.map_cons, List.sum_cons]
      omega

theorem loopCost_append (as bs : List Entry) :
    loopCost (as ++ bs) = loopCost as + loopCost bs := by
  induction as with
  | nil => simp [loopCost]
  | cons a as ih =>
    rw [List.cons_append]
    simp only [loopCost, ih]
    omega

theorem loopCost_dirsFirst (es : List Entry) :
    loopCost (es.filter (fun e => e.isDir) ++ es.filter (fun e => !e.isDir)) = loopCost es := by
  rw [loopCost_append]
  induction es with
  | nil => simp [loopCost]
  | cons a as ih =>
    cases ha : a.isDir <;> simp only [List.filter_cons, ha, Bool.not_false, Bool.not_true,
      if_true, if_false, Bool.false_eq_true, loopCost] <;> omega

theorem loopCost_entryInfoList (d : Entry) :
    loopCost (d.entryInfoList true) = loopCost d.entries := by
  simp only [Entry.entryInfoList, if_true]
  exact loopCost_dirsFirst d.entries

theorem scanCost_eq (e : Entry) : scanCost e = 24 + loopCost e.entries := by
  cases e <;> simp [scanCost, Entry.entries, loopCost]

theorem cost_afterScan (t : Task) (l : List Entry) : (Scanner.afterScan t).cost l ≤ 13 := by
  unfold Scanner.afterScan
  split <;> simp [PC.cost]

theorem sum_cost_dispatch (pool : List Task) (i : Nat) (t t' new : Task)
    (ht : pool[i]? = some t) :
    (((pool ++ [new]).set i t').map Task.cost).sum + t.cost =
      (pool.map Task.cost).sum + new.cost + t'.cost := by
  have := sum_map_set_nat Task.cost (pool ++ [new]) i t t' (getElem?_append_of_some ht _)
  simp only [List.map_append, List.sum_append, List.map_cons, List.map_nil,
    List.sum_cons, List.sum_nil] at this
  omega

theorem cost_set {s : Scanner} {i : Nat} {t t' : Task} (ht : s.pool[i]? = some t)
    (pool' : List Task) (p' : Nat) (m' : MainPC) (extra : Nat)
    (hp : (pool'.map Task.cost).sum = ((s.pool.set i t').map Task.cost).sum + extra)
    (hlt : t'.cost + extra + 6 * p' + m'.cost <
      t.cost + 6 * s.pendingCalls + s.mainThread.cost) :
    (pool'.map Task.cost).sum + 6 * p' + m'.cost < s.cost := by
  have := sum_map_set_nat Task.cost s.pool i t t' ht
  unfold Scanner.cost
  omega

theorem cost_step (s s' : Scanner) (a : Action) (ha : a.internal = true)
    (hn : s.mainThread.inLoop = true) (hstep : s.step a = some s') :
    s'.cost < s.cost ∧ s'.mainThread.inLoop = true := by
  cases a with
  | start => simp [Action.internal] at ha
  | stop => simp [Action.internal] at ha
  | main =>
    simp only [Scanner.step] at hstep
    unfold Scanner.mainStep at hstep
    cases hm : s.mainThread with
    | handler hh back =>
      rw [hm] at hn
      cases back with
      | some k => simp [MainPC.inLoop] at hn
      | none =>
        simp only [hm, Option.some.injEq] at hstep
        subst hstep
        cases hh <;> cases hc : s.m_cancelRequested <;>
          simp [Scanner.cost, Scanner.otfState, Scanner.otfNext, Scanner.emit, hm, hc,
            MainPC.cost, Otf.cost, MainPC.inLoop]
    | idle =>
      simp only [hm] at hstep
      split at hstep
      · simp only [Option.some.injEq] at hstep
        subst hstep
        refine ⟨?_, rfl⟩
        simp only [Scanner.cost, hm, MainPC.cost, Otf.cost]
        omega
      · simp at hstep
    | _ => rw [hm] at hn; simp [MainPC.inLoop] at hn
  | task i =>
    simp only [Scanner.step] at hstep
    cases ht : s.pool[i]? with
    | none => simp [ht] at hstep
    | some t =>
      simp only [ht] at hstep
      have hi : i < s.pool.length := (List.getElem?_eq_some_iff.1 ht).1
      have hL := loopCost_entryInfoList t.dir
      unfold Scanner.taskStep at hstep
      cases hpc : t.pc with
      | handler hh =>
        simp only [hpc, Option.some.injEq] at hstep
        subst hstep
        have hA := cost_afterScan t t.dir.entries
        refine ⟨?_, by cases hh <;> exact hn⟩
        have key : ∀ pc', PC.cost t.dir.entries pc' < 13 + hh.cost →
            ((s.pool.set i { t with pc := pc' }).map Task.cost).sum + 6 * s.pendingCalls +
              s.mainThread.cost < s.cost := by
          intro pc' hlt
          apply cost_set ht _ _ _ 0 rfl
          have h0 : PC.cost t.dir.entries (PC.handler hh) = 13 + hh.cost := rfl
          simp only [Task.cost, hpc, h0]
          omega
        have key2 : PC.cost t.dir.entries (match s.otfNext hh with
             | some h' => PC.handler h'
             | none => Scanner.afterScan t) < 13 + hh.cost := by
          cases hh with
          | enter =>
            cases hc : s.m_cancelRequested <;> simp [Scanner.otfNext, hc, PC.cost, Otf.cost]
          | running => simp only [Scanner.otfNext, Otf.cost]; omega
          | _ => simp [Scanner.otfNext, PC.cost, Otf.cost]
        have := key _ key2
        cases hh <;> exact this
      | dirRun item e rest =>
        simp only [hpc, Option.some.injEq] at hstep
        subst hstep
        refine ⟨?_, hn⟩
        simp only [Scanner.goto, Scanner.setTask, Scanner.cost]
        have h1 := sum_cost_dispatch s.pool i t { t with pc := PC.loop rest }
          ⟨false, absoluteFilePath t.path e, e, item, PC.queued⟩ ht
        simp only [Task.cost, hpc, PC.cost] at h1
        have h2 := scanCost_eq e
        omega
      | _ =>
        simp only [hpc] at hstep
        repeat' split at hstep
        all_goals first
          | ((try simp only [Option.some.injEq] at hstep)
             subst hstep
             have hA := cost_afterScan t t.dir.entries
             refine ⟨?_, hn⟩
             simp only [Scanner.goto, Scanner.setTask, Scanner.addChildRef, Scanner.emit]
             apply cost_set ht _ _ _ 0 rfl
             simp only [Task.cost, hpc, PC.cost, Otf.cost, loopCost, hL] at hA ⊢
             omega)
          | simp at hstep
theorem isCleared_afterScan (t : Task) : (Scanner.afterScan t).isCleared = false := by
  unfold Scanner.afterScan; split <;> rfl

/-- Without `stop()` no task is dropped from the queue and the object's thread
stays in its event loop. -/
theorem noStop_step (s s' : Scanner) (a : Action) (ha : a.internal = true) (h : NoStop s)
    (hstep : s.step a = some s') : NoStop s' := by
  obtain ⟨hn, hmax, hcl⟩ := h
  refine ⟨(cost_step s s' a ha hn hstep).2, ?_⟩
  cases a with
  | start => simp [Action.internal] at ha
  | stop => simp [Action.internal] at ha
  | main =>
    simp only [Scanner.step] at hstep
    unfold Scanner.mainStep at hstep
    cases hm : s.mainThread with
    | handler hh back =>
      simp only [hm, Option.some.injEq] at hstep
      subst hstep
      cases hh <;> exact ⟨hmax, hcl⟩
    | idle =>
      simp only [hm] at hstep
      split at hstep
      · simp only [Option.some.injEq] at hstep
        subst hstep
        exact ⟨hmax, hcl⟩
      · simp at hstep
    | _ => rw [hm] at hn; simp [MainPC.inLoop] at hn
  | task i =>
    simp only [Scanner.step] at hstep
    cases ht : s.pool[i]? with
    | none => simp [ht] at hstep
    | some t =>
      simp only [ht] at hstep
      unfold Scanner.taskStep at hstep
      cases hpc : t.pc with
      | handler hh =>
        simp only [hpc, Option.some.injEq] at hstep
        subst hstep
        have key : ∀ (j : Nat) (tj : Task), (s.pool.set i { t with pc := (match s.otfNext hh with
             | some h' => PC.handler h'
             | none => Scanner.afterScan t) })[j]? = some tj → tj.pc.isCleared = false := by
          refine forall_pool_set (fun j tj _ => hcl j tj) ?_
          cases s.otfNext hh with
          | none => exact isCleared_afterScan t
          | some h' => rfl
        cases hh <;> exact ⟨hmax, key⟩
      | dirRun item e rest =>
        simp only [hpc, Option.some.injEq] at hstep
        subst hstep
        refine ⟨hmax, ?_⟩
        simp only [Scanner.goto, Scanner.setTask]
        refine forall_pool_set ?_ rfl
        intro j tj _ hj
        rcases Nat.lt_or_ge j s.pool.length with hlt | hge
        · rw [List.getElem?_append_left hlt] at hj
          exact hcl j tj hj
        · rw [List.getElem?_append_right hge] at hj
          cases hk : j - s.pool.length with
          | zero =>
            simp only [hk, List.getElem?_cons_zero, Option.some.injEq] at hj
            subst hj; rfl
          | succ k => simp [hk] at hj
      | _ =>
        simp only [hpc] at hstep
        repeat' split at hstep
        all_goals first
          | ((try simp only [Option.some.injEq] at hstep)
             subst hstep
             refine ⟨hmax, ?_⟩
             simp only [Scanner.goto, Scanner.setTask, Scanner.addChildRef, Scanner.emit]
             refine forall_pool_set (fun j tj _ => hcl j tj) ?_
             first
               | exact isCleared_afterScan t
               | rfl)
          | simp at hstep

theorem isDone_of_idle {pc : PC} (h1 : pc.onThread = false) (h2 : pc.isCleared = false)
    (h3 : pc ≠ PC.queued) : pc.isDone = true := by
  cases pc <;> simp_all [PC.onThread, PC.isCleared, PC.isDone]

/-- In a scan without `stop()`, as long as something is left to run some thread
can make a step: a task inside the locked block if there is one, else any
started task, else a queued task (a pool thread is free), else the object's
thread. -/
theorem step_enabled (s : Scanner) (tree : FileItem) (h : ScanOk s tree) (hn : NoStop s)
    (hr : ¬ s.atRest) : ∃ (a : Action) (s' : Scanner), a.internal = true ∧ s.step a = some s' := by
  obtain ⟨⟨hitems, hroot, -, hrefs⟩, hlock, hbound, -, -⟩ := h
  obtain ⟨hmain, hmax, hcl⟩ := hn
  have some_of : ∀ (a : Action), a.internal = true → (s.step a).isSome = true →
      ∃ (a : Action) (s' : Scanner), a.internal = true ∧ s.step a = some s' := by
    intro a ha hs
    obtain ⟨s', hs'⟩ := Option.isSome_iff_exists.1 hs
    exact ⟨a, s', ha, hs'⟩
  by_cases hA : ∃ (j : Nat) (tj : Task), s.pool[j]? = some tj ∧ tj.pc.onThread = true
  · obtain ⟨j, tj, hj, hon⟩ := hA
    cases hmx : s.m_mutex with
    | some m =>
      have hm := hbound m hmx
      have hmt : s.pool[m]? = some s.pool[m] := List.getElem?_eq_getElem hm
      have hin := (hlock m s.pool[m] hmt).2 hmx
      apply some_of (Action.task m) rfl
      simp only [Scanner.step, hmt]
      unfold Scanner.taskStep
      cases hpc : (s.pool[m]).pc <;> simp [hpc, PC.inLock] at hin ⊢
    | none =>
      obtain ⟨⟨hr0, node, hnode, -⟩, -⟩ := hrefs j tj hj
      have hd : s.deref tj.parent = some node := by
        simp [Scanner.deref, hitems, hr0, hnode]
      apply some_of (Action.task j) rfl
      simp only [Scanner.step, hj]
      unfold Scanner.taskStep
      cases hpc : tj.pc with
      | loop entries =>
        cases entries with
        | nil => simp
        | cons e rest =>
          simp only
          repeat' split
          all_goals simp
      | _ =>
        first
          | (simp [hpc, PC.onThread] at hon; done)
          | (simp only [hpc, hmx, hroot, hd]
             first
               | (simp; done)
               | (repeat' split
                  all_goals simp))
  · have hoff : ∀ (j : Nat) (tj : Task), s.pool[j]? = some tj → tj.pc.onThread = false := by
      intro j tj hj
      cases hon : tj.pc.onThread with
      | false => rfl
      | true => exact absurd ⟨j, tj, hj, hon⟩ hA
    by_cases hB : ∃ (j : Nat) (tj : Task), s.pool[j]? = some tj ∧ tj.pc = PC.queued
    · obtain ⟨j, tj, hj, hq⟩ := hB
      have hbusy : s.busyThreads = 0 := by
        simp only [Scanner.busyThreads, List.countP_eq_zero]
        intro t ht
        obtain ⟨k, hk⟩ := List.getElem?_of_mem ht
        simp [hoff k t hk]
      apply some_of (Action.task j) rfl
      simp only [Scanner.step, hj]
      unfold Scanner.taskStep
      simp [hq, hbusy, hmax]
    · have hdone : s.pool.all (fun t => t.pc.isDone) = true := by
        rw [List.all_eq_true]
        intro t ht
        obtain ⟨k, hk⟩ := List.getElem?_of_mem ht
        have h1 := hoff k t hk
        have h2 := hcl k t hk
        have h3 : t.pc ≠ PC.queued := fun hq => hB ⟨k, t, hk, hq⟩
        exact isDone_of_idle h1 h2 h3
      apply some_of Action.main rfl
      simp only [Scanner.step]
      unfold Scanner.mainStep
      cases hm : s.mainThread with
      | idle =>
        have hp : s.pendingCalls ≠ 0 := fun hp => hr ⟨hdone, hp, hm⟩
        have : s.pendingCalls > 0 := Nat.pos_of_ne_zero hp
        simp [this]
      | handler hh back => simp
      | _ => rw [hm] at hmain; simp [MainPC.inLoop] at hmain

/-- Every scan without `stop()` can be run to its end: from a state that
satisfies the invariants of one scan there is a schedule, of no more steps than
the bound `Scanner.cost`, after which nothing is left to run. -/
theorem scan_terminates (k : Nat) :
    ∀ (s : Scanner) (tree : FileItem), s.cost ≤ k → ScanOk s tree → NoStop s →
      ∃ (sched : List Action) (s' : Scanner), sched.all Action.internal = true ∧
        s.run sched = some s' ∧ s'.atRest := by
  induction k with
  | zero =>
    intro s tree hk h hn
    by_cases hr : s.atRest
    · exact ⟨[], s, rfl, rfl, hr⟩
    · obtain ⟨a, s1, ha, hs⟩ := step_enabled s tree h hn hr
      have := (cost_step s s1 a ha hn.1 hs).1
      omega
  | succ k ih =>
    intro s tree hk h hn
    by_cases hr : s.atRest
    · exact ⟨[], s, rfl, rfl, hr⟩
    · obtain ⟨a, s1, ha, hs⟩ := step_enabled s tree h hn hr
      have hlt := (cost_step s s1 a ha hn.1 hs).1
      have hns := internal_notStart ha
      obtain ⟨tree1, g1⟩ := refsOk_step s s1 a tree hns h.1 hs
      have g2 := countersOk_step s s1 a tree tree1 hns h.1 h.2 hs g1.1
      obtain ⟨sched, s', h1, h2, h3⟩ := ih s1 tree1 (by omega) ⟨g1, g2⟩
        (noStop_step s s1 a ha hn hs)
      refine ⟨a :: sched, s', ?_, ?_, h3⟩
      · simp [ha, h1]
      · simp [Scanner.run, hs, h2]

/-! ### The completion signal of a scan without `stop()` -/

theorem finishedCount_append (as bs : List Event) :
    finishedCount (as ++ bs) = finishedCount as + finishedCount bs := by
  simp [finishedCount, List.countP_append]

theorem finishedCount_emit (evs : List Event) (ev : Event) :
    finishedCount (evs ++ [ev]) =
      finishedCount evs + (match ev with | Event.finished _ => 1 | _ => 0) := by
  rw [finishedCount_append]
  cases ev <;> simp [finishedCount]

/-- How a disjunction "a global condition holds or some task satisfies `P`"
passes through the replacement of one task. -/
theorem exists_pool_set {P : Task → Prop} {G G' : Prop} {pool : List Task} {i : Nat}
    {t t' : Task} (ht : pool[i]? = some t)
    (h : G ∨ ∃ (j : Nat) (tj : Task), pool[j]? = some tj ∧ P tj)
    (hG : G → G' ∨ P t') (hP : P t → G' ∨ P t') :
    G' ∨ ∃ (j : Nat) (tj : Task), (pool.set i t')[j]? = some tj ∧ P tj := by
  have hi : i < pool.length := (List.getElem?_eq_some_iff.1 ht).1
  have self : P t' → ∃ (j : Nat) (tj : Task), (pool.set i t')[j]? = some tj ∧ P tj :=
    fun hp => ⟨i, t', by simp [hi], hp⟩
  rcases h with hg | ⟨j, tj, hj, hp⟩
  · rcases hG hg with h1 | h1
    · exact Or.inl h1
    · exact Or.inr (self h1)
  · by_cases hji : j = i
    · subst hji
      rw [ht] at hj
      simp only [Option.some.injEq] at hj
      subst hj
      rcases hP hp with h1 | h1
      · exact Or.inl h1
      · exact Or.inr (self h1)
    · exact Or.inr ⟨j, tj, by rw [List.getElem?_set_ne (fun h => hji h.symm)]; exact hj, hp⟩

theorem exists_pool_append {P : Task → Prop} {G : Prop} {pool : List Task}
    (h : G ∨ ∃ (j : Nat) (tj : Task), pool[j]? = some tj ∧ P tj) (extra : List Task) :
    G ∨ ∃ (j : Nat) (tj : Task), (pool ++ extra)[j]? = some tj ∧ P tj := by
  rcases h with hg | ⟨j, tj, hj, hp⟩
  · exact Or.inl hg
  · exact Or.inr ⟨j, tj, getElem?_append_of_some hj _, hp⟩

theorem promises_afterScan_false (t : Task) :
    (Scanner.afterScan t).promises t.isRootTask = false := by
  unfold Scanner.afterScan
  cases t.isRootTask <;> rfl

theorem atRunning_afterScan (t : Task) : (Scanner.afterScan t).atRunning = false := by
  unfold Scanner.afterScan
  split <;> rfl

/-- While the counter is not at zero, some task is counted as outstanding. -/
theorem exists_owes {pool : List Task} {a : Int} (h : ActiveOk pool a) (ha : a ≠ 0) :
    ∃ (j : Nat) (tj : Task), pool[j]? = some tj ∧ tj.owes := by
  have hsum : (pool.map Task.counted).sum ≠ 0 := by
    intro h0
    apply ha
    rw [h.2, h0]
    decide
  by_contra hno
  apply hsum
  apply List.sum_eq_zero
  intro x hx
  obtain ⟨t, ht, rfl⟩ := List.mem_map.1 hx
  by_contra hne
  obtain ⟨j, hj⟩ := List.mem_iff_getElem?.1 ht
  exact hno ⟨j, t, hj, Or.inr hne⟩

theorem signalDue_task (s s' : Scanner) (i : Nat) (t : Task) (ht : s.pool[i]? = some t)
    (hc : s.m_cancelRequested = false) (hact : ActiveOk s'.pool s'.m_activeTasks)
    (hroot : t.isRootTask = true → t.path = s.m_rootPath ∧ t.dir.dirExists = true)
    (h : SignalDue s) (hstep : s.taskStep i t = some s') : SignalDue s' := by
  unfold Scanner.taskStep at hstep
  unfold SignalDue at h ⊢
  cases hpc : t.pc with
  | handler hh =>
    simp only [hpc, Option.some.injEq] at hstep
    subst hstep
    clear hact
    cases hh <;>
      simp only [Scanner.otfState, Scanner.otfNext, Scanner.emit, Scanner.goto,
        Scanner.setTask, hc, finishedCount_emit, Bool.false_eq_true, if_false] <;>
      apply exists_pool_set ht h <;>
      cases hr : t.isRootTask <;>
      (simp [Task.owes, Task.counted, hpc, hr, PC.promises, PC.counted, Otf.willFinish,
        Scanner.afterScan]; try tauto)
  | dirRun item e rest =>
    simp only [hpc, Option.some.injEq] at hstep
    subst hstep
    clear hact
    simp only [Scanner.goto, Scanner.setTask]
    apply exists_pool_set (getElem?_append_of_some ht _) (exists_pool_append h _) <;>
      cases hr : t.isRootTask <;>
      simp [Task.owes, Task.counted, hpc, hr, PC.promises, PC.counted]
  | rootCheck =>
    have hi : i < s.pool.length := (List.getElem?_eq_some_iff.1 ht).1
    simp only [hpc] at hstep
    split at hstep <;> simp only [Option.some.injEq] at hstep <;> subst hstep <;>
      simp only [Scanner.goto, Scanner.setTask] at hact ⊢
    · refine Or.inr ⟨i, _, List.getElem?_set_self hi, ?_⟩
      unfold Task.owes
      exact Or.inl rfl
    · rename_i hne
      by_cases hr : t.isRootTask = true
      · have hp := (hroot hr).1
        have hne2 : s.m_activeTasks ≠ 0 := by simpa [hp] using hne
        exact Or.inr (exists_owes hact hne2)
      · have hr2 : t.isRootTask = false := by simpa using hr
        refine Or.inr ⟨i, _, List.getElem?_set_self hi, ?_⟩
        unfold Task.owes
        right
        simp [Task.counted, Scanner.afterScan, hr2, PC.counted]
  | zeroCheck =>
    have hi : i < s.pool.length := (List.getElem?_eq_some_iff.1 ht).1
    simp only [hpc] at hstep
    split at hstep <;> simp only [Option.some.injEq] at hstep <;> subst hstep <;>
      simp only [Scanner.goto, Scanner.setTask] at hact ⊢
    · refine Or.inr ⟨i, _, List.getElem?_set_self hi, ?_⟩
      unfold Task.owes
      exact Or.inl rfl
    · rename_i hne
      have hne2 : s.m_activeTasks ≠ 0 := by simpa using hne
      exact Or.inr (exists_owes hact hne2)
  | _ =>
    simp only [hpc] at hstep
    repeat' split at hstep
    all_goals first
      | ((try simp only [Option.some.injEq] at hstep)
         subst hstep
         simp only [Scanner.goto, Scanner.setTask, Scanner.addChildRef, Scanner.emit,
           finishedCount_emit] at hact ⊢
         cases hr : t.isRootTask <;>
           refine exists_pool_set ht h ?_ ?_ <;> clear h hact <;> intro hyp <;>
           simp only [Task.owes, Task.counted, hpc, hr, PC.promises, PC.counted,
             Otf.willFinish, Scanner.afterScan, Bool.false_eq_true, or_false, add_zero,
             if_false, if_true] at hyp ⊢ <;>
           (first
             | exact Or.inl hyp
             | simp_all))
      | simp at hstep

theorem signalDue_main (s s' : Scanner) (hc : s.m_cancelRequested = false)
    (hn : s.mainThread.inLoop = true) (h : SignalDue s) (hstep : s.mainStep = some s') :
    SignalDue s' := by
  unfold Scanner.mainStep at hstep
  unfold SignalDue at h ⊢
  cases hm : s.mainThread with
  | handler hh back =>
    simp only [hm, Option.some.injEq] at hstep
    subst hstep
    rw [hm] at h
    cases hh <;>
      simp only [Scanner.otfState, Scanner.otfNext, Scanner.emit, hc, finishedCount_emit,
        Bool.false_eq_true, if_false, MainPC.willSignal, Otf.willFinish, add_zero] at h ⊢ <;>
      first
        | exact h
        | simp
        | (rcases h with (h | h | h) | h
           · exact Or.inl (Or.inl h)
           · exact Or.inl (Or.inr (Or.inl h))
           · simp at h
           · exact Or.inr h)
  | idle =>
    simp only [hm] at hstep
    split at hstep
    · simp only [Option.some.injEq] at hstep
      subst hstep
      exact Or.inl (Or.inr (Or.inr rfl))
    · simp at hstep
  | _ => rw [hm] at hn; simp [MainPC.inLoop] at hn

theorem runningCleared_task (s s' : Scanner) (i : Nat) (t : Task) (ht : s.pool[i]? = some t)
    (h : RunningCleared s) (hstep : s.taskStep i t = some s') : RunningCleared s' := by
  unfold Scanner.taskStep at hstep
  unfold RunningCleared at h ⊢
  cases hpc : t.pc with
  | handler hh =>
    simp only [hpc, Option.some.injEq] at hstep
    subst hstep
    cases hh <;> cases hc : s.m_cancelRequested <;>
      simp only [Scanner.otfState, Scanner.otfNext, Scanner.emit, Scanner.goto,
        Scanner.setTask, hc, finishedCount_emit, Bool.false_eq_true, if_false, if_true,
        add_zero] <;>
      refine exists_pool_set ht h ?_ ?_ <;> clear h <;> intro hyp <;>
      simp only [hpc, PC.atRunning, atRunning_afterScan, Bool.false_eq_true, or_false,
        or_true, true_or] at hyp ⊢ <;>
      first
        | exact Or.inl hyp
        | exact hyp
  | dirRun item e rest =>
    simp only [hpc, Option.some.injEq] at hstep
    subst hstep
    simp only [Scanner.goto, Scanner.setTask]
    refine exists_pool_set (getElem?_append_of_some ht _) (exists_pool_append h _) ?_ ?_ <;>
      clear h <;> intro hyp
    · exact Or.inl hyp
    · simp [hpc, PC.atRunning] at hyp
  | _ =>
    simp only [hpc] at hstep
    repeat' split at hstep
    all_goals first
      | ((try simp only [Option.some.injEq] at hstep)
         subst hstep
         simp only [Scanner.goto, Scanner.setTask, Scanner.addChildRef, Scanner.emit,
           finishedCount_emit, add_zero]
         refine exists_pool_set ht h ?_ ?_ <;> clear h <;> intro hyp
         · exact Or.inl hyp
         · simp [hpc, PC.atRunning] at hyp)
      | simp at hstep

theorem runningCleared_main (s s' : Scanner) (hn : s.mainThread.inLoop = true)
    (h : RunningCleared s) (hstep : s.mainStep = some s') : RunningCleared s' := by
  unfold Scanner.mainStep at hstep
  unfold RunningCleared at h ⊢
  cases hm : s.mainThread with
  | handler hh back =>
    simp only [hm, Option.some.injEq] at hstep
    subst hstep
    rw [hm] at h
    cases back with
    | some k => rw [hm] at hn; simp [MainPC.inLoop] at hn
    | none =>
      cases hh <;> cases hc : s.m_cancelRequested <;>
        simp only [Scanner.otfState, Scanner.otfNext, Scanner.emit, hc, finishedCount_emit,
          Bool.false_eq_true, if_false, if_true, MainPC.atRunning, add_zero, or_false,
          or_true, true_or] at h ⊢ <;>
        exact h
  | idle =>
    simp only [hm] at hstep
    split at hstep
    · simp only [Option.some.injEq] at hstep
      subst hstep
      rw [hm] at h
      simp only [MainPC.atRunning, Bool.false_eq_true, or_false] at h ⊢
      exact h
    · simp at hstep
  | _ => rw [hm] at hn; simp [MainPC.inLoop] at hn

theorem rootLive_step (s s' : Scanner) (a : Action) (ha : a.internal = true)
    (hn : s.mainThread.inLoop = true) (h : RootLive s) (hstep : s.step a = some s') :
    RootLive s' ∧ s'.m_cancelRequested = s.m_cancelRequested := by
  cases a with
  | start => simp [Action.internal] at ha
  | stop => simp [Action.internal] at ha
  | main =>
    simp only [Scanner.step] at hstep
    unfold Scanner.mainStep at hstep
    cases hm : s.mainThread with
    | handler hh back =>
      simp only [hm, Option.some.injEq] at hstep
      subst hstep
      cases hh <;> exact ⟨h, rfl⟩
    | idle =>
      simp only [hm] at hstep
      split at hstep
      · simp only [Option.some.injEq] at hstep
        subst hstep
        exact ⟨h, rfl⟩
      · simp at hstep
    | _ => rw [hm] at hn; simp [MainPC.inLoop] at hn
  | task i =>
    simp only [Scanner.step] at hstep
    cases ht : s.pool[i]? with
    | none => simp [ht] at hstep
    | some t =>
      simp only [ht] at hstep
      have hti := h i t ht
      unfold Scanner.taskStep at hstep
      cases hpc : t.pc with
      | handler hh =>
        simp only [hpc, Option.some.injEq] at hstep
        subst hstep
        have key : ∀ (j : Nat) (tj : Task), (s.pool.set i { t with pc := (match s.otfNext hh with
             | some h' => PC.handler h'
             | none => Scanner.afterScan t) })[j]? = some tj → tj.isRootTask = true →
             tj.path = s.m_rootPath ∧ tj.dir.dirExists = true :=
          forall_pool_set (fun j tj _ => h j tj) hti
        cases hh <;> exact ⟨key, rfl⟩
      | dirRun item e rest =>
        simp only [hpc, Option.some.injEq] at hstep
        subst hstep
        refine ⟨?_, rfl⟩
        simp only [Scanner.goto, Scanner.setTask]
        refine forall_pool_set ?_ hti
        intro j tj _ hj
        rcases Nat.lt_or_ge j s.pool.length with hlt | hge
        · rw [List.getElem?_append_left hlt] at hj
          exact h j tj hj
        · rw [List.getElem?_append_right hge] at hj
          cases hk : j - s.pool.length with
          | zero =>
            simp only [hk, List.getElem?_cons_zero, Option.some.injEq] at hj
            subst hj
            intro hr
            simp at hr
          | succ k => simp [hk] at hj
      | _ =>
        simp only [hpc] at hstep
        repeat' split at hstep
        all_goals first
          | ((try simp only [Option.some.injEq] at hstep)
             subst hstep
             refine ⟨?_, rfl⟩
             simp only [Scanner.goto, Scanner.setTask, Scanner.addChildRef, Scanner.emit]
             exact forall_pool_set (fun j tj _ => h j tj) hti)
          | simp at hstep

theorem completing_step (s s' : Scanner) (a : Action) (ha : a.internal = true)
    (hn : s.mainThread.inLoop = true) (hact : ActiveOk s.pool s.m_activeTasks)
    (h : Completing s) (hstep : s.step a = some s') : Completing s' := by
  have hact' := activeOk_step s s' a (internal_notStart ha) hact hstep
  obtain ⟨hc, hroot, hsig, hrun⟩ := h
  obtain ⟨hroot', hc'⟩ := rootLive_step s s' a ha hn hroot hstep
  refine ⟨hc'.trans hc, hroot', ?_, ?_⟩
  · cases a with
    | start => simp [Action.internal] at ha
    | stop => simp [Action.internal] at ha
    | main => exact signalDue_main s s' hc hn hsig hstep
    | task i =>
      simp only [Scanner.step] at hstep
      cases ht : s.pool[i]? with
      | none => simp [ht] at hstep
      | some t =>
        simp only [ht] at hstep
        exact signalDue_task s s' i t ht hc hact' (hroot i t ht) hsig hstep
  · cases a with
    | start => simp [Action.internal] at ha
    | stop => simp [Action.internal] at ha
    | main => exact runningCleared_main s s' hn hrun hstep
    | task i =>
      simp only [Scanner.step] at hstep
      cases ht : s.pool[i]? with
      | none => simp [ht] at hstep
      | some t =>
        simp only [ht] at hstep
        exact runningCleared_task s s' i t ht hrun hstep

/-- At rest the counter is at zero. -/
theorem activeOk_atRest {pool : List Task} {a : Int} (h : ActiveOk pool a)
    (hd : pool.all (fun t => t.pc.isDone) = true) : a = 0 := by
  rw [h.2]
  rw [List.all_eq_true] at hd
  have : ∀ t ∈ pool, Task.counted t = 0 := by
    intro t ht
    have := hd t ht
    unfold Task.counted
    cases hpc : t.pc <;> simp_all [PC.isDone, PC.counted]
  have hsum : (pool.map Task.counted).sum = 0 := by
    apply List.sum_eq_zero
    intro x hx
    obtain ⟨t, ht, rfl⟩ := List.mem_map.1 hx
    exact this t ht
  rw [hsum]
  decide

/-- At rest, a scan of an existing root without `stop()` has emitted `finished`
and has set `m_running` to false. -/
theorem completing_atRest {s : Scanner} (h : Completing s) (hr : s.atRest) :
    0 < finishedCount s.events ∧ s.m_running = false := by
  obtain ⟨hd, hp, hm⟩ := hr
  obtain ⟨-, -, hsig, hrun⟩ := h
  rw [List.all_eq_true] at hd
  have hfin : 0 < finishedCount s.events := by
    rcases hsig with (h1 | h1 | h1) | ⟨j, tj, hj, h1⟩
    · exact h1
    · omega
    · rw [hm] at h1; simp [MainPC.willSignal] at h1
    · have := hd tj (List.getElem?_mem hj)
      cases hpc : tj.pc <;>
        simp_all [Task.owes, Task.counted, PC.counted, PC.isDone, PC.promises]
  refine ⟨hfin, ?_⟩
  rcases hrun with (h1 | h1 | h1) | ⟨j, tj, hj, h1⟩
  · omega
  · exact h1
  · rw [hm] at h1; simp [MainPC.atRunning] at h1
  · have := hd tj (List.getElem?_mem hj)
    cases hpc : tj.pc <;> simp_all [PC.isDone, PC.atRunning]

theorem activeOk_start (path : String) (fs : Entry) (n : Nat) :
    ActiveOk ((Scanner.init path fs n).start).pool ((Scanner.init path fs n).start).m_activeTasks := by
  refine ⟨?_, ?_⟩
  · intro j tj hj
    cases j with
    | zero =>
      simp only [Scanner.start, Scanner.init, Bool.false_eq_true, if_false, List.nil_append,
        List.getElem?_cons_zero, Option.some.injEq] at hj
      subst hj
      rfl
    | succ j => simp [Scanner.start, Scanner.init] at hj
  · simp only [Scanner.start, Scanner.init, Task.counted, PC.counted, Bool.false_eq_true,
      if_false, if_true, List.nil_append, List.map_cons, List.map_nil, List.sum_cons,
      List.sum_nil]
    decide

theorem noStop_start (path : String) (fs : Entry) (n : Nat) :
    NoStop ((Scanner.init path fs n).start) := by
  refine ⟨rfl, ?_, ?_⟩
  · simp only [Scanner.start, Scanner.init, Bool.false_eq_true, if_false]
    split <;> omega
  · intro j tj hj
    cases j with
    | zero =>
      simp only [Scanner.start, Scanner.init, Bool.false_eq_true, if_false, List.nil_append,
        List.getElem?_cons_zero, Option.some.injEq] at hj
      subst hj
      rfl
    | succ j => simp [Scanner.start, Scanner.init] at hj

theorem completing_start (path : String) (fs : Entry) (n : Nat) (hfs : fs.dirExists = true) :
    Completing ((Scanner.init path fs n).start) := by
  refine ⟨rfl, ?_, Or.inr ⟨0, _, rfl, Or.inl rfl⟩, Or.inl (Or.inl rfl)⟩
  intro j tj hj _
  cases j with
  | zero =>
    simp only [Scanner.start, Scanner.init, Bool.false_eq_true, if_false, List.nil_append,
      List.getElem?_cons_zero, Option.some.injEq] at hj
    subst hj
    exact ⟨rfl, hfs⟩
  | succ j => simp [Scanner.start, Scanner.init] at hj

/-- The counter invariant in every state of one scan, cancelled or not. -/
theorem active_run (sched : List Action) :
    ∀ (s s' : Scanner), sched.all Action.notStart = true →
      ActiveOk s.pool s.m_activeTasks → s.run sched = some s' →
      ActiveOk s'.pool s'.m_activeTasks := by
  induction sched with
  | nil =>
    intro s s' _ h hr
    simp only [Scanner.run, Option.some.injEq] at hr
    subst hr
    exact h
  | cons a as ih =>
    intro s s' hall h hr
    simp only [List.all_cons, Bool.and_eq_true] at hall
    simp only [Scanner.run] at hr
    cases hs : s.step a with
    | none => simp [hs] at hr
    | some s1 =>
      simp only [hs] at hr
      exact ih s1 s' hall.2 (activeOk_step s s1 a hall.1 h hs) hr

/-- The invariants that lead a scan without `stop()` to its completion signal,
in every state of every run. -/
theorem live_run (sched : List Action) :
    ∀ (s s' : Scanner), sched.all Action.internal = true →
      ActiveOk s.pool s.m_activeTasks → NoStop s → Completing s → s.run sched = some s' →
      ActiveOk s'.pool s'.m_activeTasks ∧ NoStop s' ∧ Completing s' := by
  induction sched with
  | nil =>
    intro s s' _ h1 h2 h3 hr
    simp only [Scanner.run, Option.some.injEq] at hr
    subst hr
    exact ⟨h1, h2, h3⟩
  | cons a as ih =>
    intro s s' hall h1 h2 h3 hr
    simp only [List.all_cons, Bool.and_eq_true] at hall
    simp only [Scanner.run] at hr
    cases hs : s.step a with
    | none => simp [hs] at hr
    | some s1 =>
      simp only [hs] at hr
      exact ih s1 s' hall.2 (activeOk_step s s1 a (internal_notStart hall.1) h1 hs)
        (noStop_step s s1 a hall.1 h2 hs) (completing_step s s1 a hall.1 h2.1 h1 h3 hs) hr

/-! ### The `error` signals of a scan without `stop()` -/

theorem errorsOf_emit (evs : List Event) (ev : Event) :
    errorsOf (evs ++ [ev]) =
      errorsOf evs ++ (match ev with | Event.error m => [m] | _ => []) := by
  cases ev <;> simp [errorsOf, List.filterMap_append]

theorem errorTally_set (m : String) (pool : List Task) (i : Nat) (t t' : Task)
    (ht : pool[i]? = some t) :
    errorTally m (pool.set i t') +
        (if t.errored && decide (t.errorMessage = m) then 1 else 0) =
      errorTally m pool + (if t'.errored && decide (t'.errorMessage = m) then 1 else 0) :=
  sum_map_set_nat _ pool i t t' ht

theorem errorTally_append (m : String) (pool : List Task) (new : Task)
    (hn : new.errored = false) : errorTally m (pool ++ [new]) = errorTally m pool := by
  simp [errorTally, hn]

theorem errorsOk_set {events : List Event} {pool : List Task} (h : ErrorsOk events pool)
    (i : Nat) (t t' : Task) (ht : pool[i]? = some t) (hd : t'.dir = t.dir)
    (hp : t'.path = t.path) (h1 : t'.pc.inLoop = true → t.dir.dirExists = true)
    (h2 : t'.pc.pastLoop = t.pc.pastLoop ∨ t.dir.dirExists = true) :
    ErrorsOk events (pool.set i t') := by
  refine ⟨forall_pool_set (fun j tj _ => h.1 j tj) (by rw [hd]; exact h1), ?_⟩
  intro m
  have := errorTally_set m pool i t t' ht
  have he : t'.errored = t.errored := by
    unfold Task.errored
    rw [hd]
    rcases h2 with h2 | h2
    · rw [h2]
    · simp [h2]
  have hm : t'.errorMessage = t.errorMessage := by
    unfold Task.errorMessage; rw [hp]
  rw [he, hm] at this
  have := h.2 m
  omega

theorem errorsOk_emit {events : List Event} {pool : List Task} (h : ErrorsOk events pool)
    {ev : Event} (hev : ∀ m, ev ≠ Event.error m) : ErrorsOk (events ++ [ev]) pool := by
  refine ⟨h.1, fun m => ?_⟩
  rw [errorsOf_emit]
  cases ev with
  | error m' => exact absurd rfl (hev m')
  | _ => simpa using h.2 m

theorem pastLoop_afterScan (t : Task) : (Scanner.afterScan t).pastLoop = true := by
  unfold Scanner.afterScan; split <;> rfl

theorem inLoop_afterScan (t : Task) : (Scanner.afterScan t).inLoop = false := by
  unfold Scanner.afterScan; split <;> rfl

theorem errorsOk_step (s s' : Scanner) (a : Action) (ha : a.internal = true)
    (hn : s.mainThread.inLoop = true) (hc : s.m_cancelRequested = false)
    (h : ErrorsOk s.events s.pool) (hstep : s.step a = some s') :
    ErrorsOk s'.events s'.pool := by
  cases a with
  | start => simp [Action.internal] at ha
  | stop => simp [Action.internal] at ha
  | main =>
    simp only [Scanner.step] at hstep
    unfold Scanner.mainStep at hstep
    cases hm : s.mainThread with
    | handler hh back =>
      simp only [hm, Option.some.injEq] at hstep
      subst hstep
      cases hh <;> simp only [Scanner.otfState, Scanner.emit] <;>
        first
          | exact h
          | exact errorsOk_emit h (by simp)
    | idle =>
      simp only [hm] at hstep
      split at hstep
      · simp only [Option.some.injEq] at hstep
        subst hstep
        exact h
      · simp at hstep
    | _ => rw [hm] at hn; simp [MainPC.inLoop] at hn
  | task i =>
    simp only [Scanner.step] at hstep
    cases ht : s.pool[i]? with
    | none => simp [ht] at hstep
    | some t =>
      simp only [ht] at hstep
      have hin := h.1 i t ht
      unfold Scanner.taskStep at hstep
      cases hpc : t.pc with
      | handler hh =>
        simp only [hpc, Option.some.injEq] at hstep
        subst hstep
        have key : ErrorsOk s.events (s.pool.set i { t with pc := (match s.otfNext hh with
             | some h' => PC.handler h'
             | none => Scanner.afterScan t) }) := by
          refine errorsOk_set h i t _ ht rfl rfl ?_ ?_
          · cases s.otfNext hh with
            | none => simp [inLoop_afterScan]
            | some h' => simp [PC.inLoop]
          · left
            cases s.otfNext hh with
            | none =>
              show (Scanner.afterScan t).pastLoop = t.pc.pastLoop
              rw [pastLoop_afterScan, hpc]; rfl
            | some h' => rw [hpc]; rfl
        cases hh <;> simp only [Scanner.otfState, Scanner.emit, Scanner.goto, Scanner.setTask] <;>
          first
            | exact key
            | exact errorsOk_emit key (by simp)
      | dirRun item e rest =>
        simp only [hpc, Option.some.injEq] at hstep
        subst hstep
        simp only [Scanner.goto, Scanner.setTask]
        have h1 : ErrorsOk s.events (s.pool ++ [⟨false, absoluteFilePath t.path e, e, item,
            PC.queued⟩]) := by
          refine ⟨?_, fun m => ?_⟩
          · intro j tj hj
            rcases Nat.lt_or_ge j s.pool.length with hlt | hge
            · rw [List.getElem?_append_left hlt] at hj
              exact h.1 j tj hj
            · rw [List.getElem?_append_right hge] at hj
              cases hk : j - s.pool.length with
              | zero =>
                simp only [hk, List.getElem?_cons_zero, Option.some.injEq] at hj
                subst hj
                intro hx
                simp [PC.inLoop] at hx
              | succ k => simp [hk] at hj
          · rw [errorTally_append _ _ _ (by simp [Task.errored, PC.pastLoop])]
            exact h.2 m
        refine errorsOk_set h1 i t _ (getElem?_append_of_some ht _) rfl rfl ?_ ?_
        · intro _; exact hin (by simp [hpc, PC.inLoop])
        · left; simp [hpc, PC.pastLoop]
      | scanExists =>
        simp only [hpc] at hstep
        split at hstep
        · rename_i hex
          simp only [Option.some.injEq] at hstep
          subst hstep
          have hex' : t.dir.dirExists = false := by simpa using hex
          simp only [Scanner.goto, Scanner.setTask, Scanner.emit]
          refine ⟨forall_pool_set (fun j tj _ => h.1 j tj) (by simp [inLoop_afterScan]), ?_⟩
          intro m
          have h3 := errorTally_set m s.pool i t { t with pc := Scanner.afterScan t } ht
          have h4 := h.2 m
          rw [errorsOf_emit]
          have hF : t.errored = false := by
            unfold Task.errored; rw [hpc]; simp [PC.pastLoop]
          have hF' : ({ t with pc := Scanner.afterScan t } : Task).errored = true := by
            show (!t.dir.dirExists && (Scanner.afterScan t).pastLoop) = true
            rw [pastLoop_afterScan, hex']; rfl
          rw [hF, hF'] at h3
          simp only [List.count_append, List.count_singleton, Task.errorMessage] at h3 ⊢
          by_cases hmm : "Директория не существует: " ++ t.path = m
          · simp [hmm] at h3 ⊢; omega
          · have hmm' : ¬ m = "Директория не существует: " ++ t.path := fun h => hmm h.symm
            simp [hmm, hmm'] at h3 ⊢; omega
        · rename_i hex
          simp only [Option.some.injEq] at hstep
          subst hstep
          have hex' : t.dir.dirExists = true := by simpa using hex
          simp only [Scanner.goto, Scanner.setTask]
          exact errorsOk_set h i t _ ht rfl rfl (fun _ => hex') (Or.inr hex')
      | _ =>
        simp only [hpc] at hstep
        repeat' split at hstep
        all_goals first
          | ((try simp only [Option.some.injEq] at hstep)
             subst hstep
             simp only [Scanner.goto, Scanner.setTask, Scanner.addChildRef, Scanner.emit]
             first
               | refine errorsOk_set h i t _ ht rfl rfl ?_ ?_
               | (refine errorsOk_emit ?_ ?_
                  refine errorsOk_set h i t _ ht rfl rfl ?_ ?_)
             all_goals first
               | (intro m hm; cases hm)
               | (intro _; apply hin; rw [hpc]; rfl)
               | (intro hx; cases hx)
               | (intro hx
                  have hx' : (Scanner.afterScan t).inLoop = true := hx
                  rw [inLoop_afterScan] at hx'
                  cases hx')
               | (right; apply hin; rw [hpc]; rfl)
               | (left; show (Scanner.afterScan t).pastLoop = t.pc.pastLoop
                  rw [pastLoop_afterScan, hpc]; rfl)
               | (left; rw [hpc]; rfl))
          | (exfalso; simp_all)

theorem errorsOk_start (path : String) (fs : Entry) (n : Nat) :
    ErrorsOk ((Scanner.init path fs n).start).events ((Scanner.init path fs n).start).pool := by
  refine ⟨?_, fun m => ?_⟩
  · intro j tj hj
    cases j with
    | zero =>
      simp only [Scanner.start, Scanner.init, Bool.false_eq_true, if_false, List.nil_append,
        List.getElem?_cons_zero, Option.some.injEq] at hj
      subst hj
      intro hx
      cases hx
    | succ j => simp [Scanner.start, Scanner.init] at hj
  · simp [Scanner.start, Scanner.init, errorsOf, errorTally, Task.errored, PC.pastLoop]

/-- All the `finished` signals of one scan carry the root item of the scan. -/
theorem finishedRoot_step (s s' : Scanner) (a : Action) (ha : a.notStart = true)
    (h : ∀ r, Event.finished r ∈ s.events → r = s.m_rootItem) (hstep : s.step a = some s') :
    s'.m_rootItem = s.m_rootItem ∧ ∀ r, Event.finished r ∈ s'.events → r = s'.m_rootItem := by
  have key : s'.m_rootItem = s.m_rootItem ∧
      (s'.events = s.events ∨ ∃ ev, s'.events = s.events ++ [ev] ∧
        (ev = Event.finished s.m_rootItem ∨ ∀ r, ev ≠ Event.finished r)) := by
    cases a with
    | start => simp [Action.notStart] at ha
    | stop =>
      simp only [Scanner.step] at hstep
      split at hstep
      · simp only [Option.some.injEq] at hstep
        subst hstep
        unfold Scanner.stop
        split <;> exact ⟨rfl, Or.inl rfl⟩
      · simp at hstep
    | main => exact Scanner.mainStep_events s s' hstep
    | task i =>
      simp only [Scanner.step] at hstep
      cases ht : s.pool[i]? with
      | none => simp [ht] at hstep
      | some t =>
        simp only [ht] at hstep
        exact Scanner.taskStep_events s s' i t hstep
  refine ⟨key.1, ?_⟩
  intro r hr
  rw [key.1]
  rcases key.2 with he | ⟨ev, he, hev⟩
  · rw [he] at hr; exact h r hr
  · rw [he] at hr
    rcases List.mem_append.1 hr with h1 | h1
    · exact h r h1
    · simp only [List.mem_singleton] at h1
      rcases hev with h2 | h2
      · rw [h2] at h1
        simpa using h1
      · exact absurd h1.symm (h2 r)

theorem finishedRoot_run (sched : List Action) :
    ∀ (s s' : Scanner), sched.all Action.notStart = true →
      (∀ r, Event.finished r ∈ s.events → r = s.m_rootItem) → s.run sched = some s' →
      ∀ r, Event.finished r ∈ s'.events → r = s'.m_rootItem := by
  induction sched with
  | nil =>
    intro s s' _ h hr
    simp only [Scanner.run, Option.some.injEq] at hr
    subst hr
    exact h
  | cons a as ih =>
    intro s s' hall h hr
    simp only [List.all_cons, Bool.and_eq_true] at hall
    simp only [Scanner.run] at hr
    cases hs : s.step a with
    | none => simp [hs] at hr
    | some s1 =>
      simp only [hs] at hr
      exact ih s1 s' hall.2 (finishedRoot_step s s1 a hall.1 h hs).2 hr

theorem errors_run (sched : List Action) :
    ∀ (s s' : Scanner), sched.all Action.internal = true →
      ActiveOk s.pool s.m_activeTasks → NoStop s → Completing s → ErrorsOk s.events s.pool →
      s.run sched = some s' → ErrorsOk s'.events s'.pool := by
  induction sched with
  | nil =>
    intro s s' _ _ _ _ h hr
    simp only [Scanner.run, Option.some.injEq] at hr
    subst hr
    exact h
  | cons a as ih =>
    intro s s' hall h1 h2 h3 h4 hr
    simp only [List.all_cons, Bool.and_eq_true] at hall
    simp only [Scanner.run] at hr
    cases hs : s.step a with
    | none => simp [hs] at hr
    | some s1 =>
      simp only [hs] at hr
      exact ih s1 s' hall.2 (activeOk_step s s1 a (internal_notStart hall.1) h1 hs)
        (noStop_step s s1 a hall.1 h2 hs) (completing_step s s1 a hall.1 h2.1 h1 h3 hs)
        (errorsOk_step s s1 a hall.1 h2.1 h3.1 h4 hs) hr

/-- Every invariant of a scan of an existing root directory without `stop()`,
in every state of every run of one `start()`. -/
theorem complete_run (path : String) (fs : Entry) (n : Nat) (hfs : fs.dirExists = true)
    (sched : List Action) (s : Scanner) (hsched : sched.all Action.internal = true)
    (hrun : ((Scanner.init path fs n).start).run sched = some s) :
    ActiveOk s.pool s.m_activeTasks ∧ NoStop s ∧ Completing s ∧ ErrorsOk s.events s.pool ∧
      ∀ r, Event.finished r ∈ s.events → r = s.m_rootItem := by
  have h1 := live_run sched _ s hsched (activeOk_start path fs n) (noStop_start path fs n)
    (completing_start path fs n hfs) hrun
  exact ⟨h1.1, h1.2.1, h1.2.2,
    errors_run sched _ s hsched (activeOk_start path fs n) (noStop_start path fs n)
      (completing_start path fs n hfs) (errorsOk_start path fs n) hrun,
    finishedRoot_run sched _ s (all_notStart_of_internal hsched)
      (by simp [Scanner.start, Scanner.init]) hrun⟩

/-! ### A subdirectory that cannot be listed -/

/-- The tree once every task of a scan without `stop()` has ended, with the
invariants it satisfies. -/
theorem final_tree (path : String) (fs : Entry) (n : Nat) (sched : List Action) (s : Scanner)
    (hsched : sched.all Action.internal = true)
    (hrun : ((Scanner.init path fs n).start).run sched = some s)
    (hdone : s.pool.all (fun t => t.pc.isDone) = true) :
    ∃ tree, ScanOk s tree ∧ ShapeOk s.pool tree ∧
      RootOk path fs (Scanner.init path fs n).rootItem.info s.pool tree ∧
      tree = FileItem.mk (if fs.fileName.isEmpty then path else fs.fileName) path 0
        fs.lastModified true (scanTree path fs) 0 false := by
  obtain ⟨tree, hS, hSh, _, hT, hR⟩ := scan_reach path fs n sched s hsched hrun
  refine ⟨tree, hS, hSh, hR, ?_⟩
  have hpast : ∀ (j : Nat) (tj : Task), s.pool[j]? = some tj → tj.pc.pastLoop = true := by
    intro j tj hj
    rw [List.all_eq_true] at hdone
    exact pastLoop_of_isDone (hdone tj (List.getElem?_mem hj))
  obtain ⟨hinfo, t0, h0, hroot, hdir, hpath⟩ := hR
  have hp0 := (hSh.1 0 t0 h0).2.1 hroot
  have hch := recon_entry s.pool tree hT hSh.1 hpast fs 0 t0 h0 hdir tree
    (by rw [hp0]; rfl)
  have hch' : tree.children = scanTree path fs := by
    rw [hch, scanTree_eq, hpath]
    simp only [Task.listing, hdir]
  exact FileItem.eq_of_info hinfo hT.1 hch'

theorem eq_nil_of_count {l : List String} (h : ∀ m, l.count m = 0) : l = [] := by
  cases l with
  | nil => rfl
  | cons a as =>
    have := h a
    simp at this

theorem eq_singleton_of_count {l : List String} {a : String}
    (h : ∀ m, l.count m = if a = m then 1 else 0) : l = [a] := by
  have hmem : ∀ b ∈ l, b = a := by
    intro b hb
    by_contra hne
    have h1 := h b
    rw [if_neg (fun h => hne h.symm)] at h1
    exact (List.count_eq_zero.1 h1) hb
  have hrep : l = List.replicate l.length a := List.eq_replicate_iff.2 ⟨rfl, hmem⟩
  have h1 := h a
  rw [if_pos rfl, hrep, List.count_replicate_self] at h1
  rw [hrep, h1]
  rfl

/-- The pointers to directory nodes of the tree of `fsUnlisted`: the root and
its first child. -/
theorem refOk_unlisted {path : String} {size : Nat} {r : ItemRef}
    (h : RefOk (unlistedTree path size) r) : r = ⟨0, []⟩ ∨ r = ⟨0, [0]⟩ := by
  obtain ⟨hr, n, hn, hd⟩ := h
  cases r with
  | mk root p =>
    simp only at hr
    subst hr
    cases p with
    | nil => exact Or.inl rfl
    | cons k p =>
      cases k with
      | zero =>
        cases p with
        | nil => exact Or.inr rfl
        | cons k2 p2 =>
          simp [unlistedTree, FileItem.nodeAt, FileItem.children] at hn
      | succ k =>
        cases k with
        | zero =>
          cases p with
          | nil =>
            simp only [unlistedTree, FileItem.nodeAt, FileItem.children,
              List.getElem?_cons_succ, List.getElem?_cons_zero, Option.some.injEq] at hn
            subst hn
            simp [FileItem.isDirectory] at hd
          | cons k2 p2 =>
            simp [unlistedTree, FileItem.nodeAt, FileItem.children] at hn
        | succ k =>
          simp [unlistedTree, FileItem.nodeAt, FileItem.children] at hn

/-- The tasks of a complete scan of `fsUnlisted`: the task of `start()` and
the task of `sub2`. -/
theorem pool_unlisted (path : String) (size : Nat) (ex : Bool) (n : Nat) (s : Scanner)
    (hS : ScanOk s (unlistedTree path size)) (hSh : ShapeOk s.pool (unlistedTree path size))
    (hR : RootOk path (fsUnlisted size ex) (Scanner.init path (fsUnlisted size ex) n).rootItem.info
      s.pool (unlistedTree path size))
    (hdone : s.pool.all (fun t => t.pc.isDone) = true) :
    ∃ t0 t1, s.pool = [t0, t1] ∧ t0.dir = fsUnlisted size ex ∧
      t1.dir = Entry.dir "sub2" 0 false ex [] ∧ t1.path = path ++ "/" ++ "sub2" := by
  obtain ⟨-, t0, h0, hroot, hdir, hpath⟩ := hR
  rw [List.all_eq_true] at hdone
  obtain ⟨-, hp0, -, pre, node, g1, -, -, -, g5⟩ := hSh.1 0 t0 h0
  have hp0' := hp0 hroot
  have hpl := pastLoop_of_isDone (hdone t0 (List.getElem?_mem h0))
  obtain ⟨c1, c2⟩ := PC.pastLoop_cur_todo hpl t0.listing
  rw [c1, c2] at g1
  simp only [List.append_nil] at g1
  have hl : t0.listing = [Entry.dir "sub2" 0 false ex [], Entry.file "a.txt" size 0] := by
    simp [Task.listing, hdir, fsUnlisted, Entry.dirExists, Entry.entryInfoList, Entry.entries,
      Entry.isDir]
  rw [← g1, hl, hp0', hpath] at g5
  simp only [Dispatched, Entry.isDir, Entry.isSymLink, Bool.not_false, Bool.and_self,
    forall_const, List.nil_append] at g5
  obtain ⟨⟨j, tj, hj, hpj, hdj, hpathj⟩, -⟩ := g5
  have hall : ∀ (k : Nat) (tk : Task), s.pool[k]? = some tk → k = 0 ∨ k = j := by
    intro k tk hk
    rcases refOk_unlisted (hS.1.2.2.2 k tk hk).1 with h | h
    · exact Or.inl (hSh.2.1 k 0 tk t0 hk h0 (by rw [h, hp0']))
    · exact Or.inr (hSh.2.1 k j tk tj hk hj (by rw [h, hpj]))
  have hj0 : j ≠ 0 := by
    intro h
    subst h
    rw [h0] at hj
    simp only [Option.some.injEq] at hj
    subst hj
    rw [hp0'] at hpj
    simp at hpj
  have hjl : j < s.pool.length := (List.getElem?_eq_some_iff.1 hj).1
  have h1 : j = 1 := by
    have h1l : 1 < s.pool.length := by omega
    rcases hall 1 _ (List.getElem?_eq_getElem h1l) with h | h
    · omega
    · exact h.symm
  subst h1
  have hlen : s.pool.length = 2 := by
    by_contra hne
    have h2l : 2 < s.pool.length := by omega
    rcases hall 2 _ (List.getElem?_eq_getElem h2l) with h | h <;> omega
  refine ⟨t0, tj, ?_, hdir, hdj, hpathj⟩
  cases hpool : s.pool with
  | nil => simp [hpool] at hlen
  | cons a as =>
    cases as with
    | nil => simp [hpool] at hlen
    | cons b bs =>
      cases bs with
      | nil =>
        rw [hpool] at h0 hj
        simp only [List.getElem?_cons_zero, List.getElem?_cons_succ, Option.some.injEq] at h0 hj
        rw [h0, hj]
      | cons c cs => simp [hpool] at hlen
/-- C11 (as amended): for the root that holds the file `a.txt` and the
subdirectory `sub2` of which nothing can be listed, in a run of one `start()`
without `stop()`: the scan can always be run to its end, and whenever nothing
is left to run, whatever the interleaving was, (1) there is exactly one `error`
signal, naming the path of `sub2`, if `sub2` did not exist as a directory when
its task opened it, and there is no `error` signal if `sub2` exists (and merely
yields no entry); (2) the tree is the root with the children `sub2`, which has
no children, and `a.txt` with its size, and one file and its bytes are counted
(`m_totalSize`, a `qint64`, is the size reduced to the range of `qint64`: the
size itself when that is below 2^63); (3) the task of `sub2` has ended and `m_activeTasks` is back at 0; (4)
`finished` has been emitted, every `finished` carries the root item, which is
not null, and `m_running` is false. -/
theorem C11_unlisted_subdirectory_error_only_if_missing (path : String) (size : Nat)
    (ex : Bool) (idealThreadCount : Nat) :
    (∃ (sched : List Action) (s : Scanner), sched.all Action.internal = true ∧
      ((Scanner.init path (fsUnlisted size ex) idealThreadCount).start).run sched = some s ∧
      s.atRest) ∧
    ∀ (sched : List Action) (s : Scanner), sched.all Action.internal = true →
      ((Scanner.init path (fsUnlisted size ex) idealThreadCount).start).run sched = some s →
      s.atRest →
      errorsOf s.events =
        (if ex then [] else ["Директория не существует: " ++ (path ++ "/" ++ "sub2")]) ∧
      s.items = [unlistedTree path size] ∧ s.m_rootItem = some 0 ∧
      s.m_scannedFiles = 1 ∧ s.m_totalSize = wrap64 size ∧
      ((size : Int) < 2 ^ 63 → s.m_totalSize = size) ∧
      (∃ t0 t1, s.pool = [t0, t1] ∧ t1.dir = Entry.dir "sub2" 0 false ex [] ∧
        t1.pc.isDone = true) ∧
      s.m_activeTasks = 0 ∧
      0 < finishedCount s.events ∧ (∀ r, Event.finished r ∈ s.events → r = some 0) ∧
      s.m_running = false := by
  have hfs : (fsUnlisted size ex).dirExists = true := rfl
  refine ⟨?_, ?_⟩
  · exact scan_terminates _ _ _ (le_refl _) (scanOk_start path _ idealThreadCount)
      (noStop_start path _ idealThreadCount)
  · intro sched s hsched hrun hrest
    obtain ⟨hA, -, hC, hE, hF⟩ := complete_run path _ idealThreadCount hfs sched s hsched hrun
    obtain ⟨tree, hS, hSh, hR, htree⟩ :=
      final_tree path _ idealThreadCount sched s hsched hrun hrest.1
    have htree' : tree = unlistedTree path size := by
      rw [htree]
      cases ex <;> rfl
    subst htree'
    obtain ⟨t0, t1, hpool, hd0, hd1, hp1⟩ :=
      pool_unlisted path size ex idealThreadCount s hS hSh hR hrest.1
    have hdone := hrest.1
    rw [hpool] at hdone
    simp only [List.all_cons, List.all_nil, Bool.and_true, Bool.and_eq_true] at hdone
    have hq := hS.quiescent (isDone_not_inLock hrest.1)
    obtain ⟨hfin, hrunning⟩ := completing_atRest hC hrest
    have hnodes : (unlistedTree path size).fileNodes = 1 := rfl
    have hbytes : s.m_totalSize = wrap64 (size : Int) := by
      rw [hq.2]
      simp [unlistedTree, FileItem.fileBytes, FileItem.fileBytesList]
    refine ⟨?_, hS.1.1, hS.1.2.1, ?_, hbytes, ?_, ⟨t0, t1, hpool, hd1, hdone.2⟩,
      activeOk_atRest hA hrest.1, hfin, ?_, hrunning⟩
    · have hcount := hE.2
      rw [hpool] at hcount
      have he0 : t0.errored = false := by simp [Task.errored, hd0, hfs]
      have he1 : t1.errored = !ex := by
        simp [Task.errored, hd1, Entry.dirExists, pastLoop_of_isDone hdone.2]
      simp only [errorTally, List.map_cons, List.map_nil, List.sum_cons, List.sum_nil, he0, he1,
        Bool.false_and, Bool.false_eq_true, if_false, zero_add, add_zero, Task.errorMessage,
        hp1] at hcount
      cases ex with
      | true =>
        simp only [Bool.not_true, Bool.false_and, Bool.false_eq_true, if_false] at hcount
        simp only [if_true]
        exact eq_nil_of_count hcount
      | false =>
        simp only [Bool.not_false, Bool.true_and, decide_eq_true_eq] at hcount
        simp only [Bool.false_eq_true, if_false]
        exact eq_singleton_of_count hcount
    · rw [hq.1, hnodes]
      decide
    · intro hlt
      rw [hbytes]
      exact wrap64_of_fits ⟨by omega, hlt⟩
    · intro r hr
      rw [hF r hr, hS.1.2.1]

/-- Witness of C11 (as amended): the complete scan of a root whose `sub2` has
vanished. -/
theorem C11_unlisted_subdirectory_error_only_if_missing_witness :
    (schedUnlisted 6).tail.all Action.internal = true ∧
    ((Scanner.init "/root" (fsUnlisted 100 false) 2).start).run (schedUnlisted 6).tail =
      some stateVanished ∧
    stateVanished.atRest ∧
    errorsOf stateVanished.events = ["Директория не существует: " ++ ("/root" ++ "/" ++ "sub2")] ∧
    stateVanished.items = [unlistedTree "/root" 100] :=
  ⟨by decide, rfl, ⟨by decide, by decide, by decide⟩,
    ((C11_unlisted_subdirectory_error_only_if_missing "/root" 100 false 2).2
      (schedUnlisted 6).tail stateVanished (by decide) rfl
      ⟨by decide, by decide, by decide⟩).1,
    ((C11_unlisted_subdirectory_error_only_if_missing "/root" 100 false 2).2
      (schedUnlisted 6).tail stateVanished (by decide) rfl
      ⟨by decide, by decide, by decide⟩).2.1⟩

/-! ### A root without subdirectories -/

theorem soloOk_step (s s' : Scanner) (a : Action) (ha : a.internal = true) (h : SoloOk s)
    (hstep : s.step a = some s') : SoloOk s' := by
  obtain ⟨hp, hm, hact, hc, hlen, hall⟩ := h
  cases a with
  | start => simp [Action.internal] at ha
  | stop => simp [Action.internal] at ha
  | main =>
    simp [Scanner.step, Scanner.mainStep, hm, hp] at hstep
  | task i =>
    simp only [Scanner.step] at hstep
    cases ht : s.pool[i]? with
    | none => simp [ht] at hstep
    | some t =>
      simp only [ht] at hstep
      have hi : i < s.pool.length := (List.getElem?_eq_some_iff.1 ht).1
      have hi0 : i = 0 := by omega
      subst hi0
      obtain ⟨hroot, hpath, hex, htodo, hphase⟩ := hall t ht
      have hl0 : 0 < s.pool.length := by omega
      unfold Scanner.taskStep at hstep
      cases hpc : t.pc with
      | handler hh =>
        simp only [hpc, Option.some.injEq] at hstep
        subst hstep
        rw [hpc] at hphase htodo
        cases hh with
        | enter =>
          refine ⟨hp, hm, hact, hc, by simpa [Scanner.otfState, Scanner.goto, Scanner.setTask]
            using hlen, ?_⟩
          intro t' ht'
          simp only [Scanner.otfState, Scanner.otfNext, Scanner.goto, Scanner.setTask, hc,
            List.getElem?_set_self hl0, Option.some.injEq, Bool.false_eq_true, if_false] at ht'
          subst ht'
          exact ⟨hroot, hpath, hex, by simp [PC.todo], hphase⟩
        | progress =>
          refine ⟨hp, hm, hact, hc, by simpa [Scanner.otfState, Scanner.goto, Scanner.setTask,
            Scanner.emit] using hlen, ?_⟩
          intro t' ht'
          simp only [Scanner.otfState, Scanner.otfNext, Scanner.goto, Scanner.setTask,
            Scanner.emit, List.getElem?_set_self hl0, Option.some.injEq] at ht'
          subst ht'
          exact ⟨hroot, hpath, hex, by simp [PC.todo], ⟨s.events, rfl, hphase⟩⟩
        | finished =>
          obtain ⟨pre, he, hf⟩ := hphase
          refine ⟨hp, hm, hact, hc, by simpa [Scanner.otfState, Scanner.goto, Scanner.setTask,
            Scanner.emit] using hlen, ?_⟩
          intro t' ht'
          simp only [Scanner.otfState, Scanner.otfNext, Scanner.goto, Scanner.setTask,
            Scanner.emit, List.getElem?_set_self hl0, Option.some.injEq] at ht'
          subst ht'
          refine ⟨hroot, hpath, hex, by simp [PC.todo], ⟨pre, ?_, hf⟩⟩
          simp [Scanner.otfState, Scanner.goto, Scanner.setTask, Scanner.emit, he]
        | running =>
          refine ⟨hp, hm, hact, hc, by simpa [Scanner.otfState, Scanner.goto, Scanner.setTask]
            using hlen, ?_⟩
          intro t' ht'
          simp only [Scanner.otfState, Scanner.otfNext, Scanner.goto, Scanner.setTask,
            Scanner.afterScan, hroot, if_true,
            List.getElem?_set_self hl0, Option.some.injEq] at ht'
          subst ht'
          exact ⟨rfl, hpath, hex, by simp [PC.todo], hphase, rfl⟩
        | cancelRunning => exact absurd hphase (by simp [SoloPhase])
        | cancelProgress => exact absurd hphase (by simp [SoloPhase])
      | _ =>
        simp only [hpc] at hstep
        rw [hpc] at hphase htodo
        repeat' split at hstep
        all_goals first
          | (simp at hstep; done)
          | (exfalso; revert hphase; simp [SoloPhase]; done)
          | ((try simp only [Option.some.injEq] at hstep)
             subst hstep
             refine ⟨hp, hm, hact, hc, by simpa [Scanner.goto, Scanner.setTask,
               Scanner.addChildRef, Scanner.emit] using hlen, ?_⟩
             intro t' ht'
             simp only [Scanner.goto, Scanner.setTask, Scanner.addChildRef, Scanner.emit,
               List.getElem?_set_self hl0, Option.some.injEq] at ht'
             subst ht'
             refine ⟨hroot, hpath, hex, ?_, ?_⟩
             · intro e he
               apply htodo
               simp only [PC.todo] at he ⊢
               first
                 | exact he
                 | exact List.mem_cons_of_mem _ he
             · show finishedCount _ = 0
               simpa [Scanner.goto, Scanner.setTask, Scanner.addChildRef, Scanner.emit,
                 finishedCount_emit] using hphase)
          | (exfalso
             simp_all [PC.todo, Entry.isSubdir])

theorem soloOk_start (path : String) (fs : Entry) (n : Nat) (hex : fs.dirExists = true)
    (hsub : ∀ e ∈ fs.entries, e.isSubdir = false) : SoloOk ((Scanner.init path fs n).start) := by
  refine ⟨rfl, rfl, rfl, rfl, rfl, ?_⟩
  intro t ht
  simp only [Scanner.start, Scanner.init, Bool.false_eq_true, if_false, List.nil_append,
    List.getElem?_cons_zero, Option.some.injEq] at ht
  subst ht
  refine ⟨rfl, rfl, hex, ?_, rfl⟩
  intro e he
  apply hsub
  simp only [PC.todo, Entry.entryInfoList, if_true, List.mem_append, List.mem_filter] at he
  rcases he with h | h <;> exact h.1

theorem solo_run (sched : List Action) :
    ∀ (s s' : Scanner), sched.all Action.internal = true → SoloOk s →
      s.run sched = some s' → SoloOk s' := by
  induction sched with
  | nil =>
    intro s s' _ h hr
    simp only [Scanner.run, Option.some.injEq] at hr
    subst hr
    exact h
  | cons a as ih =>
    intro s s' hall h hr
    simp only [List.all_cons, Bool.and_eq_true] at hall
    simp only [Scanner.run] at hr
    cases hs : s.step a with
    | none => simp [hs] at hr
    | some s1 =>
      simp only [hs] at hr
      exact ih s1 s' hall.2 (soloOk_step s s1 a hall.1 h hs) hr

/-- C17: for every existing root directory none of whose entries is a directory
other than a symbolic link, in a run of one `start()` without `stop()`: no
subtask is ever dispatched, no completion call is ever queued and the object's
thread never leaves its event loop, so the completion is the work of the
`scanDirectory` call of the root itself; the scan can always be run to its end;
and when nothing is left to run the event stream ends with
`progress(100, "Завершено", m_scannedFiles, m_totalSize)` followed by
`finished(root)`, this is the only `finished`, and `m_running` is false. -/
theorem C17_root_without_subdirectories_completes_itself (path : String) (fs : Entry)
    (idealThreadCount : Nat) (hex : fs.dirExists = true)
    (hsub : ∀ e ∈ fs.entries, e.isSubdir = false) :
    (∃ (sched : List Action) (s : Scanner), sched.all Action.internal = true ∧
      ((Scanner.init path fs idealThreadCount).start).run sched = some s ∧ s.atRest) ∧
    ∀ (sched : List Action) (s : Scanner), sched.all Action.internal = true →
      ((Scanner.init path fs idealThreadCount).start).run sched = some s →
      (s.pool.length = 1 ∧ s.pendingCalls = 0 ∧ s.mainThread = MainPC.idle ∧
        s.m_activeTasks = 0) ∧
      (s.atRest →
        (∃ pre, s.events = pre ++ [Event.progress 100 "Завершено" s.m_scannedFiles s.m_totalSize,
          Event.finished (some 0)] ∧ finishedCount pre = 0) ∧
        finishedCount s.events = 1 ∧ s.m_rootItem = some 0 ∧ s.m_running = false) := by
  refine ⟨?_, ?_⟩
  · exact scan_terminates _ _ _ (le_refl _) (scanOk_start path _ idealThreadCount)
      (noStop_start path _ idealThreadCount)
  · intro sched s hsched hrun
    obtain ⟨hp, hm, hact, -, hlen, hall⟩ :=
      solo_run sched _ s hsched (soloOk_start path fs idealThreadCount hex hsub) hrun
    refine ⟨⟨hlen, hp, hm, hact⟩, ?_⟩
    intro hrest
    obtain ⟨tree, hS⟩ := scanOk_run sched _ s _ (all_notStart_of_internal hsched)
      (scanOk_start path fs idealThreadCount) hrun
    have hroot := hS.1.2.1
    have hl0 : 0 < s.pool.length := by omega
    obtain ⟨-, -, -, -, hphase⟩ := hall _ (List.getElem?_eq_getElem hl0)
    have hd := hrest.1
    rw [List.all_eq_true] at hd
    have hdone := hd _ (List.getElem_mem hl0)
    have hpc : (s.pool[0]).pc = PC.done := by
      cases h : (s.pool[0]).pc <;> simp [h, PC.isDone] at hdone
      rfl
    rw [hpc] at hphase
    obtain ⟨⟨pre, he, hf⟩, hrunning⟩ := hphase
    rw [hroot] at he
    refine ⟨⟨pre, he, hf⟩, ?_, hroot, hrunning⟩
    rw [he, finishedCount_append, hf]
    rfl

/-- Witness of C17: the complete scan of a root whose only entry is a symbolic
link to a directory. -/
theorem C17_root_without_subdirectories_completes_itself_witness :
    fsLink.dirExists = true ∧ (∀ e ∈ fsLink.entries, e.isSubdir = false) ∧
    ((Scanner.init "/root" fsLink 2).start).run schedLink.tail = some stateLink ∧
    stateLink.atRest ∧ finishedCount stateLink.events = 1 ∧ stateLink.m_running = false :=
  ⟨rfl, by decide, rfl, ⟨by decide, by decide, by decide⟩,
    (((C17_root_without_subdirectories_completes_itself "/root" fsLink 2 rfl (by decide)).2
      schedLink.tail stateLink (by decide) rfl).2 ⟨by decide, by decide, by decide⟩).2.1,
    (((C17_root_without_subdirectories_completes_itself "/root" fsLink 2 rfl (by decide)).2
      schedLink.tail stateLink (by decide) rfl).2 ⟨by decide, by decide, by decide⟩).2.2.2⟩

/-! ### The counter of outstanding subtasks and the end of the session -/

theorem sum_counted_eq_zero (pool : List Task) :
    (pool.map Task.counted).sum = 0 ↔ ∀ t ∈ pool, t.counted = 0 := by
  induction pool with
  | nil => simp
  | cons a as ih =>
    have h1 := counted_nonneg a
    have h2 := sum_counted_nonneg as
    simp only [List.map_cons, List.sum_cons, List.mem_cons, forall_eq_or_imp]
    constructor
    · intro h
      exact ⟨by omega, ih.1 (by omega)⟩
    · intro h
      rw [h.1, ih.2 h.2]
      rfl

/-- C14 (as amended): in every state of every run of one `start()`, with or
without `stop()`, `m_activeTasks`, an `int`, is the number of subtasks that have
been counted by `m_activeTasks++` and have not yet made their `m_activeTasks--`
(those that `stop()` dropped from the queue stay counted), reduced to the range
of `int`; with fewer than 2^31 of them it is that number, so it is not negative
and it is 0 exactly when no such subtask is outstanding. `start()` leaves the
session running with the counter at 0, and the counter is 0 in every state in
which the pool holds nothing but the lambda of `start()`, not between an
`m_activeTasks++` and the submission that follows it. Once the wait loop of
`stop()` has made its 50 rounds, `stop()` goes on to `m_running = false` and
leaves the counter as it is, whatever its value. In a scan of an existing root
directory without `stop()`, once nothing is left to run the counter is 0 and
`m_running` is false. -/
theorem C14_activeTasks_counts_outstanding_subtasks (path : String) (fs : Entry)
    (idealThreadCount : Nat) (sched : List Action) (s : Scanner)
    (hsched : sched.all Action.notStart = true)
    (hrun : ((Scanner.init path fs idealThreadCount).start).run sched = some s) :
    s.m_activeTasks = wrapInt ((s.pool.map Task.counted).sum) ∧
    ((s.pool.map Task.counted).sum < 2 ^ 31 →
      s.m_activeTasks = (s.pool.map Task.counted).sum ∧ 0 ≤ s.m_activeTasks ∧
      (s.m_activeTasks = 0 ↔ ∀ t ∈ s.pool, t.counted = 0)) ∧
    (((Scanner.init path fs idealThreadCount).start).m_running = true ∧
      ((Scanner.init path fs idealThreadCount).start).m_activeTasks = 0) ∧
    ((∀ t ∈ s.pool, t.isRootTask = true ∧ ∀ item e rest, t.pc ≠ PC.dirRun item e rest) →
      s.m_activeTasks = 0) ∧
    (∀ timeout, 50 ≤ timeout → s.mainThread = MainPC.stopPoll timeout →
      ∃ s', s.run [Action.main, Action.main, Action.main] = some s' ∧
        s'.m_running = false ∧ s'.m_activeTasks = s.m_activeTasks ∧
        s'.mainThread = MainPC.idle) ∧
    (fs.dirExists = true → sched.all Action.internal = true → s.atRest →
      s.m_activeTasks = 0 ∧ s.m_running = false) := by
  have hA := active_run sched _ s hsched (activeOk_start path fs idealThreadCount) hrun
  refine ⟨hA.2, ?_, ⟨rfl, rfl⟩, ?_, ?_, ?_⟩
  · intro hlt
    have heq : s.m_activeTasks = (s.pool.map Task.counted).sum := by
      rw [hA.2]
      exact wrapInt_of_fits (by have := sum_counted_nonneg s.pool; omega) hlt
    refine ⟨heq, ?_, ?_⟩
    · rw [heq]; exact sum_counted_nonneg _
    · rw [heq]; exact sum_counted_eq_zero _
  · intro hall
    have hsum : (s.pool.map Task.counted).sum = 0 := by
      rw [sum_counted_eq_zero]
      intro t ht
      obtain ⟨hroot, hpc⟩ := hall t ht
      unfold Task.counted
      rw [hroot]
      cases h : t.pc with
      | dirRun item e rest => exact absurd h (hpc item e rest)
      | _ => rfl
    rw [hA.2, hsum]
    decide
  · intro timeout hto hm
    have hlt : ¬ timeout < 50 := by omega
    by_cases hpos : s.m_activeTasks > 0
    · refine ⟨{ s with pool := s.pool.map Scanner.clearTask, m_running := false,
                       mainThread := MainPC.idle }, ?_, rfl, rfl, rfl⟩
      simp [Scanner.run, Scanner.step, Scanner.mainStep, hm, hlt, hpos]
    · refine ⟨{ s with m_running := false, mainThread := MainPC.idle }, ?_, rfl, rfl, rfl⟩
      simp [Scanner.run, Scanner.step, Scanner.mainStep, hm, hlt, hpos]
  · intro hfs hint hrest
    obtain ⟨hA', -, hC, -, -⟩ := complete_run path fs idealThreadCount hfs sched s hint hrun
    exact ⟨activeOk_atRest hA' hrest.1, (completing_atRest hC hrest).2⟩

/-- Witness of C14 (as amended): after the `stop()` whose wait loop expired, the
counter is 1, for the task of `a`. -/
theorem C14_activeTasks_counts_outstanding_subtasks_witness :
    ((Scanner.init "/r" fsTwoDirs 2).start).run schedExpire.tail = some stateExpire ∧
    stateExpire.m_activeTasks = 1 ∧ stateExpire.m_running = false ∧
    stateExpire.m_activeTasks = (stateExpire.pool.map Task.counted).sum :=
  ⟨rfl, by decide, by decide,
    ((C14_activeTasks_counts_outstanding_subtasks "/r" fsTwoDirs 2 schedExpire.tail stateExpire
      (by decide) rfl).2.1 (by decide)).1⟩

/-! ### The session: evaluations -/

/-- C2: on a root with two empty subdirectories, in a run without any `stop()`,
each subdirectory task brings `m_activeTasks` to zero while the root scan is
still listing and queues `onTaskFinished`, and the root scan calls it once
more: `finished(root)` is emitted three times after one `start()`. -/
theorem C2_finished_emitted_three_times :
    ((Scanner.init "/r" fsTwoDirs 2).run schedTwoDirs).map
        (fun s => (finishedCount s.events, s.m_cancelRequested, s.pool.length)) =
      some (3, false, 3) ∧
    schedTwoDirs.countP (fun a => a = Action.start) = 1 ∧
    schedTwoDirs.countP (fun a => a = Action.stop) = 0 := by
  decide

/-- C7: at the 21474837th recorded file of a tree of 21474837 files the product
`m_scannedFiles * 100` leaves the range of `int`: the percent computed is -99,
where the integer quotient is 100 (one file earlier the two agree). -/
theorem C7_percent_product_overflows :
    percentOf 21474837 21474837 = -99 ∧ (21474837 * 100 : Int) / 21474837 = 100 ∧
    percentOf 21474836 21474836 = 100 := by
  decide

/-- C5 (as stated) fails: the complete scan of a root whose only entry is the
symbolic link `link` to a directory ends (one `finished`, session not running)
with a root item that has no child at all, so no node named `link`. -/
theorem C5_no_node_for_symlinked_directory :
    ((Scanner.init "/root" fsLink 2).run schedLink).map
        (fun s => (s.m_running, finishedCount s.events, s.pool.map (fun t => t.pc.onThread),
          s.items.map (fun t => t.children.length))) =
      some (false, 1, [false], [0]) := by
  decide

/-- C9 (as stated) fails: on `fsExample` the root scan reads the flag as false
before dispatching `sub`, `stop()` then sets it, and the next two steps of the
root scan still increment `m_activeTasks` and submit the task of `sub`. -/
theorem C9_dispatch_after_cancel_requested :
    ((Scanner.init "/root" fsExample 2).run schedRace).map
        (fun s => (s.m_cancelRequested, s.m_activeTasks, s.pool.length)) =
      some (true, 0, 1) ∧
    ((Scanner.init "/root" fsExample 2).run (schedRace ++ [Action.task 0])).map
        (fun s => (s.m_cancelRequested, s.m_activeTasks, s.pool.length)) =
      some (true, 1, 1) ∧
    ((Scanner.init "/root" fsExample 2).run (schedRace ++ [Action.task 0, Action.task 0])).map
        (fun s => (s.m_cancelRequested, s.m_activeTasks, s.pool.length)) =
      some (true, 1, 2) := by
  decide

/-- C10 (as stated) fails: for a root path at which nothing exists, the run of
`start()` emits a `progress` signal before its one `error` signal, and when the
root task has ended (nothing is left to run) `m_running` is still true. -/
theorem C10_progress_emitted_and_left_running :
    ((Scanner.init "/nope" fsMissing 2).run schedMissing).map
        (fun s => (s.events, s.m_running, s.pool.map (fun t => t.pc.onThread), s.pendingCalls,
          decide (s.mainThread = MainPC.idle))) =
      some ([Event.progress 0 "/nope" 0 0, Event.error "Директория не существует: /nope"],
        true, [false], 0, true) := by
  decide

/-- C14 (as stated) fails in both directions: right after `start()` the session
is running with `m_activeTasks` at 0 (and so it stays until the root scan
dispatches its first subdirectory); after a `stop()` whose wait loop expired the
session is not running with `m_activeTasks` at 1. -/
theorem C14_zero_while_running_and_terminal_while_nonzero :
    ((Scanner.init "/r" fsTwoDirs 2).run [Action.start]).map
        (fun s => (s.m_running, s.m_activeTasks)) = some (true, 0) ∧
    ((Scanner.init "/r" fsTwoDirs 2).run
        ([Action.start] ++ List.replicate 9 (Action.task 0))).map
        (fun s => (s.m_running, s.m_activeTasks)) = some (true, 0) ∧
    ((Scanner.init "/r" fsTwoDirs 2).run schedExpire).map
        (fun s => (s.m_running, s.m_activeTasks, decide (s.mainThread = MainPC.idle))) =
      some (false, 1, true) := by
  decide

/-- On `fsHuge` the complete scan counts two files and builds `hugeTree`; the
sizes of the file nodes sum to `2^63`, `m_totalSize` is `-2^63`, and so is what
`totalSize()` returns on the root item. -/
theorem totalSize_counter_wraps :
    ((Scanner.init "/root" fsHuge 2).run
        ([Action.start] ++ List.replicate 27 (Action.task 0))).map
        (fun s => (s.m_scannedFiles, s.m_totalSize)) = some (2, -2 ^ 63) ∧
    ((Scanner.init "/root" fsHuge 2).run
        ([Action.start] ++ List.replicate 27 (Action.task 0))).map (fun s => s.items) =
      some [hugeTree] ∧
    (FileItem.totalSize hugeTree).1 = -2 ^ 63 ∧ hugeTree.fileBytes = 2 ^ 63 :=
  ⟨by decide, rfl, by decide, by decide⟩

/-- C15: on a root with two empty subdirectories, `stop()` is called while the
task of the first subdirectory is outstanding and its wait loop expires; a new
`start()` sets `m_activeTasks` to 0; the outstanding task of the first scan
then makes its `m_activeTasks--`: the counter is -1. -/
theorem C15_activeTasks_negative_after_restart :
    ((Scanner.init "/r" fsTwoDirs 2).run schedExpire).map
        (fun s => (s.m_running, s.m_cancelRequested, s.m_activeTasks)) =
      some (false, true, 1) ∧
    ((Scanner.init "/r" fsTwoDirs 2).run schedRestart).map
        (fun s => (s.m_running, s.m_activeTasks)) = some (true, -1) := by
  decide

/-- C11 (as stated) fails: `sub2` exists but none of its entries can be listed
(permission denied): `QDir::exists()` holds and the listing is empty. The
complete scan (both tasks ended, nothing queued, `finished` emitted) has emitted
no `error` signal. -/
theorem C11_no_error_for_unreadable_subdirectory :
    ((Scanner.init "/root" (fsUnlisted 100 true) 2).run (schedUnlisted 8)).map
        (fun s => (errorsOf s.events, finishedCount s.events,
          s.pool.map (fun t => t.pc.isDone))) =
      some ([], 1, [true, true]) ∧
    ((Scanner.init "/root" (fsUnlisted 100 true) 2).run (schedUnlisted 8)).map
        (fun s => (s.pendingCalls, decide (s.mainThread = MainPC.idle), s.m_activeTasks,
          s.m_running)) =
      some (0, true, 0, false) := by
  decide

end DiskAnalyzer
